import Mathlib

/-!
Verification of the augmented B+ tree (`include/BPlusTree4.h`) and of the two
hybrid vector-index query planners (`include/vectorIndex.h`,
`include/probabilisticVectorIndex.h`) of this repository.

Embedding conventions:
* `BPlusTree<K,V>::Node` becomes an inductive type; pointer mutation becomes
  functional update along the descent path.  The source finds parents by
  re-descending from the root (`findParent`), so the net effect of one
  operation is exactly a bottom-up rebuild along the descent path, which is
  what the functional recursion computes.
* The `next` leaf pointer is not stored: the only writes to `next` in the
  source (`splitLeaf` lines 223-224, `mergeLeaf` line 653) keep it equal to
  the in-order successor leaf, so the leaf chain is recovered as the in-order
  list of leaves.
* C++ `int` counters become `Int` (or `Nat` where the source value is a
  container size), C++ `double`/`float` arithmetic is modelled by exact
  rationals, and code whose C++ behaviour is undefined (null-pointer
  dereference, out-of-range `operator[]`) is modelled by `Option` (a crash)
  or by an explicitly marked junk value that well-formedness proofs show to
  be unreachable.
* Thrown exceptions become `Except` errors.
-/

namespace BPlus

/-- `std::upper_bound` on a vector of keys: for sorted input, the index of the
first element strictly greater than `x` (the length of the prefix of elements
`≤ x`). -/
def upperBound {K : Type} [LinearOrder K] (l : List K) (x : K) : Nat :=
  (l.takeWhile (fun y => decide (¬ x < y))).length

/-- `std::lower_bound`: for sorted input, the index of the first element that
is not less than `x`. -/
def lowerBound {K : Type} [LinearOrder K] (l : List K) (x : K) : Nat :=
  (l.takeWhile (fun y => decide (y < x))).length

/-- A node of `BPlusTree<K,V>` (source lines 14-25): a leaf carries parallel
`keys` / `values` vectors (one id-list per key) plus the augmented
`subtree_size` field; an internal node carries separator `keys`, `children`
and `subtree_size`. -/
inductive Node (K V : Type) where
  | leaf (keys : List K) (values : List (List V)) (subtree_size : Int)
  | internal (keys : List K) (children : List (Node K V)) (subtree_size : Int)
deriving Repr

variable {K V : Type}

/-- Read the stored `subtree_size` field of a node. -/
def subtreeSizeOf : Node K V → Int
  | .leaf _ _ s => s
  | .internal _ _ s => s

/-- The `keys` vector of a node (meaningful for both variants). -/
def Node.keysOf : Node K V → List K
  | .leaf ks _ _ => ks
  | .internal ks _ _ => ks

/-- `updateSubtreeSize` on a leaf (source lines 138-143): the sum of the
lengths of its id-lists. -/
def sumLens (vs : List (List V)) : Int :=
  (vs.map fun l => (l.length : Int)).sum

/-- `updateSubtreeSize` on an internal node (source lines 144-150): the sum of
the children's *stored* `subtree_size` fields. -/
def childSum (cs : List (Node K V)) : Int :=
  (cs.map subtreeSizeOf).sum

mutual
/-- The (key, id-list) pairs stored in a subtree, in leaf order. -/
def entriesOf : Node K V → List (K × List V)
  | .leaf ks vs _ => ks.zip vs
  | .internal _ cs _ => entriesList cs
def entriesList : List (Node K V) → List (K × List V)
  | [] => []
  | c :: t => entriesOf c ++ entriesList t
end

mutual
/-- The leaves of a subtree in order; each leaf is its parallel
(keys, id-lists) pair.  By the `next`-pointer maintenance argument in the
header comment this list, read left to right, is the leaf chain. -/
def leavesOf : Node K V → List (List K × List (List V))
  | .leaf ks vs _ => [(ks, vs)]
  | .internal _ cs _ => leavesList cs
def leavesList : List (Node K V) → List (List K × List (List V))
  | [] => []
  | c :: t => leavesOf c ++ leavesList t
end

/-- Result of the recursive part of `insert`: either the updated subtree, or
the two halves and the promoted separator produced by a split. -/
inductive InsRes (K V : Type) where
  | one (n : Node K V)
  | split (l : Node K V) (sep : K) (r : Node K V)

/-- The leaf step of `insert` (source lines 186-196): locate the key with
`lower_bound`; append to its id-list when present, otherwise insert a new key
with a singleton id-list at that position. -/
def leafInsert [LinearOrder K] (k : K) (v : V) (ks : List K) (vs : List (List V)) :
    List K × List (List V) :=
  let i := lowerBound ks k
  match ks[i]? with
  | some kj =>
    if kj = k then (ks, vs.set i (vs.getD i [] ++ [v]))
    else (ks.insertIdx i k, vs.insertIdx i [v])
  | none => (ks.insertIdx i k, vs.insertIdx i [v])

mutual
/-- Functional form of `insert`'s descent (source lines 168-205): at an
internal node enter the child with index `upper_bound(keys, k)`; at the leaf
perform `leafInsert`; a leaf whose key count reaches `order` is split
(`splitLeaf`, lines 211-253) and the promoted separator is inserted into the
parent (`insertInternal`, lines 256-279), splitting internal nodes in turn
(`splitInternal`, lines 286-328).  The stored `subtree_size` fields are
recomputed exactly where `updateSubtreeSize` / `updateSubtreeSizesUpwards`
recompute them in the source: on both halves of every split and on every node
along the descent path. -/
def insertRec [LinearOrder K] (order : Nat) (k : K) (v : V) : Node K V → InsRes K V
  | .leaf ks vs _ =>
    let p := leafInsert k v ks vs
    if order ≤ p.1.length then
      let mid := (order + 1) / 2
      let lks := p.1.take mid
      let lvs := p.2.take mid
      let rks := p.1.drop mid
      let rvs := p.2.drop mid
      .split (.leaf lks lvs (sumLens lvs)) (rks.headD k) (.leaf rks rvs (sumLens rvs))
    else
      .one (.leaf p.1 p.2 (sumLens p.2))
  | .internal ks cs _ =>
    match insertChild order k v (upperBound ks k) cs with
    | none => .one (.internal ks cs (childSum cs))
    | some (cs1, none) => .one (.internal ks cs1 (childSum cs1))
    | some (cs1, some (s, r)) =>
      let j := upperBound ks s
      let ks1 := ks.insertIdx j s
      let cs2 := cs1.insertIdx (j + 1) r
      if order ≤ ks1.length then
        let mid := ks1.length / 2
        let upKey := ks1.getD mid s
        let lks := ks1.take mid
        let lcs := cs2.take (mid + 1)
        let rks := ks1.drop (mid + 1)
        let rcs := cs2.drop (mid + 1)
        .split (.internal lks lcs (childSum lcs)) upKey (.internal rks rcs (childSum rcs))
      else
        .one (.internal ks1 cs2 (childSum cs2))

/-- Walk to the `i`-th child and insert there; returns the updated children
list and, when that child split, the promoted separator with the new right
node (to be placed by `insertInternal` in the caller).  `none` models the
undefined out-of-range child access, unreachable on well-formed trees. -/
def insertChild [LinearOrder K] (order : Nat) (k : K) (v : V) :
    Nat → List (Node K V) → Option (List (Node K V) × Option (K × Node K V))
  | _, [] => none
  | 0, c :: t =>
    match insertRec order k v c with
    | .one c2 => some (c2 :: t, none)
    | .split l s r => some (l :: t, some (s, r))
  | i + 1, c :: t =>
    match insertChild order k v i t with
    | none => none
    | some (t2, sp) => some (c :: t2, sp)
end

/-- Result of the recursive part of `remove`: `notFound` models the early
`return` when the key is absent (no field of any node is written);
`done n updated` returns the new subtree, with `updated = false` when the
source falls through without calling any `updateSubtreeSize*` (the underflow
branch in which neither borrow nor merge applies), so that callers must keep
their stale stored sizes as the source does. -/
inductive RemRes (K V : Type) where
  | notFound
  | done (n : Node K V) (updated : Bool)

/-- Like `RemRes` but for an updated children list. -/
inductive RemChildRes (K V : Type) where
  | notFound
  | done (cs : List (Node K V)) (updated : Bool)

/-- The leaf-removal and rebalancing logic of `remove`, executed at the direct
parent (source lines 490-563): erase the key and its whole id-list from the
leaf child at position `i`; on underflow borrow from the left sibling
(`borrowFromLeftLeaf`, lines 576-593), else from the right sibling
(`borrowFromRightLeaf`, lines 605-625), else merge with the left (preferred)
or right sibling (`mergeLeaf`, lines 639-673), collapsing the root when the
merge empties it.  Exactly the `subtree_size` fields written by the source
are written here; in particular a borrowed-from sibling keeps its stale
stored size, and when no sibling is available for borrow or merge nothing is
recomputed at all.  Sibling accesses that the source performs on a non-leaf
node would be undefined (e.g. `values.back()` on an empty vector); these
arms return `notFound` as junk and are unreachable on well-formed trees. -/
def removeAtParent [LinearOrder K] (isRoot : Bool) (order : Nat) (k : K)
    (ks : List K) (cs : List (Node K V)) (sz : Int)
    (i : Nat) (lks : List K) (lvs : List (List V)) (lsz : Int) : RemRes K V :=
  let j := lowerBound lks k
  match lks[j]? with
  | none => .notFound
  | some kj =>
    if kj = k then
      let lks1 := lks.eraseIdx j
      let lvs1 := lvs.eraseIdx j
      let minKeys := (order - 1) / 2
      if lks1.length < minKeys then
        -- decision cascade of lines 530-559: borrow left, else borrow right,
        -- else merge left, else merge right, else fall through
        let dummy : Node K V := .leaf [] [] 0
        let lSib := cs.getD (i - 1) dummy
        let rSib := cs.getD (i + 1) dummy
        if 0 < i ∧ minKeys < lSib.keysOf.length then
          match lSib with
          | .leaf sks svs ssz =>
            let mk := sks.getLastD k
            let mv := svs.getLastD []
            let lks2 := mk :: lks1
            let lvs2 := mv :: lvs1
            let sib := Node.leaf sks.dropLast svs.dropLast ssz
            let lf := Node.leaf lks2 lvs2 (sumLens lvs2)
            let ks2 := ks.set (i - 1) mk
            let cs2 := (cs.set i lf).set (i - 1) sib
            .done (.internal ks2 cs2 (childSum cs2)) true
          | .internal _ _ _ => .notFound
        else if i + 1 < cs.length ∧ minKeys < rSib.keysOf.length then
          match rSib with
          | .leaf rks rvs rsz =>
            let mk := rks.headD k
            let mv := rvs.headD []
            let lks2 := lks1 ++ [mk]
            let lvs2 := lvs1 ++ [mv]
            let sib := Node.leaf rks.tail rvs.tail rsz
            let lf := Node.leaf lks2 lvs2 (sumLens lvs2)
            let ks2 := ks.set i (rks.tail.headD k)
            let cs2 := (cs.set i lf).set (i + 1) sib
            .done (.internal ks2 cs2 (childSum cs2)) true
          | .internal _ _ _ => .notFound
        else if 0 < i then
          match lSib with
          | .leaf sks svs ssz =>
            let merged := Node.leaf (sks ++ lks1) (svs ++ lvs1) (sumLens (svs ++ lvs1))
            let ks2 := ks.eraseIdx (i - 1)
            let cs2 := (cs.set (i - 1) merged).eraseIdx i
            if isRoot = true ∧ ks2 = [] then .done merged true
            else .done (.internal ks2 cs2 (childSum cs2)) true
          | .internal _ _ _ => .notFound
        else if i + 1 < cs.length then
          match rSib with
          | .leaf rks rvs rsz =>
            let merged := Node.leaf (lks1 ++ rks) (lvs1 ++ rvs) (sumLens (lvs1 ++ rvs))
            let ks2 := ks.eraseIdx i
            let cs2 := (cs.set i merged).eraseIdx (i + 1)
            if isRoot = true ∧ ks2 = [] then .done merged true
            else .done (.internal ks2 cs2 (childSum cs2)) true
          | .internal _ _ _ => .notFound
        else
          -- neither borrow nor merge applies: the source returns without
          -- updating any subtree_size
          .done (.internal ks (cs.set i (Node.leaf lks1 lvs1 lsz)) sz) false
      else
        let lf := Node.leaf lks1 lvs1 (sumLens lvs1)
        let cs2 := cs.set i lf
        .done (.internal ks cs2 (childSum cs2)) true
    else .notFound

mutual
/-- Functional form of `remove`'s descent below the root (source lines
473-564): descend by `upper_bound` until the child is a leaf, then run
`removeAtParent` there.  On the way back up, each ancestor either recomputes
its stored size (`updateSubtreeSizesUpwards`) or — when the flag is `false` —
keeps its stale one, exactly as the source does.  Called on a leaf this
returns `notFound` (the root-leaf case is handled in `BPT.remove`). -/
def removeRec [LinearOrder K] (isRoot : Bool) (order : Nat) (k : K) : Node K V → RemRes K V
  | .leaf _ _ _ => .notFound
  | .internal ks cs sz =>
    let i := upperBound ks k
    match cs[i]? with
    | none => .notFound
    | some (.leaf lks lvs lsz) => removeAtParent isRoot order k ks cs sz i lks lvs lsz
    | some (.internal _ _ _) =>
      match removeChild order k i cs with
      | .notFound => .notFound
      | .done cs1 true => .done (.internal ks cs1 (childSum cs1)) true
      | .done cs1 false => .done (.internal ks cs1 sz) false

/-- Walk to the `i`-th child and remove there. -/
def removeChild [LinearOrder K] (order : Nat) (k : K) :
    Nat → List (Node K V) → RemChildRes K V
  | _, [] => .notFound
  | 0, c :: t =>
    match removeRec false order k c with
    | .notFound => .notFound
    | .done c2 b => .done (c2 :: t) b
  | i + 1, c :: t =>
    match removeChild order k i t with
    | .notFound => .notFound
    | .done t2 b => .done (c :: t2) b
end

/-- The tree object: the root pointer (null after the last key is removed)
and the order. -/
structure BPT (K V : Type) where
  root : Option (Node K V)
  order : Nat
deriving Repr

/-- The constructor (source lines 95-110): throws `std::invalid_argument`
for `order < 3` (modelled as `none`), otherwise creates an empty leaf root
with `subtree_size = 0`. -/
def BPT.new (K V : Type) (order : Nat) : Option (BPT K V) :=
  if order < 3 then none else some ⟨some (.leaf [] [] 0), order⟩

/-- `insert` (source lines 168-205).  When `root` is null — which happens
after `remove` deletes the last key — the source dereferences the null
pointer (`leaf->isLeaf` at line 180); this crash is modelled as `none`. -/
def BPT.insert [LinearOrder K] (t : BPT K V) (k : K) (v : V) : Option (BPT K V) :=
  match t.root with
  | none => none
  | some r =>
    match insertRec t.order k v r with
    | .one n => some { t with root := some n }
    | .split l s r2 =>
      -- a split that reaches the root creates a new root with one separator
      some { t with root := some (.internal [s] [l, r2] (childSum [l, r2])) }

/-- `remove` (source lines 473-564).  A null root returns immediately; a root
leaf that becomes empty is deleted and the root set to null (lines 505-510);
otherwise the recursive descent runs. -/
def BPT.remove [LinearOrder K] (t : BPT K V) (k : K) : BPT K V :=
  match t.root with
  | none => t
  | some (.leaf ks vs sz) =>
    let j := lowerBound ks k
    match ks[j]? with
    | none => t
    | some kj =>
      if kj = k then
        let ks1 := ks.eraseIdx j
        let vs1 := vs.eraseIdx j
        if ks1 = [] then { t with root := none }
        else { t with root := some (.leaf ks1 vs1 (sumLens vs1)) }
      else t
  | some (.internal ks cs sz) =>
    match removeRec true t.order k (.internal ks cs sz) with
    | .notFound => t
    | .done n _ => { t with root := some n }

mutual
/-- `search` (source lines 366-394): descend by `upper_bound`, then return the
first id stored at the key, or a default-constructed value. -/
def searchNode [LinearOrder K] [Inhabited V] (k : K) : Node K V → V
  | .leaf ks vs _ =>
    let i := lowerBound ks k
    match ks[i]? with
    | some kj =>
      if kj = k then
        match vs.getD i [] with
        | [] => default
        | v :: _ => v
      else default
    | none => default
  | .internal ks cs _ => searchChild k (upperBound ks k) cs
def searchChild [LinearOrder K] [Inhabited V] (k : K) : Nat → List (Node K V) → V
  | _, [] => default
  | 0, c :: _ => searchNode k c
  | i + 1, _ :: t => searchChild k i t
end

def BPT.search [LinearOrder K] [Inhabited V] (t : BPT K V) (k : K) : V :=
  match t.root with
  | none => default
  | some r => searchNode k r

mutual
/-- `searchAll` (source lines 404-429): descend by `upper_bound`, then return
the id-list at the key, or `none` (a null pointer). -/
def searchAllNode [LinearOrder K] (k : K) : Node K V → Option (List V)
  | .leaf ks vs _ =>
    let i := lowerBound ks k
    match ks[i]? with
    | some kj => if kj = k then some (vs.getD i []) else none
    | none => none
  | .internal ks cs _ => searchAllChild k (upperBound ks k) cs
def searchAllChild [LinearOrder K] (k : K) : Nat → List (Node K V) → Option (List V)
  | _, [] => none
  | 0, c :: _ => searchAllNode k c
  | i + 1, _ :: t => searchAllChild k i t
end

def BPT.searchAll [LinearOrder K] (t : BPT K V) (k : K) : Option (List V) :=
  match t.root with
  | none => none
  | some r => searchAllNode k r

mutual
/-- `countLessOrEqualRecursive` (source lines 705-734): at a leaf, sum the
id-list lengths of the keys `≤ x`; at an internal node, sum the *stored*
`subtree_size` of the children left of `upper_bound(keys, x)` and recurse
into that child (guarded against falling off the end). -/
def countLERec [LinearOrder K] (x : K) : Node K V → Int
  | .leaf ks vs _ => sumLens (vs.take (upperBound ks x))
  | .internal ks cs _ => countLEChild x (upperBound ks x) cs
def countLEChild [LinearOrder K] (x : K) : Nat → List (Node K V) → Int
  | _, [] => 0
  | 0, c :: _ => countLERec x c
  | i + 1, c :: t => subtreeSizeOf c + countLEChild x i t
end

def BPT.countLessOrEqual [LinearOrder K] (t : BPT K V) (x : K) : Int :=
  match t.root with
  | none => 0
  | some r => countLERec x r

/-- `countInRange` (source lines 756-774): `count_le(Smax) - count_le(Smin-1)`,
the subtraction guarded by `Smin > numeric_limits<K>::lowest()`.  `lowest`
is passed explicitly since it depends on the instantiating key type. -/
def BPT.countInRange [LinearOrder K] [Sub K] [One K] (lowest : K)
    (t : BPT K V) (smin smax : K) : Int :=
  match t.root with
  | none => 0
  | some _ =>
    let highCount := t.countLessOrEqual smax
    let lowCount := if lowest < smin then t.countLessOrEqual (smin - 1) else 0
    highCount - lowCount

mutual
/-- The descent part of `rangeQuery` (source lines 795-800): the index (in the
leaf chain) of the leaf reached by descending with `upper_bound` on `Smin`. -/
def findLeafIdx [LinearOrder K] (x : K) : Node K V → Nat
  | .leaf _ _ _ => 0
  | .internal ks cs _ => findLeafChild x (upperBound ks x) cs
def findLeafChild [LinearOrder K] (x : K) : Nat → List (Node K V) → Nat
  | _, [] => 0
  | 0, c :: _ => findLeafIdx x c
  | i + 1, c :: t => (leavesOf c).length + findLeafChild x i t
end

/-- The leaf-chain walk of `rangeQuery` (source lines 802-817), expressed over
the (key, id-list) pairs of the walked leaves in order: the first key above
`Smax` ends the whole walk (`return results`), keys in `[Smin, Smax]`
contribute their id-list, others are skipped. -/
def scanPairs [LinearOrder K] (smin smax : K) : List (K × List V) → List V
  | [] => []
  | (key, vals) :: t =>
    if smax < key then []
    else if smin ≤ key ∧ key ≤ smax then vals ++ scanPairs smin smax t
    else scanPairs smin smax t

/-- `rangeQuery` (source lines 782-820): null root yields `[]`; otherwise walk
the leaf chain from the leaf found by the `upper_bound` descent on `Smin`. -/
def BPT.rangeQuery [LinearOrder K] (t : BPT K V) (smin smax : K) : List V :=
  match t.root with
  | none => []
  | some r =>
    scanPairs smin smax
      (((leavesOf r).drop (findLeafIdx smin r)).flatMap fun lf => lf.1.zip lf.2)

/-- The tree's whole stored content as an association list in leaf order. -/
def BPT.entries (t : BPT K V) : List (K × List V) :=
  match t.root with
  | none => []
  | some r => entriesOf r

/-! ### Abstract model: a key-sorted association list of id-lists -/

/-- Abstract effect of `insert` on the sorted association list of stored
pairs: append to the id-list of an existing key, or place a new singleton
id-list at the sorted position. -/
def absIns [LinearOrder K] (k : K) (v : V) : List (K × List V) → List (K × List V)
  | [] => [(k, [v])]
  | (kh, vs) :: t =>
    if k < kh then (k, [v]) :: (kh, vs) :: t
    else if k = kh then (kh, vs ++ [v]) :: t
    else (kh, vs) :: absIns k v t

/-- Abstract effect of `remove`: drop the key and its whole id-list. -/
def absDel [DecidableEq K] (k : K) (m : List (K × List V)) : List (K × List V) :=
  m.filter fun p => decide (p.1 ≠ k)

/-- Abstract lookup of the id-list stored at a key. -/
def absFind [DecidableEq K] (k : K) (m : List (K × List V)) : Option (List V) :=
  (m.find? fun p => decide (p.1 = k)).map Prod.snd

/-! ### Operation sequences and reachable states -/

/-- A mutating operation of the public interface. -/
inductive Op (K V : Type) where
  | ins (k : K) (v : V)
  | del (k : K)

/-- Run one operation; `none` propagates a crash (an `insert` that
dereferenced the null root). -/
def opStep [LinearOrder K] (s : Option (BPT K V)) (op : Op K V) : Option (BPT K V) :=
  match s, op with
  | none, _ => none
  | some t, .ins k v => t.insert k v
  | some t, .del k => some (t.remove k)

/-- Run a sequence of operations from a freshly constructed tree. -/
def runOps [LinearOrder K] (order : Nat) (ops : List (Op K V)) : Option (BPT K V) :=
  ops.foldl opStep (BPT.new K V order)

/-- A tree state is reachable when some operation sequence, started on a
freshly constructed tree of its order, produces it without crashing. -/
def Reachable [LinearOrder K] (t : BPT K V) : Prop :=
  ∃ ops : List (Op K V), runOps t.order ops = some t

/-- Abstract run of the same operation sequence. -/
def absRun [LinearOrder K] (ops : List (Op K V)) : List (K × List V) :=
  ops.foldl (fun m op => match op with
    | .ins k v => absIns k v m
    | .del k => absDel k m) []

/-- The values inserted under key `k` by a sequence, in order. -/
def insertedUnder [DecidableEq K] (k : K) (ops : List (Op K V)) : List V :=
  ops.filterMap fun op =>
    match op with
    | .ins kh v => if kh = k then some v else none
    | .del _ => none

/-! ### Key bounds -/

/-- `x` is at or above the optional lower bound. -/
def loOk [LinearOrder K] (lo : Option K) (x : K) : Prop := ∀ a ∈ lo, a ≤ x

/-- `x` is strictly above the optional lower bound. -/
def loLt [LinearOrder K] (lo : Option K) (x : K) : Prop := ∀ a ∈ lo, a < x

/-- `x` is strictly below the optional upper bound. -/
def hiOk [LinearOrder K] (hi : Option K) (x : K) : Prop := ∀ b ∈ hi, x < b

/-! ### Well-formedness of trees -/

/-- The children chain of an internal node: one more child than separators,
each child satisfying the property `P` between its neighbouring
separators. -/
inductive Chain {K V : Type} (P : Option K → Option K → Node K V → Prop) :
    Option K → List K → List (Node K V) → Option K → Prop where
  | single {lo hi : Option K} {c : Node K V} :
      P lo hi c → Chain P lo [] [c] hi
  | cons {lo hi : Option K} {s : K} {ks : List K} {c : Node K V}
      {cs : List (Node K V)} :
      P lo (some s) c → Chain P (some s) ks cs hi →
      Chain P lo (s :: ks) (c :: cs) hi

/-- Search-tree well-formedness of a node, indexed by its height and by
optional key bounds: every key `x` of the subtree satisfies `lo ≤ x` and
`x < hi`; leaf keys are strictly sorted and parallel to their id-lists; an
internal node carries strictly sorted separators inside the bounds and one
more child than separators, the children chained on the separators.  The
stored `subtree_size` is deliberately unconstrained (its exactness is a
separate — and refuted — claim). -/
def WFN [LinearOrder K] : Nat → Option K → Option K → Node K V → Prop
  | 0, lo, hi, .leaf ks vs _ =>
      ks.Sorted (· < ·) ∧ ks.length = vs.length ∧ ∀ x ∈ ks, loOk lo x ∧ hiOk hi x
  | 0, _, _, .internal _ _ _ => False
  | _ + 1, _, _, .leaf _ _ _ => False
  | h + 1, lo, hi, .internal ks cs _ =>
      ks.Sorted (· < ·) ∧ (∀ x ∈ ks, loOk lo x ∧ hiOk hi x) ∧ Chain (WFN h) lo ks cs hi

/-- The chain of children of a well-formed internal node of height `h + 1`. -/
abbrev WFC [LinearOrder K] (h : Nat) (lo : Option K) (ks : List K)
    (cs : List (Node K V)) (hi : Option K) : Prop :=
  Chain (WFN h) lo ks cs hi

/-- Specification of one `insertRec` call at height `h`: the result is
well-formed in the same bounds, and its entries are the abstract insertion.
A split additionally localises the promoted separator strictly above the
lower bound. -/
def InsSpec (order : Nat) [LinearOrder K] (k : K) (v : V) (h : Nat)
    (lo hi : Option K) (n : Node K V) : Prop :=
  (∀ n2, insertRec order k v n = .one n2 →
    WFN h lo hi n2 ∧ entriesOf n2 = absIns k v (entriesOf n)) ∧
  (∀ l s r, insertRec order k v n = .split l s r →
    WFN h lo (some s) l ∧ WFN h (some s) hi r ∧ loLt lo s ∧ hiOk hi s ∧
    entriesOf l ++ entriesOf r = absIns k v (entriesOf n))

/-- Specification of the child walk `insertChild` over a chain, stated at the
index `upper_bound(keys, k)` used by the source. -/
def InsChainSpec (order : Nat) [LinearOrder K] (k : K) (v : V) (h : Nat)
    (lo hi : Option K) (ks : List K) (cs : List (Node K V)) : Prop :=
  insertChild order k v (upperBound ks k) cs ≠ none ∧
  (∀ cs1, insertChild order k v (upperBound ks k) cs = some (cs1, none) →
    WFC h lo ks cs1 hi ∧ entriesList cs1 = absIns k v (entriesList cs)) ∧
  (∀ cs1 s r, insertChild order k v (upperBound ks k) cs = some (cs1, some (s, r)) →
    WFC h lo (ks.insertIdx (upperBound ks s) s)
      (cs1.insertIdx (upperBound ks s + 1) r) hi ∧
    (ks.insertIdx (upperBound ks s) s).Sorted (· < ·) ∧
    (∀ x ∈ ks.insertIdx (upperBound ks s) s, loOk lo x ∧ hiOk hi x) ∧
    loLt lo s ∧
    entriesList (cs1.insertIdx (upperBound ks s + 1) r) =
      absIns k v (entriesList cs))

/-- The lower bound seen by the last child of a chain with separators `ks`. -/
def lastLo (lo : Option K) (ks : List K) : Option K :=
  match ks.getLast? with
  | none => lo
  | some s => some s

/-- The upper bound seen by the first child of a chain with separators `ks`. -/
def headHi (hi : Option K) (ks : List K) : Option K :=
  match ks.head? with
  | none => hi
  | some s => some s

/-- Specification of one `removeRec` call on an internal node at height
`h`: `notFound` means the key is absent, and a `done` result is well-formed —
at the same height below the root, possibly one lower at the root — with
entries equal to the abstract deletion. -/
def RemSpec (isRoot : Bool) (order : Nat) [LinearOrder K] (k : K) (h : Nat)
    (lo hi : Option K) (n : Node K V) : Prop :=
  (removeRec isRoot order k n = RemRes.notFound → absFind k (entriesOf n) = none) ∧
  (∀ n2 b, removeRec isRoot order k n = RemRes.done n2 b →
    (∃ h2, h2 ≤ h ∧ WFN h2 lo hi n2 ∧ (isRoot = false → h2 = h)) ∧
    entriesOf n2 = absDel k (entriesOf n))

/-! ### Tree-level invariant and simulation -/

/-- Tree invariant: a valid order and a well-formed root (of some height). -/
def TWF [LinearOrder K] (t : BPT K V) : Prop :=
  3 ≤ t.order ∧ ∀ r, t.root = some r → ∃ h, WFN h (none : Option K) none r

/-- One abstract step, mirroring `opStep`. -/
def absStep [LinearOrder K] (m : List (K × List V)) (op : Op K V) :
    List (K × List V) :=
  match op with
  | .ins k v => absIns k v m
  | .del k => absDel k m

/-! ### The probabilistic candidate-size chooser
(`include/probabilisticVectorIndex.h`)

C++ `double` arithmetic is modelled exactly over `ℚ`; `int` over `ℤ`.  Every
`std::pow` call site has a non-negative integer exponent (the CDF only sums
over `0 ≤ i < k ≤ n`), so exponents are modelled with `Int.toNat`.  The two
`while` loops are modelled with an explicit fuel that dominates their
iteration count; the fuel is irrelevant whenever it exceeds the interval
length (proved below). -/

/-- `binomialCoefficient` (source lines 213-223): the guarded product loop
`result = result * (n - (kk - i)) / i` for `i = 1..kk`, `kk = min(k, n-k)`. -/
def binomialCoefficient (n k : Int) : ℚ :=
  if n < k then 0
  else if k = 0 ∨ k = n then 1
  else
    let kk := if k < n - k then k else n - k
    (List.range kk.toNat).foldl
      (fun (r : ℚ) (i : ℕ) =>
        r * (((n - (kk - ((i : Int) + 1)) : Int) : ℚ)) / ((i : ℚ) + 1)) 1

/-- `binomialPMF` (source lines 228-234). -/
def binomialPMF (n k : Int) (p : ℚ) : ℚ :=
  if p < 0 ∨ 1 < p then 0
  else binomialCoefficient n k * p ^ k.toNat * (1 - p) ^ (n - k).toNat

/-- `binomialCDFLessThan` (source lines 240-246): `P(X < k)` for
`X ~ Binomial(n, p)`. -/
def binomialCDFLessThan (n k : Int) (p : ℚ) : ℚ :=
  (List.range k.toNat).foldl
    (fun (s : ℚ) (i : ℕ) => s + binomialPMF n (i : Int) p) 0

/-- The linear scan of `computeRequiredO_Linear` (source lines 264-272),
with fuel. -/
def linLoop (M k : Int) (p α : ℚ) : Nat → Int → Int
  | 0, _ => M
  | fuel + 1, O =>
    if O ≤ M then
      if binomialCDFLessThan O k p ≤ α then O else linLoop M k p α fuel (O + 1)
    else M

/-- `computeRequiredO_Linear` (source lines 257-273). -/
def computeRequiredO_Linear (M S k : Int) (α : ℚ) : Int :=
  if k ≤ 0 then 0
  else if S ≤ 0 then k
  else if M ≤ S then k
  else if α ≤ 0 then k
  else linLoop M k ((S : ℚ) / (M : ℚ)) α ((M - k).toNat + 2) k

/-- The loop of `computeRequiredO_BinarySearch` (source lines 291-301), with
fuel.  `(left + right) / 2` is C++ truncating `int` division (`Int.tdiv`). -/
def bsLoop (k : Int) (p α : ℚ) : Nat → Int → Int → Int → Int
  | 0, _, _, best => best
  | fuel + 1, left, right, best =>
    if left ≤ right then
      let mid := Int.tdiv (left + right) 2
      if binomialCDFLessThan mid k p ≤ α then bsLoop k p α fuel left (mid - 1) mid
      else bsLoop k p α fuel (mid + 1) right best
    else best

/-- `computeRequiredO_BinarySearch` (source lines 279-303). -/
def computeRequiredO_BinarySearch (M S k : Int) (α : ℚ) : Int :=
  if k ≤ 0 then 0
  else if S ≤ 0 then k
  else if M ≤ S then k
  else if α ≤ 0 then k
  else bsLoop k ((S : ℚ) / (M : ℚ)) α ((M - k).toNat + 2) k M M

/-- `computeRequiredO_Enhanced` (source lines 413-420): the binary-search
chooser plus an unconditional `+100` safety margin. -/
def computeRequiredO_Enhanced (M S k : Int) (α : ℚ) : Int :=
  computeRequiredO_BinarySearch M S k α + 100

/-! ### The two vector-index planners (`include/vectorIndex.h` and
`include/probabilisticVectorIndex.h`)

Both planners own a `BPlusTree<float, int>` mapping filter scalars to record
indices, plus the raw vectors and their scalars.  `float`/`double`
arithmetic is modelled exactly over `ℚ`.  The HNSW structure is external
library code, so its search is an oracle parameter `ann`; `std::sort`
(whose order on tied elements is unspecified) is a function parameter
constrained only by the relational contract `IsSortResult`.  The null-check
`hnswIndex == nullptr || dataVectors.empty()` is modelled as
`dataVectors = []`, since along the public interface the HNSW pointer is
null exactly until the first successful insert. -/

/-- `std::numeric_limits<float>::lowest()` exactly: `-(2 - 2^-23)·2^127`. -/
def floatLowest : ℚ := -(2 ^ 128 - 2 ^ 104)

/-- Errors surfaced as C++ exceptions by the planners. -/
inductive VErr where
  | emptyVector
  | dimensionMismatch
  deriving Repr, DecidableEq

/-- Common state of both planners: the scalar B+ tree (key = `s`, value =
record index), the stored vectors, their scalars, and the dimension. -/
structure VIndex where
  tree : BPT ℚ Int
  dataVectors : List (List ℚ)
  sValues : List ℚ
  dimension : Int
  deriving Repr

/-- Planner constructor: a fresh tree of the given order and no records. -/
def VIndex.new (order : Nat) : Option VIndex :=
  (BPT.new ℚ Int order).map fun t => ⟨t, [], [], 0⟩

/-- `insert` (identical in both planners): empty vectors and dimension
mismatches throw; otherwise the vector is appended, its scalar recorded,
and `(s, idx)` inserted into the tree (whose crash propagates as the inner
`none`). -/
def VIndex.insert (ix : VIndex) (vec : List ℚ) (s : ℚ) :
    Except VErr (Option VIndex) :=
  if vec.isEmpty then .error .emptyVector
  else if ix.dataVectors.isEmpty then
    .ok ((ix.tree.insert s (ix.dataVectors.length : Int)).map fun t =>
      ⟨t, ix.dataVectors ++ [vec], ix.sValues ++ [s], (vec.length : Int)⟩)
  else if (vec.length : Int) ≠ ix.dimension then .error .dimensionMismatch
  else
    .ok ((ix.tree.insert s (ix.dataVectors.length : Int)).map fun t =>
      ⟨t, ix.dataVectors ++ [vec], ix.sValues ++ [s], ix.dimension⟩)

/-- `euclideanDistSquared` (both planners): sum of squared coordinate
differences, iterating over the first vector's length. -/
def euclideanDistSquared (a b : List ℚ) : ℚ :=
  (List.range a.length).foldl
    (fun (d : ℚ) (i : ℕ) => d + (a.getD i 0 - b.getD i 0) * (a.getD i 0 - b.getD i 0)) 0

/-- Contract of `std::sort` with comparator `a.first < b.first`: some
permutation that is non-decreasing in the first component (tie order
unspecified). -/
def IsSortResult (l l2 : List (ℚ × Int)) : Prop :=
  l2.Perm l ∧ l2.Pairwise fun a b => a.1 ≤ b.1

/-- A sorting function conforming to the `std::sort` contract on every
input. -/
def SortOK (f : List (ℚ × Int) → List (ℚ × Int)) : Prop :=
  ∀ l, IsSortResult l (f l)

/-- One legal `std::sort` outcome: order by distance, break ties by
descending id. -/
def tieRel : ℚ × Int → ℚ × Int → Prop :=
  fun a b => a.1 < b.1 ∨ (a.1 = b.1 ∧ b.2 ≤ a.2)

instance : DecidableRel tieRel := fun a b => by
  unfold tieRel
  infer_instance

instance : IsTotal (ℚ × Int) tieRel :=
  ⟨fun a b => by
    unfold tieRel
    rcases lt_trichotomy a.1 b.1 with h | h | h
    · exact Or.inl (Or.inl h)
    · rcases le_total a.2 b.2 with h2 | h2
      · exact Or.inr (Or.inr ⟨h.symm, h2⟩)
      · exact Or.inl (Or.inr ⟨h, h2⟩)
    · exact Or.inr (Or.inl h)⟩

instance : IsTrans (ℚ × Int) tieRel :=
  ⟨fun a b c hab hbc => by
    unfold tieRel at *
    rcases hab with h1 | ⟨h1, h1b⟩ <;> rcases hbc with h2 | ⟨h2, h2b⟩
    · exact Or.inl (lt_trans h1 h2)
    · exact Or.inl (h2 ▸ h1)
    · exact Or.inl (h1 ▸ h2)
    · exact Or.inr ⟨h1.trans h2, le_trans h2b h1b⟩⟩

/-- A concrete conforming sort that breaks distance ties by descending id. -/
def tieSort (l : List (ℚ × Int)) : List (ℚ × Int) :=
  List.insertionSort tieRel l

/-- The fixed-`O` planner's query (`vectorIndex.h` lines 48-104): empty
index yields `{}`; dimension mismatch throws; an empty filter count yields
`{}`; a count below `O` scans the tree's `rangeQuery` output, otherwise `O`
ANN candidates are filtered by their scalar; both paths sort candidate
`(distance, id)` pairs by distance and return the first `k` ids. -/
def queryFixed (ann : List ℚ → Int → List Int)
    (sortImpl : List (ℚ × Int) → List (ℚ × Int)) (ix : VIndex)
    (v : List ℚ) (k : Int) (Smin Smax : ℚ) (O : Int) :
    Except VErr (List Int) :=
  if ix.dataVectors.isEmpty then .ok []
  else if (v.length : Int) ≠ ix.dimension then .error .dimensionMismatch
  else
    let count := BPT.countInRange floatLowest ix.tree Smin Smax
    if count ≤ 0 then .ok []
    else if count < O then
      let candidates := ix.tree.rangeQuery Smin Smax
      let distIndex := candidates.map fun idx =>
        (euclideanDistSquared v (ix.dataVectors.getD idx.toNat []), idx)
      .ok (((sortImpl distIndex).take k.toNat).map Prod.snd)
    else
      let candidates := ann v O
      let distIndex := (candidates.filter fun idx =>
        decide (Smin ≤ ix.sValues.getD idx.toNat 0 ∧
          ix.sValues.getD idx.toNat 0 ≤ Smax)).map fun idx =>
        (euclideanDistSquared v (ix.dataVectors.getD idx.toNat []), idx)
      .ok (((sortImpl distIndex).take k.toNat).map Prod.snd)

/-- The probabilistic planner's query (`probabilisticVectorIndex.h` lines
92-144): empty index yields `{}`; dimension mismatch throws; an empty
filter count yields `{}`; otherwise `O = computeRequiredO_Enhanced` ANN
candidates are filtered by their scalar, sorted by distance, and the first
`k` ids returned. -/
def queryProb (ann : List ℚ → Int → List Int)
    (sortImpl : List (ℚ × Int) → List (ℚ × Int)) (ix : VIndex)
    (v : List ℚ) (k : Int) (Smin Smax : ℚ) (α : ℚ) :
    Except VErr (List Int) :=
  if ix.dataVectors.isEmpty then .ok []
  else if (v.length : Int) ≠ ix.dimension then .error .dimensionMismatch
  else
    let S := BPT.countInRange floatLowest ix.tree Smin Smax
    if S ≤ 0 then .ok []
    else
      let M : Int := (ix.dataVectors.length : Int)
      let O := computeRequiredO_Enhanced M S k α
      let candidates := ann v O
      let distIndex := (candidates.filter fun idx =>
        decide (Smin ≤ ix.sValues.getD idx.toNat 0 ∧
          ix.sValues.getD idx.toNat 0 ≤ Smax)).map fun idx =>
        (euclideanDistSquared v (ix.dataVectors.getD idx.toNat []), idx)
      .ok (((sortImpl distIndex).take k.toNat).map Prod.snd)

/-- Well-formedness of a planner state: a well-formed tree, one scalar per
record, and tree entries holding exactly the valid, pairwise-distinct
record indices with their scalars as keys. -/
def IWF (ix : VIndex) : Prop :=
  TWF ix.tree ∧ ix.sValues.length = ix.dataVectors.length ∧
  (∀ pr ∈ ix.tree.entries, ∀ id ∈ pr.2,
    0 ≤ id ∧ id.toNat < ix.dataVectors.length ∧
    ix.sValues.getD id.toNat 0 = pr.1) ∧
  (ix.tree.entries.flatMap Prod.snd).Nodup

/-- One public-interface step on a planner state: an exception or a tree
crash stops the run. -/
def ixStep (s : Option VIndex) (op : List ℚ × ℚ) : Option VIndex :=
  match s with
  | none => none
  | some ix =>
    match ix.insert op.1 op.2 with
    | .error _ => none
    | .ok r => r

/-- Run a sequence of inserts from a freshly constructed planner. -/
def runIxOps (order : Nat) (ops : List (List ℚ × ℚ)) : Option VIndex :=
  ops.foldl ixStep (VIndex.new order)

/-- A planner state reachable through the public interface. -/
def IxReachable (ix : VIndex) : Prop :=
  ∃ order ops, runIxOps order ops = some ix

/-- Characterization taken from the spec's words for C4: `R` is the smallest
`O ∈ [k, M]` satisfying `P`, or `M` when no such `O` exists. -/
def IsLeastOr (M k : Int) (P : Int → Prop) (R : Int) : Prop :=
  ((∃ O, k ≤ O ∧ O ≤ M ∧ P O) →
    (k ≤ R ∧ R ≤ M ∧ P R ∧ ∀ O, k ≤ O → O ≤ M → P O → R ≤ O)) ∧
  ((¬ ∃ O, k ≤ O ∧ O ≤ M ∧ P O) → R = M)

/-- The mathematical binomial CDF `P(X < k)` as a `Finset` sum, used as the
reference value for the C++ `binomialCDFLessThan`. -/
def cdfSum (n k : Nat) (p : ℚ) : ℚ :=
  ∑ i ∈ Finset.range k, (n.choose i : ℚ) * p ^ i * (1 - p) ^ (n - i)

section Bounds

variable [LinearOrder K] {lo hi : Option K} {x y : K}

@[simp] theorem loOk_none : loOk (none : Option K) x := by simp [loOk]

@[simp] theorem loOk_some : loOk (some y) x ↔ y ≤ x := by simp [loOk]

@[simp] theorem loLt_none : loLt (none : Option K) x := by simp [loLt]

@[simp] theorem loLt_some : loLt (some y) x ↔ y < x := by simp [loLt]

@[simp] theorem hiOk_none : hiOk (none : Option K) x := by simp [hiOk]

@[simp] theorem hiOk_some : hiOk (some y) x ↔ x < y := by simp [hiOk]

theorem loOk_of_loLt (h : loLt lo x) : loOk lo x := fun a ha => le_of_lt (h a ha)

theorem loOk_trans (h : loOk lo x) (hxy : x ≤ y) : loOk lo y :=
  fun a ha => le_trans (h a ha) hxy

theorem loLt_trans (h : loOk lo x) (hxy : x < y) : loLt lo y :=
  fun a ha => lt_of_le_of_lt (h a ha) hxy

theorem hiOk_trans (hxy : x ≤ y) (h : hiOk hi y) : hiOk hi x :=
  fun b hb => lt_of_le_of_lt hxy (h b hb)

theorem hiOk_trans_lt (hxy : x < y) (h : hiOk hi y) : hiOk hi x :=
  fun b hb => lt_trans hxy (h b hb)

end Bounds

/-! ### upperBound / lowerBound -/

section SearchBounds

variable [LinearOrder K] {x y : K} {l : List K}

@[simp] theorem upperBound_nil : upperBound ([] : List K) x = 0 := rfl

theorem upperBound_cons :
    upperBound (y :: l) x = if x < y then 0 else upperBound l x + 1 := by
  by_cases h : x < y
  · simp [upperBound, List.takeWhile_cons, h]
  · have h2 : y ≤ x := not_lt.1 h
    simp [upperBound, List.takeWhile_cons, h, h2]

@[simp] theorem lowerBound_nil : lowerBound ([] : List K) x = 0 := rfl

theorem lowerBound_cons :
    lowerBound (y :: l) x = if y < x then lowerBound l x + 1 else 0 := by
  by_cases h : y < x <;> simp [lowerBound, List.takeWhile_cons, h]

theorem upperBound_le_length : upperBound l x ≤ l.length := by
  induction l with
  | nil => simp
  | cons y t ih =>
    rw [upperBound_cons]
    split
    · simp
    · simp only [List.length_cons]
      omega

end SearchBounds

/-! ### Lemmas about the abstract association list -/

section AbsLemmas

variable [LinearOrder K] {k k2 : K} {v : V} {m A B C : List (K × List V)}

theorem absIns_keys_sub :
    ∀ x ∈ (absIns k v m).map Prod.fst, x = k ∨ x ∈ m.map Prod.fst := by
  induction m with
  | nil => simp [absIns]
  | cons p t ih =>
    obtain ⟨kh, vs⟩ := p
    intro x hx
    by_cases h1 : k < kh
    · rw [absIns, if_pos h1] at hx
      simp only [List.map_cons, List.mem_cons] at hx ⊢
      tauto
    · by_cases h2 : k = kh
      · rw [absIns, if_neg h1, if_pos h2] at hx
        simp only [List.map_cons, List.mem_cons] at hx ⊢
        tauto
      · rw [absIns, if_neg h1, if_neg h2] at hx
        simp only [List.map_cons, List.mem_cons] at hx ⊢
        rcases hx with rfl | hx
        · exact Or.inr (Or.inl rfl)
        · rcases ih x hx with h | h
          · exact Or.inl h
          · exact Or.inr (Or.inr h)

theorem absIns_sorted (hs : (m.map Prod.fst).Sorted (· < ·)) :
    ((absIns k v m).map Prod.fst).Sorted (· < ·) := by
  induction m with
  | nil => simp [absIns]
  | cons p t ih =>
    obtain ⟨kh, vs⟩ := p
    rw [List.map_cons, List.sorted_cons] at hs
    by_cases h1 : k < kh
    · rw [absIns, if_pos h1]
      refine List.sorted_cons.2 ⟨?_, List.sorted_cons.2 ⟨hs.1, hs.2⟩⟩
      intro b hb
      rcases List.mem_cons.1 hb with rfl | hb
      · exact h1
      · exact lt_trans h1 (hs.1 _ hb)
    · by_cases h2 : k = kh
      · rw [absIns, if_neg h1, if_pos h2]
        exact List.sorted_cons.2 ⟨hs.1, hs.2⟩
      · rw [absIns, if_neg h1, if_neg h2]
        refine List.sorted_cons.2 ⟨?_, ih hs.2⟩
        intro b hb
        rcases absIns_keys_sub b hb with rfl | hb
        · exact lt_of_le_of_ne (not_lt.1 h1) (Ne.symm h2)
        · exact hs.1 _ hb

@[simp] theorem absFind_nil : absFind k ([] : List (K × List V)) = none := rfl

theorem absFind_cons_self {vs : List V} : absFind k ((k, vs) :: m) = some vs := by
  rw [absFind, List.find?_cons_of_pos _ (by simp)]
  rfl

theorem absFind_cons_ne {kh : K} {vs : List V} (h : kh ≠ k) :
    absFind k ((kh, vs) :: m) = absFind k m := by
  rw [absFind, List.find?_cons_of_neg _ (by simp [h])]
  rfl

theorem absFind_eq_none_of_keys (h : ∀ a ∈ m.map Prod.fst, a ≠ k) :
    absFind k m = none := by
  induction m with
  | nil => rfl
  | cons p t ih =>
    obtain ⟨kh, vs⟩ := p
    rw [absFind_cons_ne (h kh (by simp))]
    exact ih fun a ha => h a (by simp [ha])

theorem absFind_absIns_self (hs : (m.map Prod.fst).Sorted (· < ·)) :
    absFind k (absIns k v m) = some ((absFind k m).getD [] ++ [v]) := by
  induction m with
  | nil => simp [absIns, absFind_cons_self]
  | cons p t ih =>
    obtain ⟨kh, vs⟩ := p
    rw [List.map_cons, List.sorted_cons] at hs
    by_cases h1 : k < kh
    · rw [absIns, if_pos h1, absFind_cons_self]
      have hfind : absFind k ((kh, vs) :: t) = none := by
        refine absFind_eq_none_of_keys ?_
        intro a ha hak
        subst hak
        rcases List.mem_cons.1 ha with rfl | ha
        · exact absurd h1 (lt_irrefl _)
        · exact absurd (lt_trans h1 (hs.1 _ ha)) (lt_irrefl _)
      rw [hfind]
      rfl
    · by_cases h2 : k = kh
      · subst h2
        rw [absIns, if_neg h1, if_pos rfl, absFind_cons_self, absFind_cons_self]
        rfl
      · have hne : kh ≠ k := fun h => h2 h.symm
        rw [absIns, if_neg h1, if_neg h2, absFind_cons_ne hne, absFind_cons_ne hne]
        exact ih hs.2

theorem absFind_absIns_ne (hne : k2 ≠ k) :
    absFind k2 (absIns k v m) = absFind k2 m := by
  induction m with
  | nil => simp [absIns, absFind_cons_ne (Ne.symm hne)]
  | cons p t ih =>
    obtain ⟨kh, vs⟩ := p
    by_cases h1 : k < kh
    · rw [absIns, if_pos h1, absFind_cons_ne (Ne.symm hne)]
    · by_cases h2 : k = kh
      · rw [absIns, if_neg h1, if_pos h2]
        by_cases h3 : kh = k2
        · rw [h2, h3] at hne
          exact absurd rfl hne
        · rw [absFind_cons_ne h3, absFind_cons_ne h3]
      · rw [absIns, if_neg h1, if_neg h2]
        by_cases h3 : kh = k2
        · subst h3
          rw [absFind_cons_self, absFind_cons_self]
        · rw [absFind_cons_ne h3, absFind_cons_ne h3]
          exact ih

theorem absFind_absDel_self : absFind k (absDel k m) = none := by
  refine absFind_eq_none_of_keys ?_
  intro a ha hak
  subst hak
  obtain ⟨p, hp, hpa⟩ := List.mem_map.1 ha
  have := List.of_mem_filter hp
  rw [hpa] at this
  simp at this

theorem absFind_absDel_ne (hne : k2 ≠ k) :
    absFind k2 (absDel k m) = absFind k2 m := by
  induction m with
  | nil => rfl
  | cons p t ih =>
    obtain ⟨kh, vs⟩ := p
    by_cases h1 : kh = k
    · subst h1
      rw [absDel, List.filter_cons_of_neg (by simp), ← absDel, ih,
        absFind_cons_ne (Ne.symm hne)]
    · rw [absDel, List.filter_cons_of_pos (by simp [h1]), ← absDel]
      by_cases h2 : kh = k2
      · subst h2
        rw [absFind_cons_self, absFind_cons_self]
      · rw [absFind_cons_ne h2, absFind_cons_ne h2, ih]

theorem absDel_of_not_mem (h : ∀ a ∈ m.map Prod.fst, a ≠ k) : absDel k m = m := by
  rw [absDel, List.filter_eq_self]
  intro p hp
  simp only [decide_eq_true_eq]
  exact h _ (List.mem_map_of_mem Prod.fst hp)

theorem absDel_of_find_none (h : absFind k m = none) : absDel k m = m := by
  induction m with
  | nil => rfl
  | cons p t ih =>
    obtain ⟨kh, vs⟩ := p
    by_cases h1 : kh = k
    · subst h1
      rw [absFind_cons_self] at h
      exact absurd h (by simp)
    · rw [absFind_cons_ne h1] at h
      rw [absDel, List.filter_cons_of_pos (by simp [h1]), ← absDel, ih h]

theorem absDel_append : absDel k (A ++ B) = absDel k A ++ absDel k B := by
  simp [absDel]

theorem absFind_append : absFind k (A ++ B) = (absFind k A).or (absFind k B) := by
  rw [absFind, List.find?_append, absFind, absFind]
  cases A.find? fun p => decide (p.1 = k) <;> simp

theorem absIns_append_right (hB : ∀ b ∈ B.map Prod.fst, k < b) :
    absIns k v (A ++ B) = absIns k v A ++ B := by
  induction A with
  | nil =>
    cases B with
    | nil => rfl
    | cons p t =>
      obtain ⟨kh, vs⟩ := p
      simp only [List.nil_append, absIns]
      rw [if_pos (hB kh (by simp))]
      rfl
  | cons p t ih =>
    obtain ⟨kh, vs⟩ := p
    by_cases h1 : k < kh
    · simp [absIns, h1]
    · by_cases h2 : k = kh
      · simp [absIns, h1, h2]
      · simp only [List.cons_append, absIns, if_neg h1, if_neg h2]
        rw [List.append_eq, ih]

theorem absIns_append_left (hA : ∀ a ∈ A.map Prod.fst, a < k) :
    absIns k v (A ++ C) = A ++ absIns k v C := by
  induction A with
  | nil => rfl
  | cons p t ih =>
    obtain ⟨kh, vs⟩ := p
    have hk : kh < k := hA kh (by simp)
    simp only [List.cons_append, absIns, if_neg (not_lt.2 (le_of_lt hk)),
      if_neg (Ne.symm (ne_of_lt hk))]
    rw [List.append_eq, ih fun a ha => hA a (by simp [ha])]

theorem absIns_flat_perm :
    ((absIns k v m).map Prod.snd).flatten.Perm (v :: (m.map Prod.snd).flatten) := by
  induction m with
  | nil => simp [absIns]
  | cons p t ih =>
    obtain ⟨kh, vs⟩ := p
    by_cases h1 : k < kh
    · simp [absIns, h1]
    · by_cases h2 : k = kh
      · simp only [absIns, if_neg h1, if_pos h2, List.map_cons, List.flatten_cons]
        rw [List.append_assoc]
        simpa using List.perm_middle
      · simp only [absIns, if_neg h1, if_neg h2, List.map_cons, List.flatten_cons]
        exact (ih.append_left vs).trans (List.perm_middle)

theorem absIns_entry_prop {R : K → V → Prop}
    (hm : ∀ p ∈ m, ∀ id ∈ p.2, R p.1 id) (hkv : R k v) :
    ∀ p ∈ absIns k v m, ∀ id ∈ p.2, R p.1 id := by
  induction m with
  | nil =>
    simp only [absIns]
    rintro p hp
    simp only [List.mem_singleton] at hp
    subst hp
    simpa using hkv
  | cons q t ih =>
    obtain ⟨kh, vs⟩ := q
    by_cases h1 : k < kh
    · simp only [absIns, if_pos h1]
      rintro p hp
      rcases List.mem_cons.1 hp with rfl | hp
      · simpa using hkv
      · exact hm p hp
    · by_cases h2 : k = kh
      · subst h2
        simp only [absIns, if_neg h1, if_pos rfl]
        rintro p hp
        rcases List.mem_cons.1 hp with rfl | hp
        · intro id hid
          rcases List.mem_append.1 hid with hid | hid
          · exact hm (k, vs) (by simp) id hid
          · simp only [List.mem_singleton] at hid
            subst hid
            exact hkv
        · exact hm p (by simp [hp])
      · simp only [absIns, if_neg h1, if_neg h2]
        rintro p hp
        rcases List.mem_cons.1 hp with rfl | hp
        · exact hm (kh, vs) (by simp)
        · exact ih (fun q hq => hm q (by simp [hq])) p hp

end AbsLemmas

/-! ### Leaf-level lemmas -/

section LeafLemmas

variable [LinearOrder K] {k : K} {v : V} {ks kt : List K} {vs vt : List (List V)}

theorem leafInsert_cons_lt {kh : K} {vh : List V} (h : kh < k) :
    leafInsert k v (kh :: kt) (vh :: vt) =
      (kh :: (leafInsert k v kt vt).1, vh :: (leafInsert k v kt vt).2) := by
  unfold leafInsert
  rw [lowerBound_cons, if_pos h]
  simp only [List.getElem?_cons_succ, List.set_cons_succ, List.getD_cons_succ,
    List.insertIdx_succ_cons]
  cases hj : kt[lowerBound kt k]? with
  | none => simp [hj]
  | some kj =>
    by_cases hk : kj = k
    · simp [hj, hk]
    · simp [hj, hk]

theorem leafInsert_cons_eq {kh : K} {vh : List V} (h : kh = k) :
    leafInsert k v (kh :: kt) (vh :: vt) = (kh :: kt, (vh ++ [v]) :: vt) := by
  subst h
  unfold leafInsert
  rw [lowerBound_cons, if_neg (lt_irrefl _)]
  simp

theorem leafInsert_cons_gt {kh : K} {vh : List V} (h : k < kh) :
    leafInsert k v (kh :: kt) (vh :: vt) = (k :: kh :: kt, [v] :: vh :: vt) := by
  unfold leafInsert
  rw [lowerBound_cons, if_neg (not_lt.2 (le_of_lt h))]
  simp [Ne.symm (ne_of_lt h)]

theorem leafInsert_zip (hl : ks.length = vs.length) :
    (leafInsert k v ks vs).1.zip (leafInsert k v ks vs).2 = absIns k v (ks.zip vs) := by
  induction ks generalizing vs with
  | nil =>
    cases vs with
    | nil => rfl
    | cons _ _ => simp at hl
  | cons kh kt ih =>
    cases vs with
    | nil => simp at hl
    | cons vh vt =>
      have hl2 : kt.length = vt.length := by simpa using hl
      rcases lt_trichotomy k kh with hc | hc | hc
      · rw [leafInsert_cons_gt hc]
        simp only [List.zip_cons_cons, absIns, if_pos hc]
        rfl
      · have hnl : ¬ k < kh := by
          rw [hc]
          exact lt_irrefl _
        rw [leafInsert_cons_eq hc.symm]
        simp only [List.zip_cons_cons, absIns, if_neg hnl, if_pos hc]
        rfl
      · rw [leafInsert_cons_lt hc]
        simp only [List.zip_cons_cons, absIns, if_neg (not_lt.2 (le_of_lt hc)),
          if_neg (ne_of_gt hc)]
        rw [ih hl2]
        rfl

theorem leafInsert_len (hl : ks.length = vs.length) :
    (leafInsert k v ks vs).1.length = (leafInsert k v ks vs).2.length := by
  induction ks generalizing vs with
  | nil =>
    cases vs with
    | nil => rfl
    | cons _ _ => simp at hl
  | cons kh kt ih =>
    cases vs with
    | nil => simp at hl
    | cons vh vt =>
      have hl2 : kt.length = vt.length := by simpa using hl
      rcases lt_trichotomy k kh with hc | hc | hc
      · rw [leafInsert_cons_gt hc]
        simp [hl]
      · rw [leafInsert_cons_eq hc.symm]
        simp [hl2]
      · rw [leafInsert_cons_lt hc]
        simpa using ih hl2

theorem leafInsert_keys_sub (hl : ks.length = vs.length) :
    ∀ x ∈ (leafInsert k v ks vs).1, x = k ∨ x ∈ ks := by
  induction ks generalizing vs with
  | nil =>
    cases vs with
    | nil => simp [leafInsert]
    | cons _ _ => simp at hl
  | cons kh kt ih =>
    cases vs with
    | nil => simp at hl
    | cons vh vt =>
      have hl2 : kt.length = vt.length := by simpa using hl
      rcases lt_trichotomy k kh with hc | hc | hc
      · rw [leafInsert_cons_gt hc]
        intro x hx
        simp only [List.mem_cons] at hx ⊢
        tauto
      · rw [leafInsert_cons_eq hc.symm]
        intro x hx
        simp only [List.mem_cons] at hx ⊢
        tauto
      · rw [leafInsert_cons_lt hc]
        intro x hx
        simp only [List.mem_cons] at hx ⊢
        rcases hx with rfl | hx
        · tauto
        · rcases ih hl2 x hx with h | h
          · tauto
          · tauto

theorem leafInsert_sorted (hl : ks.length = vs.length) (hs : ks.Sorted (· < ·)) :
    (leafInsert k v ks vs).1.Sorted (· < ·) := by
  induction ks generalizing vs with
  | nil =>
    cases vs with
    | nil => simp [leafInsert]
    | cons _ _ => simp at hl
  | cons kh kt ih =>
    cases vs with
    | nil => simp at hl
    | cons vh vt =>
      have hl2 : kt.length = vt.length := by simpa using hl
      rw [List.sorted_cons] at hs
      rcases lt_trichotomy k kh with hc | hc | hc
      · rw [leafInsert_cons_gt hc]
        refine List.sorted_cons.2 ⟨?_, List.sorted_cons.2 ⟨hs.1, hs.2⟩⟩
        intro b hb
        rcases List.mem_cons.1 hb with rfl | hb
        · exact hc
        · exact lt_trans hc (hs.1 _ hb)
      · rw [leafInsert_cons_eq hc.symm]
        exact List.sorted_cons.2 ⟨hs.1, hs.2⟩
      · rw [leafInsert_cons_lt hc]
        refine List.sorted_cons.2 ⟨?_, ih hl2 hs.2⟩
        intro b hb
        rcases leafInsert_keys_sub hl2 b hb with rfl | hb
        · exact hc
        · exact hs.1 _ hb

theorem erase_at_lowerBound (hs : ks.Sorted (· < ·)) (hl : ks.length = vs.length)
    (hfound : ks[lowerBound ks k]? = some k) :
    (ks.eraseIdx (lowerBound ks k)).zip (vs.eraseIdx (lowerBound ks k)) =
      absDel k (ks.zip vs) := by
  induction ks generalizing vs with
  | nil => simp at hfound
  | cons kh kt ih =>
    cases vs with
    | nil => simp at hl
    | cons vh vt =>
      have hl2 : kt.length = vt.length := by simpa using hl
      rw [List.sorted_cons] at hs
      by_cases hc : kh < k
      · rw [lowerBound_cons, if_pos hc] at hfound ⊢
        simp only [List.getElem?_cons_succ] at hfound
        have hd : absDel k ((kh, vh) :: kt.zip vt) = (kh, vh) :: absDel k (kt.zip vt) := by
          rw [absDel, List.filter_cons_of_pos
            (by simp only [decide_eq_true_eq]; exact ne_of_lt hc)]
          rfl
        simp only [List.eraseIdx_cons_succ, List.zip_cons_cons, hd]
        rw [ih hs.2 hl2 hfound]
      · rw [lowerBound_cons, if_neg hc] at hfound ⊢
        simp only [List.getElem?_cons_zero, Option.some.injEq] at hfound
        subst hfound
        simp only [List.eraseIdx_cons_zero, List.zip_cons_cons]
        have hd : absDel kh ((kh, vh) :: kt.zip vt) = absDel kh (kt.zip vt) := by
          rw [absDel, List.filter_cons_of_neg (by simp)]
          rfl
        rw [hd, absDel_of_not_mem]
        intro a ha hak
        obtain ⟨p, hp, hpa⟩ := List.mem_map.1 ha
        obtain ⟨p1, p2⟩ := p
        obtain ⟨hp1, _⟩ := List.of_mem_zip hp
        simp only at hpa
        rw [hpa, hak] at hp1
        exact absurd (hs.1 _ hp1) (lt_irrefl _)

theorem not_mem_of_lowerBound_miss (hs : ks.Sorted (· < ·))
    (hmiss : ∀ kj, ks[lowerBound ks k]? = some kj → kj ≠ k) : k ∉ ks := by
  induction ks with
  | nil => simp
  | cons kh kt ih =>
    rw [List.sorted_cons] at hs
    by_cases hc : kh < k
    · rw [lowerBound_cons, if_pos hc] at hmiss
      simp only [List.getElem?_cons_succ] at hmiss
      intro hm
      rcases List.mem_cons.1 hm with rfl | hm
      · exact absurd hc (lt_irrefl _)
      · exact absurd hm (ih hs.2 hmiss)
    · rw [lowerBound_cons, if_neg hc] at hmiss
      simp only [List.getElem?_cons_zero] at hmiss
      have hne : kh ≠ k := hmiss kh rfl
      intro hm
      rcases List.mem_cons.1 hm with rfl | hm
      · exact hne rfl
      · exact absurd (hs.1 _ hm) hc

theorem absFind_zip_eq_none (h : k ∉ ks) : absFind k (ks.zip vs) = none := by
  refine absFind_eq_none_of_keys ?_
  intro a ha hak
  subst hak
  obtain ⟨p, hp, hpa⟩ := List.mem_map.1 ha
  obtain ⟨hp1, _⟩ := List.of_mem_zip (by rwa [← Prod.mk.eta (p := p)] at hp)
  rw [hpa] at hp1
  exact h hp1

theorem leafFind_eq_absFind (hs : ks.Sorted (· < ·)) (hl : ks.length = vs.length) :
    (match ks[lowerBound ks k]? with
     | some kj => if kj = k then some (vs.getD (lowerBound ks k) []) else none
     | none => none) = absFind k (ks.zip vs) := by
  induction ks generalizing vs with
  | nil => simp
  | cons kh kt ih =>
    cases vs with
    | nil => simp at hl
    | cons vh vt =>
      have hl2 : kt.length = vt.length := by simpa using hl
      rw [List.sorted_cons] at hs
      by_cases hc : kh < k
      · rw [lowerBound_cons, if_pos hc]
        simp only [List.getElem?_cons_succ, List.getD_cons_succ, List.zip_cons_cons]
        rw [absFind_cons_ne (ne_of_lt hc)]
        exact ih hs.2 hl2
      · rw [lowerBound_cons, if_neg hc]
        simp only [List.getElem?_cons_zero, List.getD_cons_zero, List.zip_cons_cons]
        by_cases he : kh = k
        · subst he
          rw [absFind_cons_self]
          simp
        · rw [absFind_cons_ne he, absFind_zip_eq_none]
          · simp [he]
          · intro hm
            have hk : k < kh := lt_of_le_of_ne (not_lt.1 hc) (fun h => he h.symm)
            exact absurd (lt_trans hk (hs.1 _ hm)) (lt_irrefl _)

theorem zip_take_append_drop (hl : ks.length = vs.length) (n : Nat) :
    (ks.take n).zip (vs.take n) ++ (ks.drop n).zip (vs.drop n) = ks.zip vs := by
  conv_rhs => rw [← List.take_append_drop n ks, ← List.take_append_drop n vs]
  rw [List.zip_append (by simp [hl])]

theorem zip_dropLast_getLastD (hl : ks.length = vs.length) (hne : ks ≠ [])
    (d1 : K) (d2 : List V) :
    (ks.dropLast).zip (vs.dropLast) ++ [(ks.getLastD d1, vs.getLastD d2)] = ks.zip vs := by
  have hvne : vs ≠ [] := by
    cases vs with
    | nil => cases ks with
      | nil => exact absurd rfl hne
      | cons _ _ => simp at hl
    | cons _ _ => simp
  have e1 : ks.getLastD d1 = ks.getLast hne := by
    rw [List.getLastD_eq_getLast?, List.getLast?_eq_getLast _ hne]
    rfl
  have e2 : vs.getLastD d2 = vs.getLast hvne := by
    rw [List.getLastD_eq_getLast?, List.getLast?_eq_getLast _ hvne]
    rfl
  rw [e1, e2]
  conv_rhs => rw [← List.dropLast_concat_getLast hne, ← List.dropLast_concat_getLast hvne]
  rw [List.zip_append (by rw [List.length_dropLast, List.length_dropLast, hl])]
  rfl

theorem zip_headD_tail (hl : ks.length = vs.length) (hne : ks ≠ [])
    (d1 : K) (d2 : List V) :
    (ks.headD d1, vs.headD d2) :: (ks.tail).zip (vs.tail) = ks.zip vs := by
  cases ks with
  | nil => exact absurd rfl hne
  | cons kh kt =>
    cases vs with
    | nil => simp at hl
    | cons vh vt => rfl

theorem sorted_dropLast_lt_getLastD (hs : ks.Sorted (· < ·)) (hne : ks ≠ []) (d : K) :
    ∀ x ∈ ks.dropLast, x < ks.getLastD d := by
  have e1 : ks.getLastD d = ks.getLast hne := by
    rw [List.getLastD_eq_getLast?, List.getLast?_eq_getLast _ hne]
    rfl
  rw [e1]
  intro x hx
  have hs2 : List.Pairwise (· < ·) (ks.dropLast ++ [ks.getLast hne]) := by
    rw [List.dropLast_concat_getLast hne]
    exact hs
  rw [List.pairwise_append] at hs2
  exact hs2.2.2 x hx _ (by simp)

end LeafLemmas

section WFLemmas

variable [LinearOrder K] {h : Nat} {lo hi : Option K} {ks : List K}
  {cs : List (Node K V)} {k : K} {v : V}

theorem wfn_leaf {ks : List K} {vs : List (List V)} {sz : Int}
    (h1 : ks.Sorted (· < ·)) (h2 : ks.length = vs.length)
    (h3 : ∀ x ∈ ks, loOk lo x ∧ hiOk hi x) :
    WFN 0 lo hi (Node.leaf ks vs sz) :=
  ⟨h1, h2, h3⟩

theorem wfn_internal {sz : Int}
    (h1 : ks.Sorted (· < ·)) (h2 : ∀ x ∈ ks, loOk lo x ∧ hiOk hi x)
    (h3 : WFC h lo ks cs hi) :
    WFN (h + 1) lo hi (Node.internal ks cs sz) :=
  ⟨h1, h2, h3⟩

theorem wfc_length (hc : WFC h lo ks cs hi) : cs.length = ks.length + 1 := by
  induction hc with
  | single _ => rfl
  | cons _ _ ih => simpa using ih

theorem entriesList_append {A B : List (Node K V)} :
    entriesList (A ++ B) = entriesList A ++ entriesList B := by
  induction A with
  | nil => rfl
  | cons c t ih =>
    rw [List.cons_append, entriesList, entriesList, ih, List.append_assoc]

mutual
theorem entriesOf_eq_flat (n : Node K V) :
    entriesOf n = (leavesOf n).flatMap (fun lf => lf.1.zip lf.2) := by
  cases n with
  | leaf ks vs sz => simp [entriesOf, leavesOf]
  | internal ks cs sz =>
    rw [entriesOf, leavesOf]
    exact entriesList_eq_flat cs
theorem entriesList_eq_flat (cs : List (Node K V)) :
    entriesList cs = (leavesList cs).flatMap (fun lf => lf.1.zip lf.2) := by
  cases cs with
  | nil => rfl
  | cons c t =>
    rw [entriesList, leavesList, List.flatMap_append, entriesOf_eq_flat c,
      entriesList_eq_flat t]
end

/-- Sortedness and bounds of the stored entries, node level. -/
theorem entries_node_facts :
    ∀ (h : Nat) {lo hi : Option K} {n : Node K V}, WFN h lo hi n →
      ((entriesOf n).map Prod.fst).Sorted (· < ·) ∧
      ∀ p ∈ entriesOf n, loOk lo p.1 ∧ hiOk hi p.1 := by
  intro h
  induction h with
  | zero =>
    rintro lo hi n hw
    cases n with
    | leaf ks vs sz =>
      obtain ⟨hsort, hlen, hbnd⟩ := hw
      rw [entriesOf]
      constructor
      · rw [List.map_fst_zip _ _ (le_of_eq hlen)]
        exact hsort
      · rintro ⟨p1, p2⟩ hp
        obtain ⟨hp1, _⟩ := List.of_mem_zip hp
        exact hbnd p1 hp1
    | internal ks cs sz => exact hw.elim
  | succ h ih =>
    rintro lo hi n hw
    cases n with
    | leaf ks vs sz => exact hw.elim
    | internal ks cs sz =>
      obtain ⟨hsort, hbnd, hchain⟩ := hw
      rw [entriesOf]
      revert hsort hbnd
      induction hchain with
      | single hn =>
        intro _ _
        simpa [entriesList] using ih hn
      | cons hn hrest ihrest =>
        rename_i lo2 hi2 s2 ks2 c2 cs2
        intro hsort hbnd
        rw [List.sorted_cons] at hsort
        obtain ⟨hs1, hb1⟩ := ih hn
        have hbs2 := hbnd s2 (by simp)
        obtain ⟨hs2, hb2⟩ := ihrest hsort.2
          (fun x hx => ⟨loOk_some.2 (le_of_lt (hsort.1 x hx)), (hbnd x (by simp [hx])).2⟩)
        rw [entriesList]
        constructor
        · rw [List.map_append]
          refine List.pairwise_append.2 ⟨hs1, hs2, ?_⟩
          intro x hx y hy
          obtain ⟨px, hpx, hpx2⟩ := List.mem_map.1 hx
          obtain ⟨py, hpy, hpy2⟩ := List.mem_map.1 hy
          have hx2 : x < s2 := by
            have := (hb1 px hpx).2
            rw [hpx2] at this
            simpa using this
          have hy2 : s2 ≤ y := by
            have := (hb2 py hpy).1
            rw [hpy2] at this
            simpa using this
          exact lt_of_lt_of_le hx2 hy2
        · intro p hp
          rcases List.mem_append.1 hp with hp | hp
          · obtain ⟨hpl, hph⟩ := hb1 p hp
            exact ⟨hpl, hiOk_trans_lt (by simpa using hph) hbs2.2⟩
          · obtain ⟨hpl, hph⟩ := hb2 p hp
            exact ⟨loOk_trans hbs2.1 (by simpa using hpl), hph⟩

/-- Sortedness and bounds of the stored entries, chain level. -/
theorem entries_chain_facts (hc : WFC h lo ks cs hi) (hsort : ks.Sorted (· < ·))
    (hbnd : ∀ x ∈ ks, loOk lo x ∧ hiOk hi x) :
    ((entriesList cs).map Prod.fst).Sorted (· < ·) ∧
    ∀ p ∈ entriesList cs, loOk lo p.1 ∧ hiOk hi p.1 := by
  have hw0 : WFN (h + 1) lo hi (.internal ks cs 0) := wfn_internal hsort hbnd hc
  have := entries_node_facts (h + 1) hw0
  rwa [entriesOf] at this

theorem wfc_split (hc : WFC h lo ks cs hi) :
    ∀ (mid : Nat) (smid : K), ks[mid]? = some smid →
      WFC h lo (ks.take mid) (cs.take (mid + 1)) (some smid) ∧
      WFC h (some smid) (ks.drop (mid + 1)) (cs.drop (mid + 1)) hi := by
  induction hc with
  | single _ =>
    intro mid smid hm
    simp at hm
  | cons hn hrest ih =>
    rename_i lo2 hi2 s2 ks2 c2 cs2
    intro mid smid hm
    cases mid with
    | zero =>
      simp only [List.getElem?_cons_zero, Option.some.injEq] at hm
      subst hm
      constructor
      · simpa using Chain.single hn
      · simpa using hrest
    | succ m =>
      simp only [List.getElem?_cons_succ] at hm
      obtain ⟨hl, hr⟩ := ih m smid hm
      constructor
      · simpa using Chain.cons hn hl
      · simpa using hr

end WFLemmas

/-! ### Correctness of insert -/

section InsertSpec

variable [LinearOrder K] {order : Nat} {k : K} {v : V} {h : Nat}

theorem insertRec_spec_leaf (ho : 3 ≤ order) {lo hi : Option K}
    {ks : List K} {vs : List (List V)} {sz : Int}
    (hw : WFN 0 lo hi (.leaf ks vs sz)) (hlok : loOk lo k) (hhik : hiOk hi k) :
    InsSpec order k v 0 lo hi (.leaf ks vs sz) := by
  obtain ⟨hsort, hlen, hbnd⟩ := hw
  have hlen2 := leafInsert_len (k := k) (v := v) hlen
  have hsort2 := leafInsert_sorted (k := k) (v := v) hlen hsort
  have hkeys := leafInsert_keys_sub (k := k) (v := v) hlen
  have hzip := leafInsert_zip (k := k) (v := v) hlen
  have hbndL : ∀ x ∈ (leafInsert k v ks vs).1, loOk lo x ∧ hiOk hi x := by
    intro x hx
    rcases hkeys x hx with rfl | hx
    · exact ⟨hlok, hhik⟩
    · exact hbnd x hx
  by_cases hsplit : order ≤ (leafInsert k v ks vs).1.length
  · constructor
    · intro n2 hres
      rw [insertRec] at hres
      simp only [if_pos hsplit] at hres
      cases hres
    · intro l s r hres
      rw [insertRec] at hres
      simp only [if_pos hsplit] at hres
      injection hres with hres1 hres2 hres3
      subst hres1
      subst hres2
      subst hres3
      have hmid1 : 1 ≤ (order + 1) / 2 := by omega
      have hmidlt : (order + 1) / 2 < (leafInsert k v ks vs).1.length := by omega
      set L := (leafInsert k v ks vs).1 with hL
      set W := (leafInsert k v ks vs).2 with hW
      set mid := (order + 1) / 2 with hmid
      have hdne : L.drop mid ≠ [] := by
        intro hd
        rw [List.drop_eq_nil_iff] at hd
        omega
      obtain ⟨s0, rest, hrest⟩ := List.exists_cons_of_ne_nil hdne
      have hhead : (L.drop mid).headD k = s0 := by rw [hrest]; rfl
      have hpw : List.Pairwise (· < ·) (L.take mid ++ L.drop mid) := by
        rw [List.take_append_drop]
        exact hsort2
      rw [List.pairwise_append] at hpw
      have hs0mem : s0 ∈ L.drop mid := by
        rw [hrest]
        simp
      have htake_lt : ∀ x ∈ L.take mid, x < s0 := fun x hx => hpw.2.2 x hx s0 hs0mem
      have hs0_le : ∀ y ∈ L.drop mid, s0 ≤ y := by
        intro y hy
        rw [hrest] at hy
        have h2 := hpw.2.1
        rw [hrest] at h2
        rcases List.mem_cons.1 hy with rfl | hy
        · exact le_refl _
        · exact le_of_lt ((List.pairwise_cons.1 h2).1 y hy)
      have htne : L.take mid ≠ [] := by
        intro ht
        have := congrArg List.length ht
        simp only [List.length_take, List.length_nil] at this
        omega
      obtain ⟨t0, trest, htrest⟩ := List.exists_cons_of_ne_nil htne
      have hlolt : loLt lo s0 := by
        have ht0 : t0 ∈ L.take mid := by
          rw [htrest]
          simp
        exact loLt_trans (hbndL t0 (List.mem_of_mem_take ht0)).1 (htake_lt t0 ht0)
      have hhi0 : hiOk hi s0 := (hbndL s0 (List.mem_of_mem_drop hs0mem)).2
      rw [hhead]
      refine ⟨?_, ?_, hlolt, hhi0, ?_⟩
      · refine wfn_leaf hpw.1 (by simp [hlen2]) ?_
        intro x hx
        exact ⟨(hbndL x (List.mem_of_mem_take hx)).1, by simpa using htake_lt x hx⟩
      · refine wfn_leaf hpw.2.1 (by simp [hlen2]) ?_
        intro x hx
        exact ⟨by simpa using hs0_le x hx, (hbndL x (List.mem_of_mem_drop hx)).2⟩
      · rw [entriesOf, entriesOf, entriesOf, zip_take_append_drop hlen2, hzip]
  · constructor
    · intro n2 hres
      rw [insertRec] at hres
      simp only [if_neg hsplit] at hres
      injection hres with hres1
      subst hres1
      exact ⟨wfn_leaf hsort2 hlen2 hbndL, by rw [entriesOf, entriesOf, hzip]⟩
    · intro l s r hres
      rw [insertRec] at hres
      simp only [if_neg hsplit] at hres
      cases hres

theorem insertChild_spec (ho : 3 ≤ order)
    (ihn : ∀ {lo hi : Option K} {n : Node K V}, WFN h lo hi n → loOk lo k → hiOk hi k →
      InsSpec order k v h lo hi n) :
    ∀ {lo hi : Option K} {ks : List K} {cs : List (Node K V)},
      WFC h lo ks cs hi → ks.Sorted (· < ·) →
      (∀ x ∈ ks, loOk lo x ∧ hiOk hi x) → loOk lo k → hiOk hi k →
      InsChainSpec order k v h lo hi ks cs := by
  intro lo hi ks cs hc
  induction hc with
  | single hn =>
    rename_i lo2 hi2 c2
    intro _ _ hlok hhik
    cases hres : insertRec order k v c2 with
    | one c2n =>
      have he : insertChild order k v 0 [c2] = some ([c2n], none) := by
        simp only [insertChild, hres]
      obtain ⟨hwf, hent⟩ := (ihn hn hlok hhik).1 c2n hres
      refine ⟨by rw [upperBound_nil, he]; simp, ?_, ?_⟩
      · intro cs1 h1
        rw [upperBound_nil, he] at h1
        simp only [Option.some.injEq, Prod.mk.injEq, and_true] at h1
        subst h1
        refine ⟨Chain.single hwf, ?_⟩
        simp only [entriesList, List.append_nil]
        exact hent
      · intro cs1 s r h1
        rw [upperBound_nil, he] at h1
        simp at h1
    | split l s r =>
      have he : insertChild order k v 0 [c2] = some ([l], some (s, r)) := by
        simp only [insertChild, hres]
      obtain ⟨hwl, hwr, hlolt, hhis, hent⟩ := (ihn hn hlok hhik).2 l s r hres
      refine ⟨by rw [upperBound_nil, he]; simp, ?_, ?_⟩
      · intro cs1 h1
        rw [upperBound_nil, he] at h1
        simp at h1
      · intro cs1 s2 r2 h1
        rw [upperBound_nil, he] at h1
        simp only [Option.some.injEq, Prod.mk.injEq] at h1
        obtain ⟨h1a, h1b, h1c⟩ := h1
        subst h1a
        subst h1b
        subst h1c
        refine ⟨?_, ?_, ?_, hlolt, ?_⟩
        · exact Chain.cons hwl (Chain.single hwr)
        · simp
        · intro x hx
          simp only [upperBound_nil, List.insertIdx_zero, List.mem_singleton] at hx
          subst hx
          exact ⟨loOk_of_loLt hlolt, hhis⟩
        · simp only [upperBound_nil, List.insertIdx_zero, List.insertIdx_succ_cons,
            entriesList, List.append_nil]
          exact hent
  | cons hn hrest ih =>
    rename_i lo2 hi2 s0 ks2 c2 cs2
    intro hsort0 hbnd hlok hhik
    have hsort := List.sorted_cons.1 hsort0
    have hbnds0 := hbnd s0 (by simp)
    have htailbnd : ∀ x ∈ ks2, loOk (some s0) x ∧ hiOk hi2 x :=
      fun x hx => ⟨loOk_some.2 (le_of_lt (hsort.1 x hx)), (hbnd x (by simp [hx])).2⟩
    have hcf := entries_chain_facts hrest hsort.2 htailbnd
    have hnf := entries_node_facts h hn
    by_cases hks0 : k < s0
    · -- descend into the first child
      have hub : upperBound (s0 :: ks2) k = 0 := by rw [upperBound_cons, if_pos hks0]
      have hrestKeys : ∀ b ∈ (entriesList cs2).map Prod.fst, k < b := by
        intro b hb
        obtain ⟨p, hp, hpb⟩ := List.mem_map.1 hb
        have h2 : s0 ≤ p.1 := by simpa using (hcf.2 p hp).1
        rw [hpb] at h2
        exact lt_of_lt_of_le hks0 h2
      cases hres : insertRec order k v c2 with
      | one c2n =>
        have he : insertChild order k v (upperBound (s0 :: ks2) k) (c2 :: cs2) =
            some (c2n :: cs2, none) := by
          simp only [hub, insertChild, hres]
        obtain ⟨hwf, hent⟩ := (ihn hn hlok (by simpa using hks0)).1 c2n hres
        refine ⟨by simp [he], ?_, ?_⟩
        · intro cs1 h1
          rw [he] at h1
          simp only [Option.some.injEq, Prod.mk.injEq, and_true] at h1
          subst h1
          refine ⟨Chain.cons hwf hrest, ?_⟩
          rw [entriesList, entriesList, hent, absIns_append_right hrestKeys]
        · intro cs1 s2 r2 h1
          rw [he] at h1
          simp at h1
      | split l s r =>
        have he : insertChild order k v (upperBound (s0 :: ks2) k) (c2 :: cs2) =
            some (l :: cs2, some (s, r)) := by
          simp only [hub, insertChild, hres]
        obtain ⟨hwl, hwr, hlolt, hhis, hent⟩ :=
          (ihn hn hlok (by simpa using hks0)).2 l s r hres
        have hss0 : s < s0 := by simpa using hhis
        refine ⟨by simp [he], ?_, ?_⟩
        · intro cs1 h1
          rw [he] at h1
          simp at h1
        · intro cs1 s2 r2 h1
          rw [he] at h1
          simp only [Option.some.injEq, Prod.mk.injEq] at h1
          obtain ⟨h1a, h1b, h1c⟩ := h1
          subst h1a
          subst h1b
          subst h1c
          have hub2 : upperBound (s0 :: ks2) s = 0 := by
            rw [upperBound_cons, if_pos hss0]
          rw [hub2]
          simp only [List.insertIdx_zero, List.insertIdx_succ_cons]
          refine ⟨?_, ?_, ?_, hlolt, ?_⟩
          · exact Chain.cons hwl (Chain.cons hwr hrest)
          · refine List.sorted_cons.2 ⟨?_, hsort0⟩
            intro b hb
            rcases List.mem_cons.1 hb with rfl | hb
            · exact hss0
            · exact lt_trans hss0 (hsort.1 b hb)
          · intro x hx
            rcases List.mem_cons.1 hx with rfl | hx
            · exact ⟨loOk_of_loLt hlolt, hiOk_trans_lt hss0 hbnds0.2⟩
            · exact hbnd x hx
          · rw [entriesList, entriesList, entriesList, ← List.append_assoc, hent,
              absIns_append_right hrestKeys]
    · -- descend to the right of the first separator
      have hs0k : s0 ≤ k := not_lt.1 hks0
      have hub : upperBound (s0 :: ks2) k = upperBound ks2 k + 1 := by
        rw [upperBound_cons, if_neg hks0]
      obtain ⟨ihr1, ihr2, ihr3⟩ := ih hsort.2 htailbnd (loOk_some.2 hs0k) hhik
      have hleftKeys : ∀ a ∈ (entriesOf c2).map Prod.fst, a < k := by
        intro a ha
        obtain ⟨p, hp, hpa⟩ := List.mem_map.1 ha
        have h2 : p.1 < s0 := by simpa using (hnf.2 p hp).2
        rw [hpa] at h2
        exact lt_of_lt_of_le h2 hs0k
      cases hinner : insertChild order k v (upperBound ks2 k) cs2 with
      | none => exact (ihr1 hinner).elim
      | some out =>
        obtain ⟨cs1t, sp⟩ := out
        have he : insertChild order k v (upperBound (s0 :: ks2) k) (c2 :: cs2) =
            some (c2 :: cs1t, sp) := by
          simp only [hub, insertChild, hinner]
        cases sp with
        | none =>
          obtain ⟨hwfc, hent⟩ := ihr2 cs1t hinner
          refine ⟨by simp [he], ?_, ?_⟩
          · intro cs1 h1
            rw [he] at h1
            simp only [Option.some.injEq, Prod.mk.injEq, and_true] at h1
            subst h1
            refine ⟨Chain.cons hn hwfc, ?_⟩
            rw [entriesList, entriesList, hent, absIns_append_left hleftKeys]
          · intro cs1 s2 r2 h1
            rw [he] at h1
            simp at h1
        | some sr =>
          obtain ⟨s, r⟩ := sr
          obtain ⟨hwfc, hsorted2, hbnd2, hlolt2, hent⟩ := ihr3 cs1t s r hinner
          have hs0s : s0 < s := by simpa using hlolt2
          refine ⟨by simp [he], ?_, ?_⟩
          · intro cs1 h1
            rw [he] at h1
            simp at h1
          · intro cs1 s2 r2 h1
            rw [he] at h1
            simp only [Option.some.injEq, Prod.mk.injEq] at h1
            obtain ⟨h1a, h1b, h1c⟩ := h1
            subst h1a
            subst h1b
            subst h1c
            have hub2 : upperBound (s0 :: ks2) s = upperBound ks2 s + 1 := by
              rw [upperBound_cons, if_neg (not_lt.2 (le_of_lt hs0s))]
            rw [hub2]
            simp only [List.insertIdx_succ_cons]
            refine ⟨?_, ?_, ?_, ?_, ?_⟩
            · exact Chain.cons hn hwfc
            · refine List.sorted_cons.2 ⟨?_, hsorted2⟩
              intro b hb
              rcases (List.mem_insertIdx upperBound_le_length).1 hb with rfl | hb
              · exact hs0s
              · exact hsort.1 b hb
            · intro x hx
              rcases List.mem_cons.1 hx with rfl | hx
              · exact hbnds0
              · have h2 := hbnd2 x hx
                exact ⟨loOk_trans hbnds0.1 (by simpa using h2.1), h2.2⟩
            · exact loLt_trans hbnds0.1 hs0s
            · rw [entriesList, entriesList, hent, absIns_append_left hleftKeys]

theorem insertRec_spec (ho : 3 ≤ order) :
    ∀ (h : Nat) {lo hi : Option K} {n : Node K V},
      WFN h lo hi n → loOk lo k → hiOk hi k → InsSpec order k v h lo hi n := by
  intro h
  induction h with
  | zero =>
    rintro lo hi n hw hlok hhik
    cases n with
    | leaf ks vs sz => exact insertRec_spec_leaf ho hw hlok hhik
    | internal ks cs sz => exact hw.elim
  | succ h ih =>
    rintro lo hi n hw hlok hhik
    cases n with
    | leaf ks vs sz => exact hw.elim
    | internal ks cs sz =>
      obtain ⟨hsort, hbnd, hchain⟩ := hw
      obtain ⟨hcs1, hcs2, hcs3⟩ :=
        insertChild_spec ho (fun hw2 hl2 hh2 => ih hw2 hl2 hh2) hchain hsort hbnd hlok hhik
      cases hic : insertChild order k v (upperBound ks k) cs with
      | none => exact (hcs1 hic).elim
      | some out =>
        obtain ⟨cs1, sp⟩ := out
        cases sp with
        | none =>
          obtain ⟨hwfc, hent⟩ := hcs2 cs1 hic
          constructor
          · intro n2 hres
            rw [insertRec] at hres
            simp only [hic] at hres
            injection hres with hres1
            subst hres1
            exact ⟨wfn_internal hsort hbnd hwfc, by rw [entriesOf, entriesOf, hent]⟩
          · intro l s2 r2 hres
            rw [insertRec] at hres
            simp only [hic] at hres
            cases hres
        | some sr =>
          obtain ⟨s, r⟩ := sr
          obtain ⟨hwfc, hsorted1, hbnd1, hlolt, hent⟩ := hcs3 cs1 s r hic
          by_cases hsp : order ≤ (ks.insertIdx (upperBound ks s) s).length
          · -- the internal node splits
            constructor
            · intro n2 hres
              rw [insertRec] at hres
              simp only [hic, if_pos hsp] at hres
              cases hres
            · intro l s2 r2 hres
              rw [insertRec] at hres
              simp only [hic, if_pos hsp] at hres
              injection hres with hres1 hres2 hres3
              subst hres1
              subst hres2
              subst hres3
              set j := upperBound ks s with hj
              set ks1 := ks.insertIdx j s with hks1
              set cs2 := cs1.insertIdx (j + 1) r with hcs2d
              set mid := ks1.length / 2 with hmid
              have hlen1 : ks1.length = ks.length + 1 := by
                rw [hks1]
                exact List.length_insertIdx _ _ (upperBound_le_length)
              have hmid1 : 1 ≤ mid := by omega
              have hmidlt : mid < ks1.length := by omega
              have hmidk : ks1[mid]? = some (ks1.getD mid s) := by
                rw [List.getD_eq_getElem ks1 s hmidlt]
                exact (List.getElem?_eq_some_getElem_iff _ _ hmidlt).2 trivial
              obtain ⟨hchl, hchr⟩ := wfc_split hwfc mid _ hmidk
              set upKey := ks1.getD mid s with hupk
              have hdropc : ks1.drop mid = upKey :: ks1.drop (mid + 1) := by
                rw [hupk, List.getD_eq_getElem ks1 s hmidlt]
                exact List.drop_eq_getElem_cons hmidlt
              have hpw : List.Pairwise (· < ·) (ks1.take mid ++ ks1.drop mid) := by
                rw [List.take_append_drop]
                exact hsorted1
              rw [List.pairwise_append] at hpw
              have hupmem : upKey ∈ ks1 := by
                refine List.mem_of_mem_drop (l := ks1) (n := mid) ?_
                rw [hdropc]
                simp
              have htake_lt : ∀ x ∈ ks1.take mid, x < upKey := by
                intro x hx
                refine hpw.2.2 x hx upKey ?_
                rw [hdropc]
                simp
              have hdrop_gt : ∀ x ∈ ks1.drop (mid + 1), upKey < x := by
                intro x hx
                have h2 := hpw.2.1
                rw [hdropc] at h2
                exact (List.pairwise_cons.1 h2).1 x hx
              have hk1ne : ks1 ≠ [] := by
                intro hk
                have := congrArg List.length hk
                simp only [List.length_nil] at this
                omega
              obtain ⟨k0, kt1, hk01⟩ := List.exists_cons_of_ne_nil hk1ne
              have hk0tk : k0 ∈ ks1.take mid := by
                obtain ⟨m2, hm2⟩ := Nat.exists_eq_add_of_le hmid1
                rw [hk01, hm2, Nat.add_comm, List.take_succ_cons]
                simp
              have hlo_up : loLt lo upKey := by
                refine loLt_trans (hbnd1 k0 ?_).1 (htake_lt k0 hk0tk)
                rw [hk01]
                simp
              have hhi_up : hiOk hi upKey := (hbnd1 upKey hupmem).2
              refine ⟨?_, ?_, hlo_up, hhi_up, ?_⟩
              · refine wfn_internal (List.Pairwise.sublist (List.take_sublist _ _) hsorted1) ?_ hchl
                intro x hx
                exact ⟨(hbnd1 x (List.mem_of_mem_take hx)).1, by simpa using htake_lt x hx⟩
              · refine wfn_internal (List.Pairwise.sublist (List.drop_sublist _ _) hsorted1) ?_ hchr
                intro x hx
                exact ⟨by simpa using le_of_lt (hdrop_gt x hx),
                  (hbnd1 x (List.mem_of_mem_drop hx)).2⟩
              · rw [entriesOf, entriesOf, entriesOf, ← entriesList_append,
                  List.take_append_drop, hent]
          · -- no split of the internal node
            constructor
            · intro n2 hres
              rw [insertRec] at hres
              simp only [hic, if_neg hsp] at hres
              injection hres with hres1
              subst hres1
              refine ⟨wfn_internal hsorted1 hbnd1 hwfc, ?_⟩
              rw [entriesOf, entriesOf, hent]
            · intro l s2 r2 hres
              rw [insertRec] at hres
              simp only [hic, if_neg hsp] at hres
              cases hres

end InsertSpec

/-! ### Correctness of remove -/

section RemoveSpec

@[simp] theorem lastLo_nil {lo : Option K} : lastLo lo ([] : List K) = lo := rfl

theorem lastLo_cons {lo : Option K} {s : K} {ks : List K} :
    lastLo lo (s :: ks) = lastLo (some s) ks := by
  cases ks with
  | nil => rfl
  | cons t u =>
    rw [lastLo, lastLo, List.getLast?_cons_cons]
    cases hg : (t :: u).getLast? with
    | none => simp at hg
    | some g => rfl

@[simp] theorem headHi_nil {hi : Option K} : headHi hi ([] : List K) = hi := rfl

@[simp] theorem headHi_cons {hi : Option K} {s : K} {ks : List K} :
    headHi hi (s :: ks) = some s := rfl

variable [LinearOrder K] {k x : K} {j : Nat} {lo hi : Option K} {ks : List K}

theorem getElem?_lt_upperBound {l : List K} (ha : l[j]? = some x)
    (hj : j < upperBound l k) : x ≤ k := by
  induction l generalizing j with
  | nil => simp at ha
  | cons y t ih =>
    rw [upperBound_cons] at hj
    by_cases h : k < y
    · rw [if_pos h] at hj
      omega
    · rw [if_neg h] at hj
      cases j with
      | zero =>
        simp only [List.getElem?_cons_zero, Option.some.injEq] at ha
        subst ha
        exact not_lt.1 h
      | succ m =>
        simp only [List.getElem?_cons_succ] at ha
        exact ih ha (by omega)

theorem getElem?_ge_upperBound {l : List K} (hs : l.Sorted (· < ·))
    (ha : l[j]? = some x) (hj : upperBound l k ≤ j) : k < x := by
  induction l generalizing j with
  | nil => simp at ha
  | cons y t ih =>
    rw [List.sorted_cons] at hs
    rw [upperBound_cons] at hj
    by_cases h : k < y
    · cases j with
      | zero =>
        simp only [List.getElem?_cons_zero, Option.some.injEq] at ha
        subst ha
        exact h
      | succ m =>
        simp only [List.getElem?_cons_succ] at ha
        exact lt_trans h (hs.1 x (List.getElem?_mem ha))
    · rw [if_neg h] at hj
      cases j with
      | zero => omega
      | succ m =>
        simp only [List.getElem?_cons_succ] at ha
        exact ih hs.2 ha (by omega)

/-- A sorted list is bounded above by its last element. -/
theorem sorted_le_getLast {l : List K} (hs : l.Sorted (· < ·)) {g : K}
    (hg : l.getLast? = some g) : ∀ x ∈ l, x ≤ g := by
  obtain ⟨ys, hys⟩ := List.getLast?_eq_some_iff.1 hg
  subst hys
  intro x hx
  rcases List.mem_append.1 hx with hx | hx
  · have h2 := List.pairwise_append.1 hs
    exact le_of_lt (h2.2.2 x hx g (by simp))
  · simp only [List.mem_singleton] at hx
    subst hx
    exact le_refl _

theorem loOk_of_lastLo {ks2 : List K} (h1 : loOk (lastLo lo ks2) x)
    (h2 : ∀ y ∈ ks2, loOk lo y) : loOk lo x := by
  cases hg : ks2.getLast? with
  | none =>
    rw [lastLo, hg] at h1
    exact h1
  | some g =>
    rw [lastLo, hg] at h1
    exact loOk_trans (h2 g (List.mem_of_getLast?_eq_some hg)) (h1 g rfl)

theorem hiOk_of_headHi {ks2 : List K} (h1 : hiOk (headHi hi ks2) x)
    (h2 : ∀ y ∈ ks2, hiOk hi y) : hiOk hi x := by
  cases ks2 with
  | nil => rwa [headHi_nil] at h1
  | cons s t =>
    rw [headHi_cons] at h1
    exact hiOk_trans (le_of_lt (by simpa using h1)) (h2 s (by simp))

section ChainLemmas

variable {P : Option K → Option K → Node K V → Prop} {cs : List (Node K V)}
  {c c2 : Node K V}

theorem chain_ne_nil (h : Chain P lo ks ([] : List (Node K V)) hi) : False := by
  cases h

theorem chain_len (h : Chain P lo ks cs hi) : cs.length = ks.length + 1 := by
  induction h with
  | single _ => rfl
  | cons _ _ ih => simpa using ih

theorem chain_head (h : Chain P lo ks (c :: cs) hi) : P lo (headHi hi ks) c := by
  cases h with
  | single hp => exact hp
  | cons hp _ => exact hp

theorem chain_replace_head (h : Chain P lo ks (c :: cs) hi) {lo2 : Option K}
    (hp : P lo2 (headHi hi ks) c2) : Chain P lo2 ks (c2 :: cs) hi := by
  cases h with
  | single _ => exact Chain.single (by simpa using hp)
  | cons _ hrest => exact Chain.cons (by simpa using hp) hrest

theorem chain_getLast_lo (h : Chain P lo ks cs hi) :
    ∀ {c3 : Node K V}, cs.getLast? = some c3 → P (lastLo lo ks) hi c3 := by
  induction h with
  | single hp =>
    intro c3 hc3
    simp only [List.getLast?_singleton, Option.some.injEq] at hc3
    subst hc3
    exact hp
  | cons hp hrest ih =>
    rename_i lo2 hi2 s2 ks2 c2 cs2
    intro c3 hc3
    rw [lastLo_cons]
    refine ih ?_
    cases cs2 with
    | nil => exact absurd hrest (by intro h2; exact chain_ne_nil h2)
    | cons d u => rwa [List.getLast?_cons_cons] at hc3

theorem chain_replace_getLast {hi2 : Option K} (h : Chain P lo ks cs hi) :
    ∀ {c3 : Node K V}, cs.getLast? = some c3 →
      P (lastLo lo ks) hi2 c2 → Chain P lo ks (cs.dropLast ++ [c2]) hi2 := by
  induction h with
  | single hp =>
    intro c3 _ hp2
    exact Chain.single (by simpa using hp2)
  | cons hp hrest ih =>
    rename_i lo2 hi2b s2 ks2 c0 cs2
    intro c3 hc3 hp2
    rw [lastLo_cons] at hp2
    cases cs2 with
    | nil => exact absurd hrest (by intro h2; exact chain_ne_nil h2)
    | cons d u =>
      rw [List.getLast?_cons_cons] at hc3
      have := Chain.cons hp (ih hc3 hp2)
      simpa using this

theorem chain_last_lo {cs1 : List (Node K V)}
    (h : Chain P lo ks (cs1 ++ [c]) hi) : P (lastLo lo ks) hi c :=
  chain_getLast_lo h (by rw [List.getLast?_concat])

theorem chain_replace_last {cs1 : List (Node K V)} {hi2 : Option K}
    (h : Chain P lo ks (cs1 ++ [c]) hi)
    (hp : P (lastLo lo ks) hi2 c2) : Chain P lo ks (cs1 ++ [c2]) hi2 := by
  have h2 := chain_replace_getLast h
    (show (cs1 ++ [c]).getLast? = some c by rw [List.getLast?_concat]) hp
  rwa [List.dropLast_concat] at h2

theorem chain_glue {ks1 ks2 : List K} {cs1 cs2 : List (Node K V)} {s : K}
    (h1 : Chain P lo ks1 cs1 (some s)) (h2 : Chain P (some s) ks2 cs2 hi) :
    Chain P lo (ks1 ++ s :: ks2) (cs1 ++ cs2) hi := by
  induction ks1 generalizing lo cs1 with
  | nil =>
    cases h1 with
    | single hp => exact Chain.cons hp h2
  | cons s1 t1 ih =>
    cases h1 with
    | cons hp hrest => exact Chain.cons hp (ih hrest)

theorem chain_set_elem (h : Chain P lo ks cs hi) :
    ∀ {i : Nat}, cs[i]? = some c →
      (∀ lo2 hi2, P lo2 hi2 c → P lo2 hi2 c2) → Chain P lo ks (cs.set i c2) hi := by
  induction h with
  | single hp =>
    intro i hi2 htr
    cases i with
    | zero =>
      simp only [List.getElem?_cons_zero, Option.some.injEq] at hi2
      subst hi2
      exact Chain.single (htr _ _ hp)
    | succ m => simp at hi2
  | cons hp hrest ih =>
    intro i hi2 htr
    cases i with
    | zero =>
      simp only [List.getElem?_cons_zero, Option.some.injEq] at hi2
      subst hi2
      exact Chain.cons (htr _ _ hp) hrest
    | succ m =>
      simp only [List.getElem?_cons_succ] at hi2
      exact Chain.cons hp (ih hi2 htr)

theorem chain_elem_ex (h : Chain P lo ks cs hi) :
    ∀ {i : Nat}, cs[i]? = some c → ∃ lo2 hi2, P lo2 hi2 c := by
  induction h with
  | single hp =>
    intro i hi2
    cases i with
    | zero =>
      simp only [List.getElem?_cons_zero, Option.some.injEq] at hi2
      subst hi2
      exact ⟨_, _, hp⟩
    | succ m => simp at hi2
  | cons hp hrest ih =>
    intro i hi2
    cases i with
    | zero =>
      simp only [List.getElem?_cons_zero, Option.some.injEq] at hi2
      subst hi2
      exact ⟨_, _, hp⟩
    | succ m =>
      simp only [List.getElem?_cons_succ] at hi2
      exact ih hi2

end ChainLemmas

/-- At the descent index `upper_bound(keys, k)` of a well-formed internal node,
every entry stored left of the visited child has key `< k`, every entry right
of it has key `> k`; hence both the deletion and the lookup of `k` localise to
the visited child. -/
theorem chain_entries_localize {h : Nat} {cs : List (Node K V)}
    (hc : WFC h lo ks cs hi) (hsort : ks.Sorted (· < ·))
    (hbnd : ∀ x ∈ ks, loOk lo x ∧ hiOk hi x)
    {i : Nat} {c : Node K V} (hik : i = upperBound ks k) (hgc : cs[i]? = some c) :
    (∀ p ∈ entriesList (cs.take i), p.1 < k) ∧
    (∀ p ∈ entriesList (cs.drop (i + 1)), k < p.1) ∧
    cs = cs.take i ++ c :: cs.drop (i + 1) ∧
    absDel k (entriesList cs) =
      entriesList (cs.take i) ++ absDel k (entriesOf c) ++
        entriesList (cs.drop (i + 1)) ∧
    absFind k (entriesList cs) = absFind k (entriesOf c) := by
  have hlen := chain_len hc
  have hi_lt : i < cs.length := by
    by_contra h2
    rw [List.getElem?_eq_none (by omega)] at hgc
    cases hgc
  have hi_le : i ≤ ks.length := by rw [hik]; exact upperBound_le_length
  have hA : ∀ p ∈ entriesList (cs.take i), p.1 < k := by
    cases hicase : i with
    | zero =>
      intro p hp
      rw [List.take_zero] at hp
      simp only [entriesList] at hp
      cases hp
    | succ m =>
      subst hicase
      have hm : m < ks.length := by omega
      have ha : ks[m]? = some ks[m] := List.getElem?_eq_getElem hm
      obtain ⟨hcl, _⟩ := wfc_split hc m ks[m] ha
      have hsort2 : (ks.take m).Sorted (· < ·) :=
        List.Pairwise.sublist (List.take_sublist _ _) hsort
      have hpw : List.Pairwise (· < ·) (ks.take m ++ ks.drop m) := by
        rw [List.take_append_drop]
        exact hsort
      rw [List.pairwise_append] at hpw
      have hbnd2 : ∀ x ∈ ks.take m, loOk lo x ∧ hiOk (some ks[m]) x := by
        intro x hx
        refine ⟨(hbnd x (List.mem_of_mem_take hx)).1, ?_⟩
        rw [hiOk_some]
        have hmem : ks[m] ∈ List.drop m ks := by
          rw [List.drop_eq_getElem_cons hm]
          exact List.mem_cons_self _ _
        exact hpw.2.2 x hx _ hmem
      have hfacts := (entries_chain_facts hcl hsort2 hbnd2).2
      intro p hp
      have hpk := (hfacts p hp).2
      rw [hiOk_some] at hpk
      exact lt_of_lt_of_le hpk (getElem?_lt_upperBound ha (by omega))
  have hB : ∀ p ∈ entriesList (cs.drop (i + 1)), k < p.1 := by
    by_cases hie : i = ks.length
    · intro p hp
      rw [List.drop_eq_nil_of_le (by omega)] at hp
      simp only [entriesList] at hp
      cases hp
    · have hm : i < ks.length := by omega
      have ha : ks[i]? = some ks[i] := List.getElem?_eq_getElem hm
      obtain ⟨_, hcr⟩ := wfc_split hc i ks[i] ha
      have hsort2 : (ks.drop (i + 1)).Sorted (· < ·) :=
        List.Pairwise.sublist (List.drop_sublist _ _) hsort
      have hpw : List.Pairwise (· < ·) (ks.take i ++ ks.drop i) := by
        rw [List.take_append_drop]
        exact hsort
      have hdi : ks.drop i = ks[i] :: ks.drop (i + 1) := List.drop_eq_getElem_cons hm
      have hbnd2 : ∀ x ∈ ks.drop (i + 1), loOk (some ks[i]) x ∧ hiOk hi x := by
        intro x hx
        refine ⟨?_, (hbnd x (List.mem_of_mem_drop (n := i + 1) hx)).2⟩
        rw [loOk_some]
        have hds : (ks.drop i).Sorted (· < ·) :=
          List.Pairwise.sublist (List.drop_sublist _ _) hsort
        rw [hdi] at hds
        exact le_of_lt ((List.pairwise_cons.1 hds).1 x hx)
      have hfacts := (entries_chain_facts hcr hsort2 hbnd2).2
      intro p hp
      have hpk := (hfacts p hp).1
      rw [loOk_some] at hpk
      exact lt_of_lt_of_le (getElem?_ge_upperBound hsort ha (by omega)) hpk
  have hceq : cs[i] = c := by
    rw [List.getElem?_eq_getElem hi_lt] at hgc
    injection hgc
  have hdec : cs = cs.take i ++ c :: cs.drop (i + 1) := by
    conv_lhs => rw [← List.take_append_drop i cs, List.drop_eq_getElem_cons hi_lt, hceq]
  have hEdec : entriesList cs =
      entriesList (cs.take i) ++ (entriesOf c ++ entriesList (cs.drop (i + 1))) := by
    conv_lhs => rw [hdec]
    rw [entriesList_append, entriesList]
  have hAne : ∀ a ∈ (entriesList (cs.take i)).map Prod.fst, a ≠ k := by
    intro a ha
    obtain ⟨p, hp, hpa⟩ := List.mem_map.1 ha
    rw [← hpa]
    exact ne_of_lt (hA p hp)
  have hBne : ∀ a ∈ (entriesList (cs.drop (i + 1))).map Prod.fst, a ≠ k := by
    intro a ha
    obtain ⟨p, hp, hpa⟩ := List.mem_map.1 ha
    rw [← hpa]
    exact ne_of_gt (hB p hp)
  refine ⟨hA, hB, hdec, ?_, ?_⟩
  · rw [hEdec, absDel_append, absDel_append, absDel_of_not_mem hAne,
      absDel_of_not_mem hBne, List.append_assoc]
  · rw [hEdec, absFind_append, absFind_append, absFind_eq_none_of_keys hAne,
      absFind_eq_none_of_keys hBne, Option.none_or, Option.or_none]

/-- Writing child `m+1` and then child `m` is a two-place surgery. -/
theorem set_set_adjacent {α : Type} {l : List α} {m : Nat} {x y : α}
    (h : m + 1 < l.length) :
    (l.set (m + 1) y).set m x = l.take m ++ x :: y :: l.drop (m + 2) := by
  rw [List.set_eq_take_append_cons_drop (n := m + 1), if_pos h]
  rw [List.set_append_left _ _ (by rw [List.length_take]; omega)]
  rw [List.set_eq_take_append_cons_drop, if_pos (by rw [List.length_take]; omega)]
  rw [List.take_take, List.drop_take, Nat.sub_self, List.take_zero]
  have h3 : m ⊓ (m + 1) = m := by omega
  rw [h3]
  simp

/-- Writing child `m` and erasing child `m+1` merges two adjacent places. -/
theorem set_eraseIdx_adjacent {α : Type} {l : List α} {m : Nat} {x : α}
    (h : m + 1 < l.length) :
    (l.set m x).eraseIdx (m + 1) = l.take m ++ x :: l.drop (m + 2) := by
  rw [List.set_eq_take_append_cons_drop (n := m), if_pos (by omega)]
  rw [List.eraseIdx_append_of_length_le (by rw [List.length_take]; omega)]
  have h2 : m + 1 - (l.take m).length = 1 := by rw [List.length_take]; omega
  rw [h2, List.eraseIdx_cons_succ, List.eraseIdx_zero, List.tail_drop]

/-- `removeChild` walks to the `i`-th child and applies `removeRec` there,
patching the result back in place. -/
theorem removeChild_eq (order : Nat) {cs : List (Node K V)} :
    ∀ {i : Nat} {c : Node K V}, cs[i]? = some c →
      removeChild order k i cs =
        match removeRec false order k c with
        | .notFound => .notFound
        | .done c2 b => .done (cs.set i c2) b := by
  induction cs with
  | nil =>
    intro i c h2
    simp at h2
  | cons d t ih =>
    intro i c h2
    cases i with
    | zero =>
      simp only [List.getElem?_cons_zero, Option.some.injEq] at h2
      subst h2
      rw [removeChild]
      cases hrr : removeRec false order k d <;> simp only [hrr, List.set_cons_zero]
    | succ m =>
      simp only [List.getElem?_cons_succ] at h2
      rw [removeChild, ih h2]
      cases hrr : removeRec false order k c <;> simp only [hrr, List.set_cons_succ]

/-- Replacing the visited leaf by the erased leaf (no rebalancing) preserves
well-formedness and performs the abstract deletion, for any stored size. -/
theorem leafSet_ok {cs : List (Node K V)} {i : Nat} {lks : List K}
    {lvs : List (List V)} {lsz : Int} (lsz2 szx : Int)
    (hc : WFC 0 lo ks cs hi) (hsort : ks.Sorted (· < ·))
    (hbnd : ∀ x ∈ ks, loOk lo x ∧ hiOk hi x)
    (hik : i = upperBound ks k) (hchild : cs[i]? = some (.leaf lks lvs lsz))
    (hfound : lks[lowerBound lks k]? = some k) :
    WFN 1 lo hi (.internal ks
      (cs.set i (.leaf (lks.eraseIdx (lowerBound lks k))
        (lvs.eraseIdx (lowerBound lks k)) lsz2)) szx) ∧
    entriesOf (.internal ks
      (cs.set i (.leaf (lks.eraseIdx (lowerBound lks k))
        (lvs.eraseIdx (lowerBound lks k)) lsz2)) szx) = absDel k (entriesList cs) := by
  obtain ⟨hA, hB, hdec, hDel, hFind⟩ := chain_entries_localize hc hsort hbnd hik hchild
  obtain ⟨lo2, hi2, hlw⟩ := chain_elem_ex hc hchild
  obtain ⟨hlsort, hllen, hlbnd⟩ := hlw
  have hjlt : lowerBound lks k < lks.length := by
    by_contra h2
    rw [List.getElem?_eq_none (by omega)] at hfound
    cases hfound
  have hi_lt : i < cs.length := by
    by_contra h2
    rw [List.getElem?_eq_none (by omega)] at hchild
    cases hchild
  have habs : (lks.eraseIdx (lowerBound lks k)).zip (lvs.eraseIdx (lowerBound lks k)) =
      absDel k (lks.zip lvs) := erase_at_lowerBound hlsort hllen hfound
  constructor
  · refine wfn_internal hsort hbnd (chain_set_elem hc hchild ?_)
    intro lo3 hi3 hw
    obtain ⟨h1, h2, h3⟩ := hw
    refine wfn_leaf (List.Pairwise.sublist (List.eraseIdx_sublist _ _) h1) ?_ ?_
    · rw [List.length_eraseIdx_of_lt hjlt, List.length_eraseIdx_of_lt (by omega)]
      omega
    · intro y hy
      exact h3 y ((List.eraseIdx_sublist _ _).subset hy)
  · have hset : cs.set i (.leaf (lks.eraseIdx (lowerBound lks k))
        (lvs.eraseIdx (lowerBound lks k)) lsz2) =
        cs.take i ++ (.leaf (lks.eraseIdx (lowerBound lks k))
          (lvs.eraseIdx (lowerBound lks k)) lsz2 : Node K V) :: cs.drop (i + 1) := by
      rw [List.set_eq_take_append_cons_drop, if_pos hi_lt]
    rw [entriesOf, hset, entriesList_append, entriesList, entriesOf]
    rw [hDel, entriesOf, habs, List.append_assoc]

/-- Borrowing the last key of the left sibling (source `borrowFromLeftLeaf`)
preserves well-formedness — with the sibling's stale stored size — and
performs the abstract deletion.  The visited child sits at position `m + 1`,
the lending sibling at `m`. -/
theorem borrowLeft_ok {cs : List (Node K V)} {m : Nat} {lks sks : List K}
    {lvs svs : List (List V)} {lsz ssz szx sz2 : Int}
    (hc : WFC 0 lo ks cs hi) (hsort : ks.Sorted (· < ·))
    (hbnd : ∀ x ∈ ks, loOk lo x ∧ hiOk hi x)
    (hik : m + 1 = upperBound ks k)
    (hchild : cs[m + 1]? = some (.leaf lks lvs lsz))
    (hfound : lks[lowerBound lks k]? = some k)
    (hsib : cs[m]? = some (.leaf sks svs ssz))
    (hsbig : 2 ≤ sks.length) :
    ∀ n2, n2 = Node.internal (ks.set m (sks.getLastD k))
      ((cs.set (m + 1) (.leaf (sks.getLastD k :: lks.eraseIdx (lowerBound lks k))
          (svs.getLastD [] :: lvs.eraseIdx (lowerBound lks k)) sz2)).set m
        (.leaf sks.dropLast svs.dropLast ssz)) szx →
      WFN 1 lo hi n2 ∧ entriesOf n2 = absDel k (entriesList cs) := by
  intro n2 hn2
  subst hn2
  obtain ⟨hA, hB, hdec, hDel, hFind⟩ := chain_entries_localize hc hsort hbnd hik hchild
  have hlen := chain_len hc
  have hi_lt : m + 1 < cs.length := by
    by_contra h2
    rw [List.getElem?_eq_none (by omega)] at hchild
    cases hchild
  have hi_le : m + 1 ≤ ks.length := by rw [hik]; exact upperBound_le_length
  have hm_lt : m < ks.length := by omega
  have ha : ks[m]? = some ks[m] := List.getElem?_eq_getElem hm_lt
  obtain ⟨hcl, hcr⟩ := wfc_split hc m ks[m] ha
  have htake : cs.take (m + 1) = cs.take m ++ [(.leaf sks svs ssz : Node K V)] := by
    rw [List.take_succ, hsib]
    rfl
  have hceq : cs[m + 1] = (.leaf lks lvs lsz : Node K V) := by
    rw [List.getElem?_eq_getElem hi_lt] at hchild
    exact Option.some.inj hchild
  have hdropR : cs.drop (m + 1) = (.leaf lks lvs lsz : Node K V) :: cs.drop (m + 2) := by
    rw [List.drop_eq_getElem_cons hi_lt, hceq]
  rw [htake] at hcl
  rw [hdropR] at hcr
  obtain ⟨hssort, hslen, hsbnd⟩ := chain_last_lo hcl
  obtain ⟨hlsort, hllen, hlbnd⟩ := chain_head hcr
  have hjlt : lowerBound lks k < lks.length := by
    by_contra h2
    rw [List.getElem?_eq_none (by omega)] at hfound
    cases hfound
  have hssne : sks ≠ [] := by
    intro h2
    rw [h2] at hsbig
    simp at hsbig
  have hmk_eq : sks.getLastD k = sks.getLast hssne := by
    rw [List.getLastD_eq_getLast?, List.getLast?_eq_getLast _ hssne]
    rfl
  have hmkmem : sks.getLastD k ∈ sks := by
    rw [hmk_eq]
    exact List.getLast_mem hssne
  have hmk_lt_a : sks.getLastD k < ks[m] := by
    have := (hsbnd _ hmkmem).2
    rwa [hiOk_some] at this
  have hkmem : k ∈ lks := List.getElem?_mem hfound
  have ha_le_k : ks[m] ≤ k := by
    have := (hlbnd k hkmem).1
    rwa [loOk_some] at this
  have hdlne : sks.dropLast ≠ [] := by
    intro h2
    have h3 := congrArg List.length h2
    rw [List.length_dropLast] at h3
    simp at h3
    omega
  obtain ⟨s0, t0, hs0⟩ := List.exists_cons_of_ne_nil hdlne
  have hs0mem : s0 ∈ sks.dropLast := by
    rw [hs0]
    simp
  have hs0lt : s0 < sks.getLastD k :=
    sorted_dropLast_lt_getLastD hssort hssne k s0 hs0mem
  have hs0lo := (hsbnd s0 (List.mem_of_mem_dropLast hs0mem)).1
  have hsibWF : WFN 0 (lastLo lo (ks.take m)) (some (sks.getLastD k))
      ((.leaf sks.dropLast svs.dropLast ssz : Node K V)) := by
    refine wfn_leaf (List.Pairwise.sublist (List.dropLast_sublist _) hssort)
      (by rw [List.length_dropLast, List.length_dropLast, hslen]) ?_
    intro y hy
    refine ⟨(hsbnd y (List.mem_of_mem_dropLast hy)).1, ?_⟩
    rw [hiOk_some]
    exact sorted_dropLast_lt_getLastD hssort hssne k y hy
  have hlfWF : WFN 0 (some (sks.getLastD k)) (headHi hi (ks.drop (m + 1)))
      ((.leaf (sks.getLastD k :: lks.eraseIdx (lowerBound lks k))
        (svs.getLastD [] :: lvs.eraseIdx (lowerBound lks k)) sz2 : Node K V)) := by
    refine wfn_leaf ?_ ?_ ?_
    · refine List.sorted_cons.2
        ⟨?_, List.Pairwise.sublist (List.eraseIdx_sublist _ _) hlsort⟩
      intro y hy
      have hymem : y ∈ lks := (List.eraseIdx_sublist _ _).subset hy
      have hay : ks[m] ≤ y := by
        have := (hlbnd y hymem).1
        rwa [loOk_some] at this
      exact lt_of_lt_of_le hmk_lt_a hay
    · simp only [List.length_cons]
      rw [List.length_eraseIdx_of_lt hjlt, List.length_eraseIdx_of_lt (by omega)]
      omega
    · intro y hy
      rcases List.mem_cons.1 hy with rfl | hy
      · exact ⟨by simp,
          hiOk_trans (le_trans (le_of_lt hmk_lt_a) ha_le_k) (hlbnd k hkmem).2⟩
      · have hymem : y ∈ lks := (List.eraseIdx_sublist _ _).subset hy
        have hay : ks[m] ≤ y := by
          have := (hlbnd y hymem).1
          rwa [loOk_some] at this
        refine ⟨?_, (hlbnd y hymem).2⟩
        rw [loOk_some]
        exact le_of_lt (lt_of_lt_of_le hmk_lt_a hay)
  have hcl2 := chain_replace_last hcl hsibWF
  have hcr2 := chain_replace_head hcr hlfWF
  have hglue := chain_glue hcl2 hcr2
  have hks2 : ks.set m (sks.getLastD k) =
      ks.take m ++ sks.getLastD k :: ks.drop (m + 1) := by
    rw [List.set_eq_take_append_cons_drop, if_pos hm_lt]
  have hcs2 : (cs.set (m + 1) (.leaf (sks.getLastD k :: lks.eraseIdx (lowerBound lks k))
        (svs.getLastD [] :: lvs.eraseIdx (lowerBound lks k)) sz2)).set m
        ((.leaf sks.dropLast svs.dropLast ssz : Node K V)) =
      cs.take m ++ (.leaf sks.dropLast svs.dropLast ssz : Node K V) ::
        (.leaf (sks.getLastD k :: lks.eraseIdx (lowerBound lks k))
          (svs.getLastD [] :: lvs.eraseIdx (lowerBound lks k)) sz2 : Node K V) ::
        cs.drop (m + 2) := set_set_adjacent hi_lt
  have hsort_take : (ks.take m).Sorted (· < ·) :=
    List.Pairwise.sublist (List.take_sublist _ _) hsort
  have hdksm : ks.drop m = ks[m] :: ks.drop (m + 1) := List.drop_eq_getElem_cons hm_lt
  have hks2sort : (ks.take m ++ sks.getLastD k :: ks.drop (m + 1)).Sorted (· < ·) := by
    refine List.pairwise_append.2 ⟨hsort_take, ?_, ?_⟩
    · refine List.sorted_cons.2
        ⟨?_, List.Pairwise.sublist (List.drop_sublist _ _) hsort⟩
      intro y hy
      have hdsort : (ks.drop m).Sorted (· < ·) :=
        List.Pairwise.sublist (List.drop_sublist _ _) hsort
      rw [hdksm, List.sorted_cons] at hdsort
      exact lt_trans hmk_lt_a (hdsort.1 y hy)
    · intro y hy z hz
      rcases List.mem_cons.1 hz with rfl | hz
      · cases hgl : (ks.take m).getLast? with
        | none =>
          rw [List.getLast?_eq_none_iff] at hgl
          rw [hgl] at hy
          cases hy
        | some g =>
          have hyg : y ≤ g := sorted_le_getLast hsort_take hgl y hy
          have hglo : lastLo lo (ks.take m) = some g := by rw [lastLo, hgl]
          have hgs0 : g ≤ s0 := by
            have h4 := hs0lo
            rw [hglo, loOk_some] at h4
            exact h4
          exact lt_of_le_of_lt (le_trans hyg hgs0) hs0lt
      · have hpw2 : List.Pairwise (· < ·) (ks.take m ++ ks.drop m) := by
          rw [List.take_append_drop]
          exact hsort
        rw [List.pairwise_append] at hpw2
        refine hpw2.2.2 y hy z ?_
        rw [hdksm]
        exact List.mem_cons_of_mem _ hz
  have hks2bnd : ∀ y ∈ ks.take m ++ sks.getLastD k :: ks.drop (m + 1),
      loOk lo y ∧ hiOk hi y := by
    intro y hy
    have hy2 : y ∈ ks.set m (sks.getLastD k) := by
      rw [hks2]
      exact hy
    rcases List.mem_or_eq_of_mem_set hy2 with hy3 | rfl
    · exact hbnd y hy3
    · constructor
      · refine loOk_of_lastLo (loOk_trans hs0lo (le_of_lt hs0lt)) ?_
        exact fun z hz => (hbnd z (List.mem_of_mem_take hz)).1
      · exact hiOk_trans_lt hmk_lt_a (hbnd ks[m] (List.getElem?_mem ha)).2
  constructor
  · rw [hks2, hcs2]
    refine wfn_internal hks2sort hks2bnd ?_
    simpa [List.append_assoc] using hglue
  · rw [entriesOf, hcs2, entriesList_append, entriesList, entriesList,
      entriesOf, entriesOf]
    rw [hDel, entriesOf]
    rw [← erase_at_lowerBound hlsort hllen hfound]
    rw [htake, entriesList_append, entriesList, entriesOf, entriesList]
    rw [← zip_dropLast_getLastD hslen hssne k ([] : List V)]
    rw [List.zip_cons_cons]
    simp [List.append_assoc]

/-- Borrowing the first key of the right sibling (source `borrowFromRightLeaf`)
preserves well-formedness — again with the sibling's stale stored size — and
performs the abstract deletion.  The visited child sits at position `i`, the
lending sibling at `i + 1`. -/
theorem borrowRight_ok {cs : List (Node K V)} {i : Nat} {lks rks : List K}
    {lvs rvs : List (List V)} {lsz rsz szx sz2 : Int}
    (hc : WFC 0 lo ks cs hi) (hsort : ks.Sorted (· < ·))
    (hbnd : ∀ x ∈ ks, loOk lo x ∧ hiOk hi x)
    (hik : i = upperBound ks k)
    (hchild : cs[i]? = some (.leaf lks lvs lsz))
    (hfound : lks[lowerBound lks k]? = some k)
    (hsib : cs[i + 1]? = some (.leaf rks rvs rsz))
    (hsbig : 2 ≤ rks.length) :
    ∀ n2, n2 = Node.internal (ks.set i (rks.tail.headD k))
      ((cs.set i (.leaf (lks.eraseIdx (lowerBound lks k) ++ [rks.headD k])
          (lvs.eraseIdx (lowerBound lks k) ++ [rvs.headD []]) sz2)).set (i + 1)
        (.leaf rks.tail rvs.tail rsz)) szx →
      WFN 1 lo hi n2 ∧ entriesOf n2 = absDel k (entriesList cs) := by
  intro n2 hn2
  subst hn2
  obtain ⟨hA, hB, hdec, hDel, hFind⟩ := chain_entries_localize hc hsort hbnd hik hchild
  have hlen := chain_len hc
  have hs_lt : i + 1 < cs.length := by
    by_contra h2
    rw [List.getElem?_eq_none (by omega)] at hsib
    cases hsib
  have hi_lt : i < cs.length := by omega
  have hm_lt : i < ks.length := by omega
  have ha : ks[i]? = some ks[i] := List.getElem?_eq_getElem hm_lt
  obtain ⟨hcl, hcr⟩ := wfc_split hc i ks[i] ha
  have htake : cs.take (i + 1) = cs.take i ++ [(.leaf lks lvs lsz : Node K V)] := by
    rw [List.take_succ, hchild]
    rfl
  have hseq : cs[i + 1] = (.leaf rks rvs rsz : Node K V) := by
    rw [List.getElem?_eq_getElem hs_lt] at hsib
    exact Option.some.inj hsib
  have hdropR : cs.drop (i + 1) = (.leaf rks rvs rsz : Node K V) :: cs.drop (i + 2) := by
    rw [List.drop_eq_getElem_cons hs_lt, hseq]
  rw [htake] at hcl
  rw [hdropR] at hcr
  obtain ⟨hlsort, hllen, hlbnd⟩ := chain_last_lo hcl
  obtain ⟨hrsort, hrlen, hrbnd⟩ := chain_head hcr
  have hjlt : lowerBound lks k < lks.length := by
    by_contra h2
    rw [List.getElem?_eq_none (by omega)] at hfound
    cases hfound
  have hrne : rks ≠ [] := by
    intro h2
    rw [h2] at hsbig
    simp at hsbig
  have hrks_eq : rks.headD k :: rks.tail = rks := by
    cases rks with
    | nil => exact absurd rfl hrne
    | cons a t => rfl
  have hrtne : rks.tail ≠ [] := by
    intro h2
    have h3 := congrArg List.length hrks_eq
    rw [h2] at h3
    simp at h3
    omega
  have hrt_eq : rks.tail.headD k :: rks.tail.tail = rks.tail := by
    cases hrt : rks.tail with
    | nil => exact absurd hrt hrtne
    | cons a t => rfl
  have hmkrmem : rks.headD k ∈ rks := by
    rw [← hrks_eq]
    simp
  have hs'tmem : rks.tail.headD k ∈ rks.tail := by
    rw [← hrt_eq]
    simp
  have hs'rmem : rks.tail.headD k ∈ rks := by
    rw [← hrks_eq]
    exact List.mem_cons_of_mem _ hs'tmem
  have hb_le_mk : ks[i] ≤ rks.headD k := by
    have := (hrbnd _ hmkrmem).1
    rwa [loOk_some] at this
  have hmk_lt_s' : rks.headD k < rks.tail.headD k := by
    have h4 : rks.Sorted (· < ·) := hrsort
    rw [← hrks_eq, List.sorted_cons] at h4
    exact h4.1 _ hs'tmem
  have hs'_le : ∀ y ∈ rks.tail, rks.tail.headD k ≤ y := by
    intro y hy
    have h4 : rks.tail.Sorted (· < ·) :=
      List.Pairwise.sublist (List.tail_sublist _) hrsort
    rw [← hrt_eq, List.sorted_cons] at h4
    rw [← hrt_eq] at hy
    rcases List.mem_cons.1 hy with rfl | hy
    · exact le_refl _
    · exact le_of_lt (h4.1 y hy)
  have hkmem : k ∈ lks := List.getElem?_mem hfound
  have hk_lt_b : k < ks[i] := getElem?_ge_upperBound hsort ha (by omega)
  have hlk_lt_b : ∀ y ∈ lks, y < ks[i] := by
    intro y hy
    have := (hlbnd y hy).2
    rwa [hiOk_some] at this
  have hlfWF : WFN 0 (lastLo lo (ks.take i)) (some (rks.tail.headD k))
      ((.leaf (lks.eraseIdx (lowerBound lks k) ++ [rks.headD k])
        (lvs.eraseIdx (lowerBound lks k) ++ [rvs.headD []]) sz2 : Node K V)) := by
    refine wfn_leaf ?_ ?_ ?_
    · refine List.pairwise_append.2
        ⟨List.Pairwise.sublist (List.eraseIdx_sublist _ _) hlsort, by simp, ?_⟩
      intro y hy z hz
      rw [List.mem_singleton] at hz
      subst hz
      have hymem : y ∈ lks := (List.eraseIdx_sublist _ _).subset hy
      exact lt_of_lt_of_le (hlk_lt_b y hymem) hb_le_mk
    · rw [List.length_append, List.length_append,
        List.length_eraseIdx_of_lt hjlt, List.length_eraseIdx_of_lt (by omega),
        List.length_singleton, List.length_singleton]
      omega
    · intro y hy
      rcases List.mem_append.1 hy with hy | hy
      · have hymem : y ∈ lks := (List.eraseIdx_sublist _ _).subset hy
        refine ⟨(hlbnd y hymem).1, ?_⟩
        rw [hiOk_some]
        exact lt_trans (lt_of_lt_of_le (hlk_lt_b y hymem) hb_le_mk) hmk_lt_s'
      · rw [List.mem_singleton] at hy
        subst hy
        refine ⟨loOk_trans (hlbnd k hkmem).1
          (le_trans (le_of_lt hk_lt_b) hb_le_mk), ?_⟩
        rw [hiOk_some]
        exact hmk_lt_s'
  have hsibWF : WFN 0 (some (rks.tail.headD k)) (headHi hi (ks.drop (i + 1)))
      ((.leaf rks.tail rvs.tail rsz : Node K V)) := by
    refine wfn_leaf (List.Pairwise.sublist (List.tail_sublist _) hrsort)
      (by rw [List.length_tail, List.length_tail, hrlen]) ?_
    intro y hy
    refine ⟨?_, (hrbnd y (List.mem_of_mem_tail hy)).2⟩
    rw [loOk_some]
    exact hs'_le y hy
  have hcl2 := chain_replace_last hcl hlfWF
  have hcr2 := chain_replace_head hcr hsibWF
  have hglue := chain_glue hcl2 hcr2
  have hks2 : ks.set i (rks.tail.headD k) =
      ks.take i ++ rks.tail.headD k :: ks.drop (i + 1) := by
    rw [List.set_eq_take_append_cons_drop, if_pos hm_lt]
  have hcs2 : (cs.set i (.leaf (lks.eraseIdx (lowerBound lks k) ++ [rks.headD k])
        (lvs.eraseIdx (lowerBound lks k) ++ [rvs.headD []]) sz2)).set (i + 1)
        ((.leaf rks.tail rvs.tail rsz : Node K V)) =
      cs.take i ++ (.leaf (lks.eraseIdx (lowerBound lks k) ++ [rks.headD k])
          (lvs.eraseIdx (lowerBound lks k) ++ [rvs.headD []]) sz2 : Node K V) ::
        (.leaf rks.tail rvs.tail rsz : Node K V) :: cs.drop (i + 2) := by
    rw [List.set_comm _ _ _ (by omega)]
    exact set_set_adjacent hs_lt
  have hsort_take : (ks.take i).Sorted (· < ·) :=
    List.Pairwise.sublist (List.take_sublist _ _) hsort
  have hdksm : ks.drop i = ks[i] :: ks.drop (i + 1) := List.drop_eq_getElem_cons hm_lt
  have hks2sort : (ks.take i ++ rks.tail.headD k :: ks.drop (i + 1)).Sorted (· < ·) := by
    refine List.pairwise_append.2 ⟨hsort_take, ?_, ?_⟩
    · refine List.sorted_cons.2
        ⟨?_, List.Pairwise.sublist (List.drop_sublist _ _) hsort⟩
      intro y hy
      cases hd : ks.drop (i + 1) with
      | nil =>
        rw [hd] at hy
        cases hy
      | cons c t =>
        have hs'c : rks.tail.headD k < c := by
          have h4 := (hrbnd _ hs'rmem).2
          rw [hd, headHi_cons, hiOk_some] at h4
          exact h4
        rw [hd] at hy
        have hdsort : (c :: t).Sorted (· < ·) := by
          rw [← hd]
          exact List.Pairwise.sublist (List.drop_sublist _ _) hsort
        rcases List.mem_cons.1 hy with rfl | hy
        · exact hs'c
        · exact lt_trans hs'c ((List.sorted_cons.1 hdsort).1 y hy)
    · intro y hy z hz
      have hpw2 : List.Pairwise (· < ·) (ks.take i ++ ks.drop i) := by
        rw [List.take_append_drop]
        exact hsort
      rw [List.pairwise_append] at hpw2
      have hyb : y < ks[i] := by
        refine hpw2.2.2 y hy ks[i] ?_
        rw [hdksm]
        exact List.mem_cons_self _ _
      rcases List.mem_cons.1 hz with rfl | hz
      · exact lt_of_lt_of_le hyb (le_trans hb_le_mk (le_of_lt hmk_lt_s'))
      · refine hpw2.2.2 y hy z ?_
        rw [hdksm]
        exact List.mem_cons_of_mem _ hz
  have hks2bnd : ∀ y ∈ ks.take i ++ rks.tail.headD k :: ks.drop (i + 1),
      loOk lo y ∧ hiOk hi y := by
    intro y hy
    have hy2 : y ∈ ks.set i (rks.tail.headD k) := by
      rw [hks2]
      exact hy
    rcases List.mem_or_eq_of_mem_set hy2 with hy3 | rfl
    · exact hbnd y hy3
    · constructor
      · refine loOk_trans (hbnd ks[i] (List.getElem?_mem ha)).1 ?_
        exact le_trans hb_le_mk (le_of_lt hmk_lt_s')
      · refine hiOk_of_headHi (hrbnd _ hs'rmem).2 ?_
        exact fun z hz => (hbnd z (List.mem_of_mem_drop (n := i + 1) hz)).2
  constructor
  · rw [hks2, hcs2]
    refine wfn_internal hks2sort hks2bnd ?_
    simpa [List.append_assoc] using hglue
  · rw [entriesOf, hcs2, entriesList_append, entriesList, entriesList,
      entriesOf, entriesOf]
    rw [hDel, entriesOf]
    rw [← erase_at_lowerBound hlsort hllen hfound]
    rw [hdropR, entriesList, entriesOf]
    rw [← zip_headD_tail hrlen hrne k ([] : List V)]
    rw [List.zip_append (by
      rw [List.length_eraseIdx_of_lt hjlt, List.length_eraseIdx_of_lt (by omega)]
      omega)]
    simp [List.append_assoc]

/-- Merging the erased leaf into its left sibling (source `mergeLeaf` with the
left neighbour): the separator between them disappears, and when this empties
a root's key list the merged leaf becomes the whole tree.  Both outcome shapes
preserve well-formedness and perform the abstract deletion.  The visited child
sits at position `m + 1`, the sibling at `m`. -/
theorem mergeLeft_ok {cs : List (Node K V)} {m : Nat} {lks sks : List K}
    {lvs svs : List (List V)} {lsz ssz : Int} (szx sz2 : Int)
    (hc : WFC 0 lo ks cs hi) (hsort : ks.Sorted (· < ·))
    (hbnd : ∀ x ∈ ks, loOk lo x ∧ hiOk hi x)
    (hik : m + 1 = upperBound ks k)
    (hchild : cs[m + 1]? = some (.leaf lks lvs lsz))
    (hfound : lks[lowerBound lks k]? = some k)
    (hsib : cs[m]? = some (.leaf sks svs ssz)) :
    (∀ n2, n2 = Node.internal (ks.eraseIdx m)
        ((cs.set m (.leaf (sks ++ lks.eraseIdx (lowerBound lks k))
          (svs ++ lvs.eraseIdx (lowerBound lks k)) sz2)).eraseIdx (m + 1)) szx →
      WFN 1 lo hi n2 ∧ entriesOf n2 = absDel k (entriesList cs)) ∧
    (ks.eraseIdx m = [] →
      WFN 0 lo hi ((.leaf (sks ++ lks.eraseIdx (lowerBound lks k))
        (svs ++ lvs.eraseIdx (lowerBound lks k)) sz2 : Node K V)) ∧
      entriesOf ((.leaf (sks ++ lks.eraseIdx (lowerBound lks k))
        (svs ++ lvs.eraseIdx (lowerBound lks k)) sz2 : Node K V)) =
        absDel k (entriesList cs)) := by
  obtain ⟨hA, hB, hdec, hDel, hFind⟩ := chain_entries_localize hc hsort hbnd hik hchild
  have hlen := chain_len hc
  have hi_lt : m + 1 < cs.length := by
    by_contra h2
    rw [List.getElem?_eq_none (by omega)] at hchild
    cases hchild
  have hi_le : m + 1 ≤ ks.length := by rw [hik]; exact upperBound_le_length
  have hm_lt : m < ks.length := by omega
  have ha : ks[m]? = some ks[m] := List.getElem?_eq_getElem hm_lt
  obtain ⟨hcl, hcr⟩ := wfc_split hc m ks[m] ha
  have htake : cs.take (m + 1) = cs.take m ++ [(.leaf sks svs ssz : Node K V)] := by
    rw [List.take_succ, hsib]
    rfl
  have hceq : cs[m + 1] = (.leaf lks lvs lsz : Node K V) := by
    rw [List.getElem?_eq_getElem hi_lt] at hchild
    exact Option.some.inj hchild
  have hdropR : cs.drop (m + 1) = (.leaf lks lvs lsz : Node K V) :: cs.drop (m + 2) := by
    rw [List.drop_eq_getElem_cons hi_lt, hceq]
  rw [htake] at hcl
  rw [hdropR] at hcr
  obtain ⟨hssort, hslen, hsbnd⟩ := chain_last_lo hcl
  obtain ⟨hlsort, hllen, hlbnd⟩ := chain_head hcr
  have hjlt : lowerBound lks k < lks.length := by
    by_contra h2
    rw [List.getElem?_eq_none (by omega)] at hfound
    cases hfound
  have hsk_lt_a : ∀ y ∈ sks, y < ks[m] := by
    intro y hy
    have := (hsbnd y hy).2
    rwa [hiOk_some] at this
  have ha_le_lk : ∀ y ∈ lks, ks[m] ≤ y := by
    intro y hy
    have := (hlbnd y hy).1
    rwa [loOk_some] at this
  have hdksm : ks.drop m = ks[m] :: ks.drop (m + 1) := List.drop_eq_getElem_cons hm_lt
  have hhiOk_a : hiOk (headHi hi (ks.drop (m + 1))) ks[m] := by
    cases hd : ks.drop (m + 1) with
    | nil =>
      rw [headHi_nil]
      exact (hbnd ks[m] (List.getElem?_mem ha)).2
    | cons c t =>
      rw [headHi_cons, hiOk_some]
      have hdsort : (ks.drop m).Sorted (· < ·) :=
        List.Pairwise.sublist (List.drop_sublist _ _) hsort
      rw [hdksm, hd, List.sorted_cons] at hdsort
      exact hdsort.1 c (by simp)
  have hloOk_a : loOk (lastLo lo (ks.take m)) ks[m] := by
    cases hgl : (ks.take m).getLast? with
    | none =>
      rw [lastLo, hgl]
      exact (hbnd ks[m] (List.getElem?_mem ha)).1
    | some g =>
      rw [lastLo, hgl, loOk_some]
      have hgmem : g ∈ ks.take m := List.mem_of_getLast?_eq_some hgl
      have hpw2 : List.Pairwise (· < ·) (ks.take m ++ ks.drop m) := by
        rw [List.take_append_drop]
        exact hsort
      rw [List.pairwise_append] at hpw2
      refine le_of_lt (hpw2.2.2 g hgmem ks[m] ?_)
      rw [hdksm]
      exact List.mem_cons_self _ _
  have hmergedWF : WFN 0 (lastLo lo (ks.take m)) (headHi hi (ks.drop (m + 1)))
      ((.leaf (sks ++ lks.eraseIdx (lowerBound lks k))
        (svs ++ lvs.eraseIdx (lowerBound lks k)) sz2 : Node K V)) := by
    refine wfn_leaf ?_ ?_ ?_
    · refine List.pairwise_append.2
        ⟨hssort, List.Pairwise.sublist (List.eraseIdx_sublist _ _) hlsort, ?_⟩
      intro y hy z hz
      have hzmem : z ∈ lks := (List.eraseIdx_sublist _ _).subset hz
      exact lt_of_lt_of_le (hsk_lt_a y hy) (ha_le_lk z hzmem)
    · rw [List.length_append, List.length_append,
        List.length_eraseIdx_of_lt hjlt, List.length_eraseIdx_of_lt (by omega)]
      omega
    · intro y hy
      rcases List.mem_append.1 hy with hy | hy
      · exact ⟨(hsbnd y hy).1, hiOk_trans_lt (hsk_lt_a y hy) hhiOk_a⟩
      · have hymem : y ∈ lks := (List.eraseIdx_sublist _ _).subset hy
        exact ⟨loOk_trans hloOk_a (ha_le_lk y hymem), (hlbnd y hymem).2⟩
  have hcs2 : (cs.set m (.leaf (sks ++ lks.eraseIdx (lowerBound lks k))
        (svs ++ lvs.eraseIdx (lowerBound lks k)) sz2)).eraseIdx (m + 1) =
      cs.take m ++ (.leaf (sks ++ lks.eraseIdx (lowerBound lks k))
        (svs ++ lvs.eraseIdx (lowerBound lks k)) sz2 : Node K V) ::
        cs.drop (m + 2) := set_eraseIdx_adjacent hi_lt
  have hEnt : entriesOf ((.leaf (sks ++ lks.eraseIdx (lowerBound lks k))
        (svs ++ lvs.eraseIdx (lowerBound lks k)) sz2 : Node K V)) =
      sks.zip svs ++
        (lks.eraseIdx (lowerBound lks k)).zip (lvs.eraseIdx (lowerBound lks k)) := by
    rw [entriesOf, List.zip_append hslen]
  constructor
  · intro n2 hn2
    subst hn2
    constructor
    · -- well-formedness of the merged internal node
      rw [hcs2]
      have hks2 : ks.eraseIdx m = ks.take m ++ ks.drop (m + 1) :=
        List.eraseIdx_eq_take_drop_succ _ _
      refine wfn_internal
        (List.Pairwise.sublist (List.eraseIdx_sublist _ _) hsort)
        (fun y hy => hbnd y ((List.eraseIdx_sublist _ _).subset hy)) ?_
      by_cases hcase : m + 1 < ks.length
      · have hb : ks[m + 1]? = some ks[m + 1] := List.getElem?_eq_getElem hcase
        obtain ⟨_, hcr1⟩ := wfc_split hc (m + 1) ks[m + 1] hb
        have hdnext : ks.drop (m + 1) = ks[m + 1] :: ks.drop (m + 2) :=
          List.drop_eq_getElem_cons hcase
        have hmw2 : WFN 0 (lastLo lo (ks.take m)) (some ks[m + 1])
            ((.leaf (sks ++ lks.eraseIdx (lowerBound lks k))
              (svs ++ lvs.eraseIdx (lowerBound lks k)) sz2 : Node K V)) := by
          have := hmergedWF
          rwa [hdnext, headHi_cons] at this
        have hcl2 := chain_replace_last hcl hmw2
        have hglue := chain_glue hcl2 hcr1
        rw [hks2, hdnext]
        simpa [List.append_assoc] using hglue
      · have hdnil : ks.drop (m + 1) = [] := List.drop_eq_nil_of_le (by omega)
        have hdnil2 : cs.drop (m + 2) = [] := List.drop_eq_nil_of_le (by omega)
        have hmw2 : WFN 0 (lastLo lo (ks.take m)) hi
            ((.leaf (sks ++ lks.eraseIdx (lowerBound lks k))
              (svs ++ lvs.eraseIdx (lowerBound lks k)) sz2 : Node K V)) := by
          have := hmergedWF
          rwa [hdnil, headHi_nil] at this
        have hcl2 := chain_replace_last hcl hmw2
        rw [hks2, hdnil, hdnil2]
        simpa using hcl2
    · -- entries of the merged internal node
      rw [entriesOf, hcs2, entriesList_append, entriesList, hEnt]
      rw [hDel, entriesOf]
      rw [← erase_at_lowerBound hlsort hllen hfound]
      rw [htake, entriesList_append, entriesList, entriesOf, entriesList]
      simp [List.append_assoc]
  · intro hks2nil
    have hlen1 : ks.length = 1 := by
      have h3 := congrArg List.length hks2nil
      rw [List.length_eraseIdx_of_lt hm_lt] at h3
      simp at h3
      omega
    have hm0 : m = 0 := by omega
    subst hm0
    have htk0 : ks.take 0 = [] := rfl
    have hdr1 : ks.drop 1 = [] := List.drop_eq_nil_of_le (by omega)
    have hdrc2 : cs.drop 2 = [] := List.drop_eq_nil_of_le (by omega)
    constructor
    · have := hmergedWF
      rwa [htk0, hdr1, lastLo_nil, headHi_nil] at this
    · rw [hEnt, hDel, entriesOf]
      rw [← erase_at_lowerBound hlsort hllen hfound]
      rw [htake, entriesList_append, entriesList, entriesOf, entriesList, hdrc2]
      simp [entriesList]

/-- Merging the erased leaf (at position `0`) into its right sibling (source
`mergeLeaf` with the right neighbour, taken when there is no left sibling):
the first separator disappears, with the same root-collapse behaviour. -/
theorem mergeRight_ok {cs : List (Node K V)} {lks rks : List K}
    {lvs rvs : List (List V)} {lsz rsz : Int} (szx sz2 : Int)
    (hc : WFC 0 lo ks cs hi) (hsort : ks.Sorted (· < ·))
    (hbnd : ∀ x ∈ ks, loOk lo x ∧ hiOk hi x)
    (hik : 0 = upperBound ks k)
    (hchild : cs[0]? = some (.leaf lks lvs lsz))
    (hfound : lks[lowerBound lks k]? = some k)
    (hsib : cs[1]? = some (.leaf rks rvs rsz)) :
    (∀ n2, n2 = Node.internal (ks.eraseIdx 0)
        ((cs.set 0 (.leaf (lks.eraseIdx (lowerBound lks k) ++ rks)
          (lvs.eraseIdx (lowerBound lks k) ++ rvs) sz2)).eraseIdx 1) szx →
      WFN 1 lo hi n2 ∧ entriesOf n2 = absDel k (entriesList cs)) ∧
    (ks.eraseIdx 0 = [] →
      WFN 0 lo hi ((.leaf (lks.eraseIdx (lowerBound lks k) ++ rks)
        (lvs.eraseIdx (lowerBound lks k) ++ rvs) sz2 : Node K V)) ∧
      entriesOf ((.leaf (lks.eraseIdx (lowerBound lks k) ++ rks)
        (lvs.eraseIdx (lowerBound lks k) ++ rvs) sz2 : Node K V)) =
        absDel k (entriesList cs)) := by
  obtain ⟨hA, hB, hdec, hDel, hFind⟩ := chain_entries_localize hc hsort hbnd hik hchild
  have hlen := chain_len hc
  have hs_lt : 1 < cs.length := by
    by_contra h2
    rw [List.getElem?_eq_none (by omega)] at hsib
    cases hsib
  have hm_lt : 0 < ks.length := by omega
  have ha : ks[0]? = some ks[0] := List.getElem?_eq_getElem hm_lt
  obtain ⟨hcl, hcr⟩ := wfc_split hc 0 ks[0] ha
  have htake : cs.take 1 = [] ++ [(.leaf lks lvs lsz : Node K V)] := by
    rw [List.take_succ, hchild]
    rfl
  have hseq : cs[1] = (.leaf rks rvs rsz : Node K V) := by
    rw [List.getElem?_eq_getElem hs_lt] at hsib
    exact Option.some.inj hsib
  have hdropR : cs.drop 1 = (.leaf rks rvs rsz : Node K V) :: cs.drop 2 := by
    rw [List.drop_eq_getElem_cons hs_lt, hseq]
  rw [htake] at hcl
  rw [hdropR] at hcr
  obtain ⟨hlsort, hllen, hlbnd⟩ := chain_last_lo hcl
  obtain ⟨hrsort, hrlen, hrbnd⟩ := chain_head hcr
  have hjlt : lowerBound lks k < lks.length := by
    by_contra h2
    rw [List.getElem?_eq_none (by omega)] at hfound
    cases hfound
  have hlk_lt_a : ∀ y ∈ lks, y < ks[0] := by
    intro y hy
    have := (hlbnd y hy).2
    rwa [hiOk_some] at this
  have ha_le_rk : ∀ y ∈ rks, ks[0] ≤ y := by
    intro y hy
    have := (hrbnd y hy).1
    rwa [loOk_some] at this
  have hhiOk_a : hiOk (headHi hi (ks.drop 1)) ks[0] := by
    cases hd : ks.drop 1 with
    | nil =>
      rw [headHi_nil]
      exact (hbnd ks[0] (List.getElem?_mem ha)).2
    | cons c t =>
      rw [headHi_cons, hiOk_some]
      have hdsort : (ks.drop 0).Sorted (· < ·) :=
        List.Pairwise.sublist (List.drop_sublist _ _) hsort
      rw [List.drop_eq_getElem_cons hm_lt, hd, List.sorted_cons] at hdsort
      exact hdsort.1 c (by simp)
  have hmergedWF : WFN 0 lo (headHi hi (ks.drop 1))
      ((.leaf (lks.eraseIdx (lowerBound lks k) ++ rks)
        (lvs.eraseIdx (lowerBound lks k) ++ rvs) sz2 : Node K V)) := by
    refine wfn_leaf ?_ ?_ ?_
    · refine List.pairwise_append.2
        ⟨List.Pairwise.sublist (List.eraseIdx_sublist _ _) hlsort, hrsort, ?_⟩
      intro y hy z hz
      have hymem : y ∈ lks := (List.eraseIdx_sublist _ _).subset hy
      exact lt_of_lt_of_le (hlk_lt_a y hymem) (ha_le_rk z hz)
    · rw [List.length_append, List.length_append,
        List.length_eraseIdx_of_lt hjlt, List.length_eraseIdx_of_lt (by omega)]
      omega
    · intro y hy
      rcases List.mem_append.1 hy with hy | hy
      · have hymem : y ∈ lks := (List.eraseIdx_sublist _ _).subset hy
        exact ⟨by simpa using (hlbnd y hymem).1,
          hiOk_trans_lt (hlk_lt_a y hymem) hhiOk_a⟩
      · exact ⟨loOk_trans (hbnd ks[0] (List.getElem?_mem ha)).1 (ha_le_rk y hy),
          (hrbnd y hy).2⟩
  have hcs2 : (cs.set 0 (.leaf (lks.eraseIdx (lowerBound lks k) ++ rks)
        (lvs.eraseIdx (lowerBound lks k) ++ rvs) sz2)).eraseIdx 1 =
      cs.take 0 ++ (.leaf (lks.eraseIdx (lowerBound lks k) ++ rks)
        (lvs.eraseIdx (lowerBound lks k) ++ rvs) sz2 : Node K V) ::
        cs.drop 2 := set_eraseIdx_adjacent hs_lt
  have hEnt : entriesOf ((.leaf (lks.eraseIdx (lowerBound lks k) ++ rks)
        (lvs.eraseIdx (lowerBound lks k) ++ rvs) sz2 : Node K V)) =
      (lks.eraseIdx (lowerBound lks k)).zip (lvs.eraseIdx (lowerBound lks k)) ++
        rks.zip rvs := by
    rw [entriesOf, List.zip_append (by
      rw [List.length_eraseIdx_of_lt hjlt, List.length_eraseIdx_of_lt (by omega)]
      omega)]
  have hchain2 := chain_replace_head hcr hmergedWF
  constructor
  · intro n2 hn2
    subst hn2
    constructor
    · have hks2 : ks.eraseIdx 0 = ks.drop 1 := by
        rw [List.eraseIdx_zero, List.drop_one]
      rw [hcs2, hks2]
      refine wfn_internal ?_ ?_ ?_
      · exact List.Pairwise.sublist (List.drop_sublist _ _) hsort
      · exact fun y hy => hbnd y (List.mem_of_mem_drop hy)
      · simpa using hchain2
    · rw [entriesOf, hcs2, entriesList_append, entriesList, hEnt]
      rw [hDel, entriesOf]
      rw [← erase_at_lowerBound hlsort hllen hfound]
      rw [hdropR, entriesList, entriesOf]
      simp [List.append_assoc]
  · intro hks2nil
    have hdr1 : ks.drop 1 = [] := by
      rw [List.drop_one, ← List.eraseIdx_zero]
      exact hks2nil
    have hdrc2 : cs.drop 2 = [] := by
      have h3 := congrArg List.length hdr1
      rw [List.length_drop] at h3
      simp at h3
      exact List.drop_eq_nil_of_le (by omega)
    constructor
    · have := hmergedWF
      rwa [hdr1, headHi_nil] at this
    · rw [hEnt, hDel, entriesOf]
      rw [← erase_at_lowerBound hlsort hllen hfound]
      rw [hdropR, entriesList, entriesOf, hdrc2]
      simp [entriesList]

/-- Full specification of `removeAtParent` on a well-formed height-1 internal
node: a `notFound` result means the key is absent from the stored entries, and
a `done` result is well-formed — at height 1, or at height 0 for a root
collapse — and carries exactly the abstract deletion. -/
theorem removeAtParent_spec {order : Nat} (ho : 3 ≤ order) (isRoot : Bool)
    (sz : Int) {lsz : Int} {cs : List (Node K V)} {i : Nat} {lks : List K}
    {lvs : List (List V)}
    (hc : WFC 0 lo ks cs hi) (hsort : ks.Sorted (· < ·))
    (hbnd : ∀ x ∈ ks, loOk lo x ∧ hiOk hi x)
    (hik : i = upperBound ks k) (hchild : cs[i]? = some (.leaf lks lvs lsz)) :
    (removeAtParent isRoot order k ks cs sz i lks lvs lsz = RemRes.notFound →
      absFind k (entriesList cs) = none) ∧
    (∀ n2 b, removeAtParent isRoot order k ks cs sz i lks lvs lsz = RemRes.done n2 b →
      (∃ h2, h2 ≤ 1 ∧ WFN h2 lo hi n2 ∧ (isRoot = false → h2 = 1)) ∧
      entriesOf n2 = absDel k (entriesList cs)) := by
  obtain ⟨lo2, hi2, hlw0⟩ := chain_elem_ex hc hchild
  obtain ⟨hlsort, hllen, hlb0⟩ := hlw0
  have hlen := chain_len hc
  have hi_lt : i < cs.length := by
    by_contra h2
    rw [List.getElem?_eq_none (by omega)] at hchild
    cases hchild
  have hi_le : i ≤ ks.length := by rw [hik]; exact upperBound_le_length
  have hshape : ∀ m2, m2 < cs.length →
      ∃ a b c, cs.getD m2 (Node.leaf [] [] 0) = Node.leaf a b c := by
    intro m2 hm2
    have hg : cs[m2]? = some cs[m2] := List.getElem?_eq_getElem hm2
    obtain ⟨lo3, hi3, hw⟩ := chain_elem_ex hc hg
    have hgd : cs.getD m2 (Node.leaf [] [] 0) = cs[m2] := by
      rw [List.getD_eq_getElem?_getD, hg]
      rfl
    cases hcm : cs[m2] with
    | leaf a b c => exact ⟨a, b, c, by rw [hgd, hcm]⟩
    | internal a b c =>
      rw [hcm] at hw
      exact hw.elim
  cases hkj : lks[lowerBound lks k]? with
  | none =>
    have hnm : k ∉ lks := not_mem_of_lowerBound_miss hlsort (by
      intro kj h2
      rw [hkj] at h2
      cases h2)
    have hfnone : absFind k (entriesList cs) = none := by
      have hFind := (chain_entries_localize hc hsort hbnd hik hchild).2.2.2.2
      rw [hFind, entriesOf]
      exact absFind_zip_eq_none hnm
    constructor
    · intro _
      exact hfnone
    · intro n2 b hres
      rw [removeAtParent] at hres
      simp only [hkj] at hres
      cases hres
  | some kj =>
    by_cases hkeq : kj = k
    · have h5 : k = kj := hkeq.symm
      subst h5
      have hfound : lks[lowerBound lks k]? = some k := hkj
      constructor
      · -- the found key can never yield `notFound`
        intro hres
        rw [removeAtParent] at hres
        simp only [hfound] at hres
        simp only [if_true] at hres
        exfalso
        split at hres
        · -- underflow
          split at hres
          · -- borrow left guard
            rename_i hbl
            split at hres
            · cases hres
            · rename_i iks ics isz hx
              obtain ⟨a, b, c, he⟩ := hshape (i - 1) (by omega)
              rw [he] at hx
              cases hx
          · split at hres
            · -- borrow right guard
              rename_i hbl hbr
              split at hres
              · cases hres
              · rename_i iks ics isz hx
                obtain ⟨a, b, c, he⟩ := hshape (i + 1) (by omega)
                rw [he] at hx
                cases hx
            · split at hres
              · -- merge left guard
                split at hres
                · split at hres <;> cases hres
                · rename_i hbl hbr hml iks ics isz hx
                  obtain ⟨a, b, c, he⟩ := hshape (i - 1) (by omega)
                  rw [he] at hx
                  cases hx
              · split at hres
                · -- merge right guard
                  split at hres
                  · split at hres <;> cases hres
                  · rename_i hbl hbr hml hmr iks ics isz hx
                    obtain ⟨a, b, c, he⟩ := hshape (i + 1) (by omega)
                    rw [he] at hx
                    cases hx
                · cases hres
        · cases hres
      · -- `done` results
        intro n2 b hres
        rw [removeAtParent] at hres
        simp only [hfound] at hres
        simp only [if_true] at hres
        split at hres
        · -- underflow: rebalancing cascade
          split at hres
          · -- borrow from the left sibling
            rename_i hbl
            split at hres
            · rename_i sks svs ssz hx
              obtain ⟨m, rfl⟩ : ∃ m, i = m + 1 := ⟨i - 1, by omega⟩
              simp only [Nat.add_sub_cancel] at hres hx hbl
              have hm_lt2 : m < cs.length := by omega
              have hgd : cs.getD m (Node.leaf [] [] 0) = cs[m] := by
                rw [List.getD_eq_getElem?_getD, List.getElem?_eq_getElem hm_lt2]
                rfl
              have hsib : cs[m]? = some (.leaf sks svs ssz) := by
                rw [List.getElem?_eq_getElem hm_lt2, ← hgd, hx]
              have hsbig : 2 ≤ sks.length := by
                have h4 := hbl.2
                rw [hx, Node.keysOf] at h4
                omega
              injection hres with h1 h2
              subst h1
              subst h2
              obtain ⟨hwf, hent⟩ := borrowLeft_ok hc hsort hbnd hik hchild
                hfound hsib hsbig _ rfl
              exact ⟨⟨1, le_refl _, hwf, fun _ => rfl⟩, hent⟩
            · rename_i iks ics isz hx
              obtain ⟨a, b, c, he⟩ := hshape (i - 1) (by omega)
              rw [he] at hx
              cases hx
          · split at hres
            · -- borrow from the right sibling
              rename_i hbl hbr
              split at hres
              · rename_i rks rvs rsz hx
                have hs_lt : i + 1 < cs.length := hbr.1
                have hgd : cs.getD (i + 1) (Node.leaf [] [] 0) = cs[i + 1] := by
                  rw [List.getD_eq_getElem?_getD, List.getElem?_eq_getElem hs_lt]
                  rfl
                have hsib : cs[i + 1]? = some (.leaf rks rvs rsz) := by
                  rw [List.getElem?_eq_getElem hs_lt, ← hgd, hx]
                have hsbig : 2 ≤ rks.length := by
                  have h4 := hbr.2
                  rw [hx, Node.keysOf] at h4
                  omega
                injection hres with h1 h2
                subst h1
                subst h2
                obtain ⟨hwf, hent⟩ := borrowRight_ok hc hsort hbnd hik hchild
                  hfound hsib hsbig _ rfl
                exact ⟨⟨1, le_refl _, hwf, fun _ => rfl⟩, hent⟩
              · rename_i iks ics isz hx
                obtain ⟨a, b, c, he⟩ := hshape (i + 1) (by omega)
                rw [he] at hx
                cases hx
            · split at hres
              · -- merge with the left sibling
                rename_i hbl hbr hml
                split at hres
                · rename_i sks svs ssz hx
                  obtain ⟨m, rfl⟩ : ∃ m, i = m + 1 := ⟨i - 1, by omega⟩
                  simp only [Nat.add_sub_cancel] at hres hx
                  have hm_lt2 : m < cs.length := by omega
                  have hgd : cs.getD m (Node.leaf [] [] 0) = cs[m] := by
                    rw [List.getD_eq_getElem?_getD, List.getElem?_eq_getElem hm_lt2]
                    rfl
                  have hsib : cs[m]? = some (.leaf sks svs ssz) := by
                    rw [List.getElem?_eq_getElem hm_lt2, ← hgd, hx]
                  obtain ⟨hmain, hcol⟩ := mergeLeft_ok 0
                      (sumLens (svs ++ lvs.eraseIdx (lowerBound lks k)))
                      hc hsort hbnd hik hchild hfound hsib
                  split at hres
                  · -- root collapse
                    rename_i hcola
                    injection hres with h1 h2
                    subst h1
                    subst h2
                    obtain ⟨hwf, hent⟩ := hcol hcola.2
                    refine ⟨⟨0, by omega, hwf, ?_⟩, hent⟩
                    intro hf
                    rw [hf] at hcola
                    cases hcola.1
                  · injection hres with h1 h2
                    subst h1
                    subst h2
                    obtain ⟨hwf, hent⟩ := (mergeLeft_ok
                        (childSum ((cs.set m (.leaf (sks ++ lks.eraseIdx (lowerBound lks k))
                          (svs ++ lvs.eraseIdx (lowerBound lks k))
                          (sumLens (svs ++ lvs.eraseIdx (lowerBound lks k))))).eraseIdx (m + 1)))
                        (sumLens (svs ++ lvs.eraseIdx (lowerBound lks k)))
                        hc hsort hbnd hik hchild hfound hsib).1 _ rfl
                    exact ⟨⟨1, le_refl _, hwf, fun _ => rfl⟩, hent⟩
                · rename_i iks ics isz hx
                  obtain ⟨a, b, c, he⟩ := hshape (i - 1) (by omega)
                  rw [he] at hx
                  cases hx
              · split at hres
                · -- merge with the right sibling (only at `i = 0`)
                  rename_i hbl hbr hml hmr
                  have hi0 : i = 0 := by omega
                  subst hi0
                  split at hres
                  · rename_i rks rvs rsz hx
                    have hs_lt : 1 < cs.length := hmr
                    have hgd : cs.getD 1 (Node.leaf [] [] 0) = cs[1] := by
                      rw [List.getD_eq_getElem?_getD, List.getElem?_eq_getElem hs_lt]
                      rfl
                    have hsib : cs[1]? = some (.leaf rks rvs rsz) := by
                      rw [List.getElem?_eq_getElem hs_lt, ← hgd, hx]
                    obtain ⟨hmain, hcol⟩ := mergeRight_ok 0
                        (sumLens (lvs.eraseIdx (lowerBound lks k) ++ rvs))
                        hc hsort hbnd hik hchild hfound hsib
                    split at hres
                    · rename_i hcola
                      injection hres with h1 h2
                      subst h1
                      subst h2
                      obtain ⟨hwf, hent⟩ := hcol hcola.2
                      refine ⟨⟨0, by omega, hwf, ?_⟩, hent⟩
                      intro hf
                      rw [hf] at hcola
                      cases hcola.1
                    · injection hres with h1 h2
                      subst h1
                      subst h2
                      obtain ⟨hwf, hent⟩ := (mergeRight_ok
                          (childSum ((cs.set 0 (.leaf (lks.eraseIdx (lowerBound lks k) ++ rks)
                            (lvs.eraseIdx (lowerBound lks k) ++ rvs)
                            (sumLens (lvs.eraseIdx (lowerBound lks k) ++ rvs)))).eraseIdx 1))
                          (sumLens (lvs.eraseIdx (lowerBound lks k) ++ rvs))
                          hc hsort hbnd hik hchild hfound hsib).1 _ rfl
                      exact ⟨⟨1, le_refl _, hwf, fun _ => rfl⟩, hent⟩
                  · rename_i iks ics isz hx
                    obtain ⟨a, b, c, he⟩ := hshape (0 + 1) hmr
                    rw [he] at hx
                    cases hx
                · -- no sibling available: bare in-place erase, stale sizes
                  injection hres with h1 h2
                  subst h1
                  subst h2
                  obtain ⟨hwf, hent⟩ :=
                    leafSet_ok lsz sz hc hsort hbnd hik hchild hfound
                  exact ⟨⟨1, le_refl _, hwf, fun _ => rfl⟩, hent⟩
        · -- no underflow: plain erase with recomputed sizes
          injection hres with h1 h2
          subst h1
          subst h2
          obtain ⟨hwf, hent⟩ := leafSet_ok
            (sumLens (lvs.eraseIdx (lowerBound lks k)))
            (childSum (cs.set i (.leaf (lks.eraseIdx (lowerBound lks k))
              (lvs.eraseIdx (lowerBound lks k))
              (sumLens (lvs.eraseIdx (lowerBound lks k))))))
            hc hsort hbnd hik hchild hfound
          exact ⟨⟨1, le_refl _, hwf, fun _ => rfl⟩, hent⟩
    · -- key mismatch at the lower-bound slot: not present
      have hnm : k ∉ lks := not_mem_of_lowerBound_miss hlsort (by
        intro kj2 h2
        rw [hkj] at h2
        injection h2 with h3
        rw [← h3]
        exact hkeq)
      have hfnone : absFind k (entriesList cs) = none := by
        have hFind := (chain_entries_localize hc hsort hbnd hik hchild).2.2.2.2
        rw [hFind, entriesOf]
        exact absFind_zip_eq_none hnm
      constructor
      · intro _
        exact hfnone
      · intro n2 b hres
        rw [removeAtParent] at hres
        simp only [hkj, if_neg hkeq] at hres
        cases hres

theorem removeRec_spec {order : Nat} (ho : 3 ≤ order) :
    ∀ (h : Nat) (isRoot : Bool) {lo hi : Option K} {ks : List K}
      {cs : List (Node K V)} {sz : Int},
      WFN (h + 1) lo hi (.internal ks cs sz) →
      RemSpec isRoot order k (h + 1) lo hi (.internal ks cs sz) := by
  intro h
  induction h with
  | zero =>
    intro isRoot lo hi ks cs sz hw
    obtain ⟨hsort, hbnd, hchain⟩ := hw
    have hlen := chain_len hchain
    have hi_le : upperBound ks k ≤ ks.length := upperBound_le_length
    have hi_lt : upperBound ks k < cs.length := by omega
    have hg : cs[upperBound ks k]? = some cs[upperBound ks k] :=
      List.getElem?_eq_getElem hi_lt
    obtain ⟨lo3, hi3, hcw⟩ := chain_elem_ex hchain hg
    cases hcc : cs[upperBound ks k] with
    | internal a b c =>
      rw [hcc] at hcw
      exact hcw.elim
    | leaf lks lvs lsz =>
      rw [hcc] at hg
      have hspec := removeAtParent_spec ho isRoot sz
        hchain hsort hbnd rfl hg
      constructor
      · intro hres
        rw [removeRec] at hres
        simp only [hg] at hres
        rw [entriesOf]
        exact hspec.1 hres
      · intro n2 b hres
        rw [removeRec] at hres
        simp only [hg] at hres
        rw [entriesOf]
        exact hspec.2 n2 b hres
  | succ m ih =>
    intro isRoot lo hi ks cs sz hw
    obtain ⟨hsort, hbnd, hchain⟩ := hw
    have hlen := chain_len hchain
    have hi_le : upperBound ks k ≤ ks.length := upperBound_le_length
    have hi_lt : upperBound ks k < cs.length := by omega
    have hg : cs[upperBound ks k]? = some cs[upperBound ks k] :=
      List.getElem?_eq_getElem hi_lt
    obtain ⟨lo3, hi3, hcw⟩ := chain_elem_ex hchain hg
    cases hcc : cs[upperBound ks k] with
    | leaf a b c =>
      rw [hcc] at hcw
      exact hcw.elim
    | internal iks ics isz =>
      rw [hcc] at hg hcw
      obtain ⟨hA, hB, hdec, hDel, hFind⟩ :=
        chain_entries_localize hchain hsort hbnd rfl hg
      have hrceq := removeChild_eq order (k := k) hg
      constructor
      · intro hres
        rw [removeRec] at hres
        simp only [hg] at hres
        rw [hrceq] at hres
        cases hrr : removeRec false order k (.internal iks ics isz) with
        | notFound =>
          rw [entriesOf, hFind]
          exact (ih false hcw).1 hrr
        | done c2 b2 =>
          simp only [hrr] at hres
          cases b2 <;> cases hres
      · intro n2 b hres
        rw [removeRec] at hres
        simp only [hg] at hres
        rw [hrceq] at hres
        cases hrr : removeRec false order k (.internal iks ics isz) with
        | notFound =>
          simp only [hrr] at hres
          cases hres
        | done c2 b2 =>
          simp only [hrr] at hres
          obtain ⟨⟨h2, hh2le, hwf2, hh2eq⟩, hent2⟩ := (ih false hcw).2 c2 b2 hrr
          have htr : ∀ lo4 hi4, WFN (m + 1) lo4 hi4 (.internal iks ics isz) →
              WFN (m + 1) lo4 hi4 c2 := by
            intro lo4 hi4 hw4
            obtain ⟨⟨h3, _, hwf3, hh3⟩, _⟩ := (ih false hw4).2 c2 b2 hrr
            rw [hh3 rfl] at hwf3
            exact hwf3
          have hchain2 := chain_set_elem hchain hg htr
          have hset : cs.set (upperBound ks k) c2 =
              cs.take (upperBound ks k) ++ c2 :: cs.drop (upperBound ks k + 1) := by
            rw [List.set_eq_take_append_cons_drop, if_pos hi_lt]
          have hent3 : entriesList (cs.set (upperBound ks k) c2) =
              absDel k (entriesList cs) := by
            rw [hset, entriesList_append, entriesList, hent2, hDel, entriesOf,
              List.append_assoc]
          cases b2 with
          | true =>
            injection hres with h1 h2x
            subst h1
            subst h2x
            refine ⟨⟨m + 2, le_refl _, wfn_internal hsort hbnd hchain2, fun _ => rfl⟩, ?_⟩
            rw [entriesOf, entriesOf, hent3]
          | false =>
            injection hres with h1 h2x
            subst h1
            subst h2x
            refine ⟨⟨m + 2, le_refl _, wfn_internal hsort hbnd hchain2, fun _ => rfl⟩, ?_⟩
            rw [entriesOf, entriesOf, hent3]

end RemoveSpec

section TreeSpec

variable [LinearOrder K] {k : K} {v : V}

theorem insert_step {t t2 : BPT K V} (htwf : TWF t)
    (hins : t.insert k v = some t2) :
    TWF t2 ∧ t2.entries = absIns k v t.entries := by
  obtain ⟨ho, hroot⟩ := htwf
  cases hroot0 : t.root with
  | none =>
    rw [BPT.insert, hroot0] at hins
    cases hins
  | some r =>
    obtain ⟨h, hwf⟩ := hroot r hroot0
    have hspec := insertRec_spec (k := k) (v := v) ho h hwf loOk_none hiOk_none
    rw [BPT.insert, hroot0] at hins
    cases hres : insertRec t.order k v r with
    | one n =>
      simp only [hres] at hins
      injection hins with h1
      subst h1
      obtain ⟨hwf2, hent2⟩ := hspec.1 n hres
      refine ⟨⟨ho, ?_⟩, ?_⟩
      · intro r2 hr2
        injection hr2 with h2
        subst h2
        exact ⟨h, hwf2⟩
      · simp only [BPT.entries, hroot0]
        exact hent2
    | split l s r2 =>
      simp only [hres] at hins
      injection hins with h1
      subst h1
      obtain ⟨hwfl, hwfr, hlos, hhis, hent2⟩ := hspec.2 l s r2 hres
      refine ⟨⟨ho, ?_⟩, ?_⟩
      · intro r3 hr3
        injection hr3 with h2
        subst h2
        refine ⟨h + 1, wfn_internal (by simp) (by simp) ?_⟩
        exact Chain.cons hwfl (Chain.single hwfr)
      · simp only [BPT.entries, hroot0]
        rw [entriesOf, entriesList, entriesList, entriesList,
          List.append_nil, ← hent2]

theorem remove_step {t : BPT K V} (htwf : TWF t) :
    TWF (t.remove k) ∧ (t.remove k).entries = absDel k t.entries := by
  obtain ⟨ho, hroot⟩ := htwf
  cases hroot0 : t.root with
  | none =>
    have hrm : t.remove k = t := by rw [BPT.remove, hroot0]
    rw [hrm]
    refine ⟨⟨ho, hroot⟩, ?_⟩
    simp only [BPT.entries, hroot0]
    rfl
  | some r =>
    obtain ⟨h, hwf⟩ := hroot r hroot0
    cases r with
    | leaf ks vs sz =>
      cases h with
      | succ h2 => exact hwf.elim
      | zero =>
        obtain ⟨hsort, hlen2, _⟩ := hwf
        cases hkj : ks[lowerBound ks k]? with
        | none =>
          have hnm : k ∉ ks := not_mem_of_lowerBound_miss hsort (by
            intro kj h2
            rw [hkj] at h2
            cases h2)
          have hrm : t.remove k = t := by
            rw [BPT.remove, hroot0]
            simp only [hkj]
          rw [hrm]
          refine ⟨⟨ho, hroot⟩, ?_⟩
          simp only [BPT.entries, hroot0]
          rw [entriesOf, absDel_of_find_none (absFind_zip_eq_none hnm)]
        | some kj =>
          by_cases hkeq : kj = k
          · have h5 : k = kj := hkeq.symm
            subst h5
            have hjlt : lowerBound ks k < ks.length := by
              by_contra h2
              rw [List.getElem?_eq_none (by omega)] at hkj
              cases hkj
            have habs := erase_at_lowerBound (k := k) hsort hlen2 hkj
            by_cases hnil : ks.eraseIdx (lowerBound ks k) = []
            · have hrm : t.remove k = { t with root := none } := by
                rw [BPT.remove, hroot0]
                simp only [hkj]
                rw [if_pos trivial, if_pos hnil]
              rw [hrm]
              refine ⟨⟨ho, by intro r2 hr2; cases hr2⟩, ?_⟩
              simp only [BPT.entries, hroot0]
              rw [entriesOf, ← habs, hnil]
              simp
            · have hrm : t.remove k = { t with root := some (.leaf
                  (ks.eraseIdx (lowerBound ks k)) (vs.eraseIdx (lowerBound ks k))
                  (sumLens (vs.eraseIdx (lowerBound ks k)))) } := by
                rw [BPT.remove, hroot0]
                simp only [hkj]
                rw [if_pos trivial, if_neg hnil]
              rw [hrm]
              constructor
              · refine ⟨ho, ?_⟩
                intro r2 hr2
                injection hr2 with h2
                subst h2
                refine ⟨0, wfn_leaf
                  (List.Pairwise.sublist (List.eraseIdx_sublist _ _) hsort) ?_ ?_⟩
                · rw [List.length_eraseIdx_of_lt hjlt,
                    List.length_eraseIdx_of_lt (by omega)]
                  omega
                · intro y _
                  exact ⟨loOk_none, hiOk_none⟩
              · simp only [BPT.entries, hroot0]
                rw [entriesOf, entriesOf, ← habs]
          · have hnm : k ∉ ks := not_mem_of_lowerBound_miss hsort (by
              intro kj2 h2
              rw [hkj] at h2
              injection h2 with h3
              rw [← h3]
              exact hkeq)
            have hrm : t.remove k = t := by
              rw [BPT.remove, hroot0]
              simp only [hkj]
              rw [if_neg hkeq]
            rw [hrm]
            refine ⟨⟨ho, hroot⟩, ?_⟩
            simp only [BPT.entries, hroot0]
            rw [entriesOf, absDel_of_find_none (absFind_zip_eq_none hnm)]
    | internal ks cs sz =>
      cases h with
      | zero => exact hwf.elim
      | succ h2 =>
        have hspec := removeRec_spec (k := k) ho h2 true hwf
        cases hrr : removeRec true t.order k (.internal ks cs sz) with
        | notFound =>
          have hrm : t.remove k = t := by
            rw [BPT.remove, hroot0]
            simp only [hrr]
          rw [hrm]
          refine ⟨⟨ho, hroot⟩, ?_⟩
          simp only [BPT.entries, hroot0]
          rw [absDel_of_find_none (hspec.1 hrr)]
        | done n b =>
          have hrm : t.remove k = { t with root := some n } := by
            rw [BPT.remove, hroot0]
            simp only [hrr]
          rw [hrm]
          obtain ⟨⟨h3, _, hwf3, _⟩, hent3⟩ := hspec.2 n b hrr
          refine ⟨⟨ho, ?_⟩, ?_⟩
          · intro r2 hr2
            injection hr2 with h4
            subst h4
            exact ⟨h3, hwf3⟩
          · simp only [BPT.entries, hroot0]
            exact hent3

theorem foldl_opStep_sim :
    ∀ (ops : List (Op K V)) (s : Option (BPT K V)) (m : List (K × List V)),
      (∀ t0, s = some t0 → TWF t0 ∧ t0.entries = m) →
      ∀ t2, ops.foldl opStep s = some t2 →
        TWF t2 ∧ t2.entries = ops.foldl absStep m := by
  intro ops
  induction ops with
  | nil =>
    intro s m hs t2 h2
    rw [List.foldl_nil] at h2
    rw [List.foldl_nil]
    exact hs t2 h2
  | cons op t ih =>
    intro s m hs t2 h2
    rw [List.foldl_cons] at h2
    rw [List.foldl_cons]
    refine ih (opStep s op) (absStep m op) ?_ t2 h2
    intro t0 ht0
    cases s with
    | none =>
      simp only [opStep] at ht0
      cases ht0
    | some t1 =>
      obtain ⟨htwf1, hent1⟩ := hs t1 rfl
      cases op with
      | ins k2 v2 =>
        simp only [opStep] at ht0
        obtain ⟨hw, he⟩ := insert_step htwf1 ht0
        refine ⟨hw, ?_⟩
        rw [he, hent1]
        rfl
      | del k2 =>
        simp only [opStep] at ht0
        injection ht0 with h3
        subst h3
        obtain ⟨hw, he⟩ := remove_step (k := k2) htwf1
        refine ⟨hw, ?_⟩
        rw [he, hent1]
        rfl

/-- Any tree produced by `runOps` is well-formed and stores exactly the
abstract association list of the run. -/
theorem runOps_invariant {order : Nat} {ops : List (Op K V)} {t : BPT K V}
    (h : runOps order ops = some t) : TWF t ∧ t.entries = absRun ops := by
  rw [runOps] at h
  have hres := foldl_opStep_sim ops (BPT.new K V order) [] ?_ t h
  · rw [absRun]
    exact hres
  · intro t0 ht0
    rw [BPT.new] at ht0
    split at ht0
    · cases ht0
    · rename_i hord
      injection ht0 with h2
      subst h2
      refine ⟨⟨show 3 ≤ order by omega, ?_⟩, ?_⟩
      · intro r2 hr2
        injection hr2 with h3
        subst h3
        exact ⟨0, by simp, rfl, by simp⟩
      · rfl

end TreeSpec

/-! ### Correctness of searchAll, and lookups over abstract runs -/

section SearchSpec

variable [LinearOrder K] {k : K} {v : V}

theorem searchAllChild_eq {cs : List (Node K V)} :
    ∀ {i : Nat} {c : Node K V}, cs[i]? = some c →
      searchAllChild k i cs = searchAllNode k c := by
  induction cs with
  | nil =>
    intro i c h2
    simp at h2
  | cons d t ih =>
    intro i c h2
    cases i with
    | zero =>
      simp only [List.getElem?_cons_zero, Option.some.injEq] at h2
      subst h2
      rw [searchAllChild]
    | succ m =>
      simp only [List.getElem?_cons_succ] at h2
      rw [searchAllChild]
      exact ih h2

/-- On a well-formed node, the `upper_bound` descent of `searchAll` computes
exactly the abstract lookup in the stored entries. -/
theorem searchAllNode_spec :
    ∀ (h : Nat) {lo hi : Option K} {n : Node K V}, WFN h lo hi n →
      searchAllNode k n = absFind k (entriesOf n) := by
  intro h
  induction h with
  | zero =>
    intro lo hi n hw
    cases n with
    | internal ks cs sz => exact hw.elim
    | leaf ks vs sz =>
      obtain ⟨hsort, hlen, _⟩ := hw
      rw [searchAllNode, entriesOf]
      exact leafFind_eq_absFind hsort hlen
  | succ m ih =>
    intro lo hi n hw
    cases n with
    | leaf ks vs sz => exact hw.elim
    | internal ks cs sz =>
      obtain ⟨hsort, hbnd, hchain⟩ := hw
      have hlen := chain_len hchain
      have hi_le : upperBound ks k ≤ ks.length := upperBound_le_length
      have hi_lt : upperBound ks k < cs.length := by omega
      have hg : cs[upperBound ks k]? = some cs[upperBound ks k] :=
        List.getElem?_eq_getElem hi_lt
      obtain ⟨hA, hB, hdec, hDel, hFind⟩ :=
        chain_entries_localize hchain hsort hbnd rfl hg
      obtain ⟨lo3, hi3, hcw⟩ := chain_elem_ex hchain hg
      rw [searchAllNode, searchAllChild_eq hg, entriesOf, hFind]
      exact ih hcw

theorem searchAll_entries {t : BPT K V} (htwf : TWF t) :
    t.searchAll k = absFind k t.entries := by
  obtain ⟨_, hroot⟩ := htwf
  cases hroot0 : t.root with
  | none =>
    simp only [BPT.searchAll, BPT.entries, hroot0]
    rfl
  | some r =>
    obtain ⟨h, hwf⟩ := hroot r hroot0
    simp only [BPT.searchAll, BPT.entries, hroot0]
    exact searchAllNode_spec h hwf

theorem absStep_sorted {m : List (K × List V)} {op : Op K V}
    (hs : (m.map Prod.fst).Sorted (· < ·)) :
    ((absStep m op).map Prod.fst).Sorted (· < ·) := by
  cases op with
  | ins k2 v2 => exact absIns_sorted hs
  | del k2 =>
    refine List.Pairwise.sublist ?_ hs
    exact List.Sublist.map _ (List.filter_sublist _)

/-- Lookup after an abstract run with no deletion of `k`: the id-list is the
concatenation of the previous one (if any) with the values inserted under `k`
along the run, in order. -/
theorem absRun_find :
    ∀ (ops : List (Op K V)) (m : List (K × List V)),
      (m.map Prod.fst).Sorted (· < ·) → (Op.del k) ∉ ops →
      absFind k (ops.foldl absStep m) =
        match absFind k m, insertedUnder k ops with
        | none, [] => none
        | none, w :: ws => some (w :: ws)
        | some vs, ws => some (vs ++ ws) := by
  intro ops
  induction ops with
  | nil =>
    intro m hs hnd
    rw [List.foldl_nil]
    have hiu : insertedUnder k ([] : List (Op K V)) = [] := rfl
    rw [hiu]
    cases hf : absFind k m with
    | none => rfl
    | some vs => simp
  | cons op t ih =>
    intro m hs hnd
    have hnd2 : Op.del k ∉ t := fun hm => hnd (List.mem_cons_of_mem _ hm)
    rw [List.foldl_cons]
    cases op with
    | ins k2 v2 =>
      rw [ih (absStep m (Op.ins k2 v2)) (absStep_sorted hs) hnd2]
      by_cases hk2 : k2 = k
      · have h5 : k = k2 := hk2.symm
        subst h5
        have hstep : absFind k (absStep m (Op.ins k v2)) =
            some ((absFind k m).getD [] ++ [v2]) := absFind_absIns_self hs
        rw [hstep]
        have hiu : insertedUnder k (Op.ins k v2 :: t) =
            v2 :: insertedUnder k t := by
          simp [insertedUnder]
        rw [hiu]
        cases hf : absFind k m with
        | none => cases hit : insertedUnder k t <;> simp
        | some vs => cases hit : insertedUnder k t <;> simp
      · have hstep : absFind k (absStep m (Op.ins k2 v2)) = absFind k m :=
          absFind_absIns_ne (fun h2 => hk2 h2.symm)
        rw [hstep]
        have hiu : insertedUnder k (Op.ins k2 v2 :: t) = insertedUnder k t := by
          simp [insertedUnder, hk2]
        rw [hiu]
    | del k2 =>
      have hk2 : k2 ≠ k := by
        intro h2
        subst h2
        exact hnd (List.mem_cons_self _ _)
      rw [ih (absStep m (Op.del k2)) (absStep_sorted hs) hnd2]
      have hstep : absFind k (absStep m (Op.del k2)) = absFind k m :=
        absFind_absDel_ne (fun h2 => hk2 h2.symm)
      rw [hstep]
      have hiu : insertedUnder k (Op.del k2 :: t) = insertedUnder k t := by
        simp [insertedUnder]
      rw [hiu]

end SearchSpec

/-! ### Correctness of rangeQuery -/

section RangeSpec

variable [LinearOrder K] {a b : K}

theorem leavesList_append {A B : List (Node K V)} :
    leavesList (A ++ B) = leavesList A ++ leavesList B := by
  induction A with
  | nil => rfl
  | cons c t ih =>
    rw [List.cons_append, leavesList, leavesList, ih, List.append_assoc]

theorem drop_append_length {α : Type} {A Y : List α} {j : Nat} :
    (A ++ Y).drop (A.length + j) = Y.drop j := by
  rw [List.drop_add, List.drop_left]

theorem findLeafChild_eq {cs : List (Node K V)} :
    ∀ {i : Nat} {c : Node K V}, cs[i]? = some c →
      findLeafChild a i cs = (leavesList (cs.take i)).length + findLeafIdx a c := by
  induction cs with
  | nil =>
    intro i c h2
    simp at h2
  | cons d t ih =>
    intro i c h2
    cases i with
    | zero =>
      simp only [List.getElem?_cons_zero, Option.some.injEq] at h2
      subst h2
      rw [findLeafChild, List.take_zero]
      simp [leavesList]
    | succ m =>
      simp only [List.getElem?_cons_succ] at h2
      rw [findLeafChild, ih h2, List.take_succ_cons, leavesList,
        List.length_append]
      omega

/-- The `upper_bound` descent of `rangeQuery` on `a` skips, in the leaf chain,
exactly a prefix of the stored entries all of whose keys are `< a`. -/
theorem findLeaf_split :
    ∀ (h : Nat) {lo hi : Option K} {n : Node K V}, WFN h lo hi n →
      findLeafIdx a n ≤ (leavesOf n).length ∧
      ∃ E1, entriesOf n = E1 ++
          ((leavesOf n).drop (findLeafIdx a n)).flatMap (fun lf => lf.1.zip lf.2) ∧
        ∀ p ∈ E1, p.1 < a := by
  intro h
  induction h with
  | zero =>
    intro lo hi n hw
    cases n with
    | internal ks cs sz => exact hw.elim
    | leaf ks vs sz =>
      refine ⟨by rw [findLeafIdx]; omega, [], ?_, by simp⟩
      rw [findLeafIdx, entriesOf, leavesOf, List.drop_zero, List.nil_append]
      simp
  | succ m ih =>
    intro lo hi n hw
    cases n with
    | leaf ks vs sz => exact hw.elim
    | internal ks cs sz =>
      obtain ⟨hsort, hbnd, hchain⟩ := hw
      have hlen := chain_len hchain
      have hi_le : upperBound ks a ≤ ks.length := upperBound_le_length
      have hi_lt : upperBound ks a < cs.length := by omega
      have hg : cs[upperBound ks a]? = some cs[upperBound ks a] :=
        List.getElem?_eq_getElem hi_lt
      obtain ⟨hA, hB, hdec, hDel, hFind⟩ :=
        chain_entries_localize hchain hsort hbnd rfl hg
      obtain ⟨lo3, hi3, hcw⟩ := chain_elem_ex hchain hg
      obtain ⟨hle, E1c, hEc, hEc_lt⟩ := ih hcw
      have hLdec : leavesList cs =
          leavesList (cs.take (upperBound ks a)) ++
            (leavesOf cs[upperBound ks a] ++
              leavesList (cs.drop (upperBound ks a + 1))) := by
        conv_lhs => rw [hdec]
        rw [leavesList_append, leavesList]
      constructor
      · rw [findLeafIdx, findLeafChild_eq hg, leavesOf, hLdec,
          List.length_append, List.length_append]
        omega
      · refine ⟨entriesList (cs.take (upperBound ks a)) ++ E1c, ?_, ?_⟩
        · rw [entriesOf, leavesOf, findLeafIdx, findLeafChild_eq hg, hLdec]
          rw [drop_append_length, List.drop_append_of_le_length hle]
          rw [List.flatMap_append, ← entriesList_eq_flat]
          conv_lhs => rw [hdec]
          rw [entriesList_append, entriesList, hEc]
          simp [List.append_assoc]
        · intro p hp
          rcases List.mem_append.1 hp with hp | hp
          · exact hA p hp
          · exact hEc_lt p hp

/-- On a key-sorted entry list, the early-terminating leaf-chain walk computes
the filter of the whole list to `[a, b]`, flattening the id-lists in order. -/
theorem scanPairs_spec {E : List (K × List V)}
    (hs : (E.map Prod.fst).Sorted (· < ·)) :
    scanPairs a b E =
      (E.filter fun p => decide (a ≤ p.1 ∧ p.1 ≤ b)).flatMap Prod.snd := by
  induction E with
  | nil => rfl
  | cons p t ih =>
    obtain ⟨key, vals⟩ := p
    rw [List.map_cons, List.sorted_cons] at hs
    rw [scanPairs]
    by_cases h1 : b < key
    · rw [if_pos h1]
      rw [List.filter_cons_of_neg (by
        simp only [decide_eq_true_eq, not_and]
        intro _ h2
        exact absurd h1 (not_lt.2 h2))]
      have htail : t.filter (fun p => decide (a ≤ p.1 ∧ p.1 ≤ b)) = [] := by
        rw [List.filter_eq_nil_iff]
        intro q hq
        simp only [decide_eq_true_eq, not_and]
        intro _ h3
        have h4 : key < q.1 := hs.1 q.1 (List.mem_map.2 ⟨q, hq, rfl⟩)
        exact absurd (lt_trans h1 h4) (not_lt.2 h3)
      rw [htail]
      rfl
    · rw [if_neg h1]
      by_cases h2 : a ≤ key ∧ key ≤ b
      · rw [if_pos h2, List.filter_cons_of_pos (by simp [h2.1, h2.2]),
          List.flatMap_cons, ih hs.2]
      · rw [if_neg h2, List.filter_cons_of_neg (by simpa using h2), ih hs.2]

/-- `rangeQuery` on a well-formed tree returns the flattened id-lists of the
stored entries with keys in `[a, b]`, in stored (ascending-key) order. -/
theorem rangeQuery_entries {t : BPT K V} (htwf : TWF t) :
    t.rangeQuery a b =
      (t.entries.filter fun p => decide (a ≤ p.1 ∧ p.1 ≤ b)).flatMap Prod.snd := by
  obtain ⟨_, hroot⟩ := htwf
  cases hroot0 : t.root with
  | none =>
    simp only [BPT.rangeQuery, BPT.entries, hroot0]
    rfl
  | some r =>
    obtain ⟨h, hwf⟩ := hroot r hroot0
    simp only [BPT.rangeQuery, BPT.entries, hroot0]
    obtain ⟨hle, E1, hE, hE1lt⟩ := findLeaf_split (a := a) h hwf
    have hsorted := (entries_node_facts h hwf).1
    rw [hE, List.map_append] at hsorted
    have hpw := List.pairwise_append.1 hsorted
    rw [scanPairs_spec hpw.2.1, hE, List.filter_append]
    have hE1nil : E1.filter (fun p => decide (a ≤ p.1 ∧ p.1 ≤ b)) = [] := by
      rw [List.filter_eq_nil_iff]
      intro q hq
      simp only [decide_eq_true_eq, not_and]
      intro h3 _
      exact absurd (lt_of_le_of_lt h3 (hE1lt q hq)) (lt_irrefl _)
    rw [hE1nil, List.nil_append]

/-- The stored key list of a well-formed tree is strictly sorted. -/
theorem entries_sorted {t : BPT K V} (htwf : TWF t) :
    (t.entries.map Prod.fst).Sorted (· < ·) := by
  obtain ⟨_, hroot⟩ := htwf
  cases hroot0 : t.root with
  | none =>
    simp only [BPT.entries, hroot0]
    simp
  | some r =>
    obtain ⟨h, hwf⟩ := hroot r hroot0
    simp only [BPT.entries, hroot0]
    exact (entries_node_facts h hwf).1

end RangeSpec

/-! ### Claims about the tree -/

section TreeClaims

/-- **C5.** Round-trip over the multimap interface: for every reachable state
and key `k`, if the operation sequence never removed `k`, `searchAll k`
returns exactly the values inserted under `k`, in insertion order (`none`
when there were none); and immediately after a `remove k`, `searchAll k`
returns `none` — regardless of intervening splits, borrows, or merges. -/
theorem C5_searchAll_roundtrip {K V : Type} [LinearOrder K] {order : Nat}
    (ops : List (Op K V)) (k : K) (t : BPT K V)
    (hrun : runOps order ops = some t) :
    (Op.del k ∉ ops →
      t.searchAll k =
        match insertedUnder k ops with
        | [] => none
        | w :: ws => some (w :: ws)) ∧
    (t.remove k).searchAll k = none := by
  obtain ⟨htwf, hent⟩ := runOps_invariant hrun
  constructor
  · intro hnd
    rw [searchAll_entries htwf, hent]
    have habs : absRun ops = ops.foldl absStep [] := rfl
    rw [habs, absRun_find ops [] (by simp) hnd]
    cases insertedUnder k ops <;> rfl
  · obtain ⟨htwf2, hent2⟩ := remove_step (k := k) htwf
    rw [searchAll_entries htwf2, hent2]
    exact absFind_absDel_self

theorem C5_searchAll_roundtrip_witness :
    ((runOps 3 [Op.ins (1 : Int) (10 : Nat), Op.ins 2 30, Op.ins 1 20]).getD
        ⟨none, 0⟩).searchAll 1 = some [10, 20] ∧
    (((runOps 3 [Op.ins (1 : Int) (10 : Nat), Op.ins 2 30, Op.ins 1 20]).getD
        ⟨none, 0⟩).remove 1).searchAll 1 = none := by
  have h := C5_searchAll_roundtrip
    [Op.ins (1 : Int) (10 : Nat), Op.ins 2 30, Op.ins 1 20] 1
    ((runOps 3 [Op.ins (1 : Int) (10 : Nat), Op.ins 2 30, Op.ins 1 20]).getD
      ⟨none, 0⟩)
    (show runOps 3 [Op.ins (1 : Int) (10 : Nat), Op.ins 2 30, Op.ins 1 20] =
      some ((runOps 3 [Op.ins (1 : Int) (10 : Nat), Op.ins 2 30,
        Op.ins 1 20]).getD ⟨none, 0⟩) from rfl)
  exact ⟨(h.1 (by simp)).trans rfl, h.2⟩

/-- **C3.** On every reachable state and every `a ≤ b`, `rangeQuery a b`
returns exactly the ids whose keys lie in `[a, b]` — the flattening of the
id-lists of the stored entries passing the filter, in stored order — and the
stored keys are strictly ascending, so the output is in ascending key order
with each key's ids in insertion order. -/
theorem C3_rangeQuery_filter {K V : Type} [LinearOrder K] (t : BPT K V)
    (hre : Reachable t) (a b : K) (hab : a ≤ b) :
    t.rangeQuery a b =
      (t.entries.filter fun p => decide (a ≤ p.1 ∧ p.1 ≤ b)).flatMap Prod.snd ∧
    (t.entries.map Prod.fst).Sorted (· < ·) := by
  obtain ⟨ops, hrun⟩ := hre
  have htwf := (runOps_invariant hrun).1
  exact ⟨rangeQuery_entries htwf, entries_sorted htwf⟩

theorem C3_rangeQuery_filter_witness :
    (⟨some (.internal [3] [.leaf [1, 2] [[10], [20]] 2, .leaf [3] [[30]] 1] 3),
        3⟩ : BPT Int Nat).rangeQuery 1 2 = [10, 20] ∧
    (((⟨some (.internal [3] [.leaf [1, 2] [[10], [20]] 2,
        .leaf [3] [[30]] 1] 3), 3⟩ : BPT Int Nat).entries.map
          Prod.fst).Sorted (· < ·)) := by
  have hx : runOps 3 [Op.ins (1 : Int) (10 : Nat), Op.ins 2 20, Op.ins 3 30] =
      some (⟨some (.internal [3] [.leaf [1, 2] [[10], [20]] 2,
        .leaf [3] [[30]] 1] 3), 3⟩ : BPT Int Nat) := rfl
  have h := C3_rangeQuery_filter
    (⟨some (.internal [3] [.leaf [1, 2] [[10], [20]] 2, .leaf [3] [[30]] 1] 3),
        3⟩ : BPT Int Nat)
    ⟨[Op.ins (1 : Int) (10 : Nat), Op.ins 2 20, Op.ins 3 30], hx⟩ 1 2
    (by decide)
  exact ⟨h.1.trans rfl, h.2⟩

/-- **C2.** Refuted: `subtree_size` is *not* always the exact number of
stored (key, id) pairs below a node.  After inserting keys 1..5 (order 3) and
removing key 5, a leaf borrow leaves the lending sibling's stored size stale,
and the root's stored `subtree_size` is 5 although only 4 pairs remain. -/
theorem C2_subtree_size_stale :
    ∃ (t : BPT Int Int) (r : Node Int Int), Reachable t ∧ t.root = some r ∧
      subtreeSizeOf r ≠ sumLens ((entriesOf r).map Prod.snd) := by
  refine ⟨(runOps 3 [Op.ins (1 : Int) (0 : Int), Op.ins 2 1, Op.ins 3 2,
      Op.ins 4 3, Op.ins 5 4, Op.del 5]).getD ⟨none, 0⟩,
    ((runOps 3 [Op.ins (1 : Int) (0 : Int), Op.ins 2 1, Op.ins 3 2,
      Op.ins 4 3, Op.ins 5 4, Op.del 5]).getD ⟨none, 0⟩).root.getD
        (.leaf [] [] 0),
    ⟨[Op.ins (1 : Int) (0 : Int), Op.ins 2 1, Op.ins 3 2,
      Op.ins 4 3, Op.ins 5 4, Op.del 5], rfl⟩, rfl, by decide⟩

/-- **C9.** Corrected: after the last key is removed the root is null, and on
that state every read degrades gracefully — `search` yields the default
value, `searchAll` `none`, `rangeQuery` `[]`, and both counts `0` — but a
subsequent `insert` does *not* succeed: the source dereferences the null root
(modelled as `none`), rather than re-establishing a root as claimed. -/
theorem C9_null_root_behavior {K V : Type} [LinearOrder K] [Sub K] [One K]
    [Inhabited V] (t : BPT K V) (k a b x lowest : K) (v : V)
    (hre : Reachable t) (hroot : t.root = none) :
    t.search k = default ∧ t.searchAll k = none ∧ t.rangeQuery a b = [] ∧
    t.countLessOrEqual x = 0 ∧ BPT.countInRange lowest t a b = 0 ∧
    t.insert k v = none := by
  refine ⟨?_, ?_, ?_, ?_, ?_, ?_⟩
  · rw [BPT.search, hroot]
  · rw [BPT.searchAll, hroot]
  · rw [BPT.rangeQuery, hroot]
  · rw [BPT.countLessOrEqual, hroot]
  · rw [BPT.countInRange, hroot]
  · rw [BPT.insert, hroot]

theorem C9_null_root_behavior_witness :
    ((runOps 3 [Op.ins (1 : Int) (0 : Nat), Op.del 1]).getD
        ⟨none, 0⟩).search 5 = default ∧
    ((runOps 3 [Op.ins (1 : Int) (0 : Nat), Op.del 1]).getD
        ⟨none, 0⟩).searchAll 5 = none ∧
    ((runOps 3 [Op.ins (1 : Int) (0 : Nat), Op.del 1]).getD
        ⟨none, 0⟩).rangeQuery 1 2 = [] ∧
    ((runOps 3 [Op.ins (1 : Int) (0 : Nat), Op.del 1]).getD
        ⟨none, 0⟩).countLessOrEqual 3 = 0 ∧
    BPT.countInRange (-100) ((runOps 3 [Op.ins (1 : Int) (0 : Nat), Op.del 1]).getD
        ⟨none, 0⟩) 1 2 = 0 ∧
    ((runOps 3 [Op.ins (1 : Int) (0 : Nat), Op.del 1]).getD
        ⟨none, 0⟩).insert 5 7 = none :=
  C9_null_root_behavior
    ((runOps 3 [Op.ins (1 : Int) (0 : Nat), Op.del 1]).getD ⟨none, 0⟩)
    5 1 2 3 (-100) 7 ⟨[Op.ins (1 : Int) (0 : Nat), Op.del 1], rfl⟩ rfl

/-- Counterexample to C9's last clause: after the last key is removed, a
subsequent insert does not re-establish a root — it dereferences the null
root (modelled as `none`), crashing the run. -/
theorem C9_insert_after_emptying_counterexample :
    runOps 3 [Op.ins (1 : Int) (0 : Nat), Op.del 1, Op.ins 2 5] = none ∧
    ((runOps 3 [Op.ins (1 : Int) (0 : Nat), Op.del 1]).getD
      ⟨none, 0⟩).insert 2 5 = none :=
  ⟨rfl, rfl⟩

/-- **C1.** Refuted: `countInRange` is wrong on non-integer key types.  The
source subtracts `count_le(Smin − 1)` (with a comment assuming an integer
key type) instead of using the predecessor of `Smin` in the key order; with
rational keys, the reachable tree holding only the key `1/2` reports one
stored pair in the interval `[1, 2]` although no stored key lies in it. -/
theorem C1_countInRange_smin_minus_one :
    ∃ (t : BPT ℚ Nat), Reachable t ∧
      sumLens ((t.entries.filter fun p =>
        decide ((1 : ℚ) ≤ p.1 ∧ p.1 ≤ 2)).map Prod.snd) = 0 ∧
      BPT.countInRange (-1000000000 : ℚ) t 1 2 = 1 := by
  refine ⟨(runOps 3 [Op.ins ((1 : ℚ)/2) (0 : Nat)]).getD ⟨none, 0⟩,
    ⟨[Op.ins ((1 : ℚ)/2) (0 : Nat)], rfl⟩, ?_, ?_⟩
  · norm_num [BPT.entries, runOps, opStep, BPT.new, BPT.insert, insertRec,
      leafInsert, lowerBound, List.takeWhile, entriesOf, List.filter, sumLens]
  · norm_num [BPT.countInRange, BPT.countLessOrEqual, countLERec, runOps,
      opStep, BPT.new, BPT.insert, insertRec, leafInsert, lowerBound,
      upperBound, List.takeWhile, sumLens]

end TreeClaims

section ChooserMath

/-- Partial products of the C++ coefficient loop are binomial coefficients:
after `m` steps with numerator offset `c` the product equals `C(c + m, m)`. -/
theorem foldl_prod_choose (c : Nat) :
    ∀ m : Nat, (List.range m).foldl
      (fun (r : ℚ) (i : Nat) => r * ((c : ℚ) + (i : ℚ) + 1) / ((i : ℚ) + 1)) 1
      = ((c + m).choose m : ℚ) := by
  intro m
  induction m with
  | zero => simp
  | succ m ih =>
    rw [List.range_succ, List.foldl_append, List.foldl_cons, List.foldl_nil, ih]
    have h0 : ((m : ℚ) + 1) ≠ 0 := by positivity
    have hid := Nat.succ_mul_choose_eq (c + m) m
    have hq : ((c : ℚ) + (m : ℚ) + 1) * (((c + m).choose m : ℕ) : ℚ)
        = (((c + m + 1).choose (m + 1) : ℕ) : ℚ) * ((m : ℚ) + 1) := by
      exact_mod_cast congrArg (Nat.cast (R := ℚ)) hid
    have hgoal : (c + (m + 1)).choose (m + 1) = (c + m + 1).choose (m + 1) := by
      rw [← Nat.add_assoc]
    rw [hgoal]
    field_simp
    linear_combination hq

/-- The whole C++ coefficient loop (for `1 ≤ kk ≤ n`) computes `C(n, kk)`. -/
theorem coeff_loop_eq {n kk : Int} (h1 : 1 ≤ kk) (hn : kk ≤ n) :
    (List.range kk.toNat).foldl
      (fun (r : ℚ) (i : ℕ) =>
        r * (((n - (kk - ((i : Int) + 1)) : Int) : ℚ)) / ((i : ℚ) + 1)) 1
      = (n.toNat.choose kk.toNat : ℚ) := by
  have hext : ∀ (r : ℚ), ∀ i ∈ List.range kk.toNat,
      r * (((n - (kk - ((i : Int) + 1)) : Int) : ℚ)) / ((i : ℚ) + 1)
      = r * ((((n - kk).toNat : ℕ) : ℚ) + (i : ℚ) + 1) / ((i : ℚ) + 1) := by
    intro r i hi
    have h2 : (n - (kk - ((i : Int) + 1)) : Int)
        = ((n - kk).toNat : Int) + (i : Int) + 1 := by omega
    rw [h2]
    push_cast
    ring
  rw [List.foldl_ext _ _ 1 hext, foldl_prod_choose]
  have h3 : (n - kk).toNat + kk.toNat = n.toNat := by omega
  rw [h3]

/-- The C++ `binomialCoefficient` equals the mathematical binomial
coefficient whenever both arguments are non-negative. -/
theorem binomialCoefficient_eq_choose {n k : Int} (hk : 0 ≤ k) (hn : 0 ≤ n) :
    binomialCoefficient n k = (n.toNat.choose k.toNat : ℚ) := by
  by_cases hlt : n < k
  · rw [binomialCoefficient, if_pos hlt,
      Nat.choose_eq_zero_of_lt (by omega)]
    simp
  · by_cases he : k = 0 ∨ k = n
    · rw [binomialCoefficient, if_neg hlt, if_pos he]
      rcases he with rfl | rfl
      · simp
      · rw [Nat.choose_self]
        simp
    · simp only [binomialCoefficient, if_neg hlt, if_neg he]
      by_cases hc : k < n - k
      · rw [if_pos hc, coeff_loop_eq (by omega) (by omega)]
      · rw [if_neg hc, coeff_loop_eq (by omega) (by omega)]
        have h2 : (n - k).toNat = n.toNat - k.toNat := by omega
        rw [h2, Nat.choose_symm (by omega : k.toNat ≤ n.toNat)]

/-- The CDF `foldl` over `List.range` as a `Finset.range` sum. -/
theorem foldl_pmf_range (n : Int) (p : ℚ) :
    ∀ m : Nat, (List.range m).foldl
      (fun (s : ℚ) (i : ℕ) => s + binomialPMF n (i : Int) p) 0
      = ∑ i ∈ Finset.range m, binomialPMF n (i : Int) p := by
  intro m
  induction m with
  | zero => simp
  | succ m ih =>
    rw [List.range_succ, List.foldl_append, List.foldl_cons, List.foldl_nil,
      ih, Finset.sum_range_succ]

/-- Bridge: for `0 ≤ n` and `0 ≤ p ≤ 1`, the C++ `binomialCDFLessThan`
computes exactly the mathematical CDF sum. -/
theorem binomialCDFLessThan_eq_cdfSum {n k : Int} {p : ℚ} (hn : 0 ≤ n)
    (hp0 : 0 ≤ p) (hp1 : p ≤ 1) :
    binomialCDFLessThan n k p = cdfSum n.toNat k.toNat p := by
  rw [binomialCDFLessThan, foldl_pmf_range, cdfSum]
  refine Finset.sum_congr rfl fun i hi => ?_
  rw [binomialPMF, if_neg (by
    simp only [not_or, not_lt]
    exact ⟨hp0, hp1⟩),
    binomialCoefficient_eq_choose (by omega) hn]
  have h1 : ((i : Int)).toNat = i := by omega
  have h2 : (n - (i : Int)).toNat = n.toNat - i := by omega
  rw [h1, h2]

theorem cdfSum_term_nonneg {p : ℚ} (hp0 : 0 ≤ p) (hp1 : p ≤ 1)
    (n i : Nat) : 0 ≤ (n.choose i : ℚ) * p ^ i * (1 - p) ^ (n - i) :=
  mul_nonneg (mul_nonneg (Nat.cast_nonneg _) (pow_nonneg hp0 _))
    (pow_nonneg (by linarith) _)

/-- `cdfSum` is monotone in the threshold `k`. -/
theorem cdfSum_mono_k {p : ℚ} (hp0 : 0 ≤ p) (hp1 : p ≤ 1) (n : Nat)
    {k k' : Nat} (hkk : k ≤ k') : cdfSum n k p ≤ cdfSum n k' p := by
  refine Finset.sum_le_sum_of_subset_of_nonneg (Finset.range_subset.2 hkk) ?_
  intro i _ _
  exact cdfSum_term_nonneg hp0 hp1 n i

/-- Pascal step: adding one more trial can only decrease `P(X < k)`. -/
theorem cdfSum_succ_n_le {p : ℚ} (hp0 : 0 ≤ p) (hp1 : p ≤ 1) (n k : Nat) :
    cdfSum (n + 1) k p ≤ cdfSum n k p := by
  cases k with
  | zero => simp [cdfSum]
  | succ k =>
    have hdistrib : ∀ i ∈ Finset.range k,
        (((n+1).choose (i+1) : ℕ) : ℚ) * p ^ (i+1) * (1 - p) ^ (n - i)
        = p * ((n.choose i : ℚ) * p ^ i * (1 - p) ^ (n - i))
          + (1 - p) * ((n.choose (i+1) : ℚ) * p ^ (i+1) * (1 - p) ^ (n - (i+1))) := by
      intro i hi
      rw [Nat.choose_succ_succ]
      by_cases hin : i + 1 ≤ n
      · have he : n - i = (n - (i+1)) + 1 := by omega
        rw [he]
        push_cast
        ring
      · have hz : n.choose (i+1) = 0 := Nat.choose_eq_zero_of_lt (by omega)
        have hz2 : n - i = 0 := by omega
        have hz3 : n - (i+1) = 0 := by omega
        rw [hz, hz2, hz3]
        push_cast
        ring
    have hL : cdfSum (n + 1) (k + 1) p
        = (∑ i ∈ Finset.range k,
            (p * ((n.choose i : ℚ) * p ^ i * (1 - p) ^ (n - i))
             + (1 - p) * ((n.choose (i+1) : ℚ) * p ^ (i+1) * (1 - p) ^ (n - (i+1)))))
          + (1 - p) ^ (n + 1) := by
      rw [cdfSum, Finset.sum_range_succ']
      congr 1
      · refine Finset.sum_congr rfl fun i hi => ?_
        have he2 : n + 1 - (i + 1) = n - i := by omega
        rw [he2]
        exact hdistrib i hi
      · simp
    have hR : (1 - p) * cdfSum n (k + 1) p
        = (∑ i ∈ Finset.range k,
            (1 - p) * ((n.choose (i+1) : ℚ) * p ^ (i+1) * (1 - p) ^ (n - (i+1))))
          + (1 - p) ^ (n + 1) := by
      rw [cdfSum, Finset.sum_range_succ', mul_add, Finset.mul_sum]
      congr 1
      simp only [Nat.choose_zero_right, Nat.cast_one, pow_zero, one_mul,
        Nat.sub_zero, pow_succ]
      ring
    have hPA : p * cdfSum n k p
        = ∑ i ∈ Finset.range k,
            p * ((n.choose i : ℚ) * p ^ i * (1 - p) ^ (n - i)) := by
      rw [cdfSum, Finset.mul_sum]
    have key : cdfSum (n + 1) (k + 1) p
        = p * cdfSum n k p + (1 - p) * cdfSum n (k + 1) p := by
      rw [hL, Finset.sum_add_distrib, hPA, hR]
      ring
    have hmono := cdfSum_mono_k hp0 hp1 n (Nat.le_succ k)
    have hstep := mul_le_mul_of_nonneg_left hmono hp0
    calc cdfSum (n + 1) (k + 1) p
        = p * cdfSum n k p + (1 - p) * cdfSum n (k + 1) p := key
      _ ≤ p * cdfSum n (k + 1) p + (1 - p) * cdfSum n (k + 1) p := by linarith
      _ = cdfSum n (k + 1) p := by ring

/-- `cdfSum` is antitone in the number of trials `n`. -/
theorem cdfSum_anti_n {p : ℚ} (hp0 : 0 ≤ p) (hp1 : p ≤ 1) (k : Nat)
    {n n' : Nat} (h : n ≤ n') : cdfSum n' k p ≤ cdfSum n k p := by
  induction n', h using Nat.le_induction with
  | base => exact le_rfl
  | succ m hm ih => exact le_trans (cdfSum_succ_n_le hp0 hp1 m k) ih

/-- The C++ CDF is antitone in `n` on non-negative arguments. -/
theorem binomialCDFLessThan_anti {k : Int} {p : ℚ} (hp0 : 0 ≤ p) (hp1 : p ≤ 1)
    {O O' : Int} (h0 : 0 ≤ O) (hOO : O ≤ O') :
    binomialCDFLessThan O' k p ≤ binomialCDFLessThan O k p := by
  rw [binomialCDFLessThan_eq_cdfSum h0 hp0 hp1,
    binomialCDFLessThan_eq_cdfSum (le_trans h0 hOO) hp0 hp1]
  exact cdfSum_anti_n hp0 hp1 k.toNat (by omega)

theorem IsLeastOr_unique {M k : Int} {P : Int → Prop} {R1 R2 : Int}
    (h1 : IsLeastOr M k P R1) (h2 : IsLeastOr M k P R2) : R1 = R2 := by
  by_cases he : ∃ O, k ≤ O ∧ O ≤ M ∧ P O
  · obtain ⟨hk1, hM1, hP1, hmin1⟩ := h1.1 he
    obtain ⟨hk2, hM2, hP2, hmin2⟩ := h2.1 he
    exact le_antisymm (hmin1 _ hk2 hM2 hP2) (hmin2 _ hk1 hM1 hP1)
  · rw [h1.2 he, h2.2 he]

/-- The linear scan from `O` upward returns the least satisfying `O` in
`[k, M]` (or `M`), given that nothing below `O` satisfies the predicate. -/
theorem linLoop_isLeast (M k : Int) (p α : ℚ) :
    ∀ (fuel : Nat) (O : Int), k ≤ O → (M + 1 - O).toNat < fuel →
      (∀ O2, k ≤ O2 → O2 < O → ¬ binomialCDFLessThan O2 k p ≤ α) →
      IsLeastOr M k (fun O' => binomialCDFLessThan O' k p ≤ α)
        (linLoop M k p α fuel O) := by
  intro fuel
  induction fuel with
  | zero =>
    intro O hkO hfuel hpre
    exact absurd hfuel (by omega)
  | succ fuel ih =>
    intro O hkO hfuel hpre
    simp only [linLoop]
    by_cases hOM : O ≤ M
    · rw [if_pos hOM]
      by_cases hg : binomialCDFLessThan O k p ≤ α
      · rw [if_pos hg]
        constructor
        · intro _
          refine ⟨hkO, hOM, hg, fun O' hk' hM' hP' => ?_⟩
          by_contra hlt
          push_neg at hlt
          exact hpre O' hk' hlt hP'
        · intro hne
          exact absurd ⟨O, hkO, hOM, hg⟩ hne
      · rw [if_neg hg]
        refine ih (O + 1) (by omega) (by omega) ?_
        intro O2 hk2 hlt2
        by_cases hcase : O2 < O
        · exact hpre O2 hk2 hcase
        · have h5 : O2 = O := by omega
          rw [h5]
          exact hg
    · rw [if_neg hOM]
      constructor
      · rintro ⟨O', hk', hM', hP'⟩
        exact absurd hP' (hpre O' hk' (by omega))
      · intro _
        rfl

/-- The C++ binary search maintains: nothing below `left` satisfies the
predicate; `best` is `M` or a satisfying value above `right`; and `best` is
below every satisfying value above `right`.  It returns the least satisfying
`O` in `[k, M]`, or `M`. -/
theorem bsLoop_isLeast (M k : Int) (p α : ℚ) (hk : 0 < k)
    (hup : ∀ O O', k ≤ O → O ≤ O' → binomialCDFLessThan O k p ≤ α →
      binomialCDFLessThan O' k p ≤ α) :
    ∀ (fuel : Nat) (left right best : Int),
      k ≤ left → right ≤ M →
      (right + 1 - left).toNat < fuel →
      (∀ O2, k ≤ O2 → O2 < left → ¬ binomialCDFLessThan O2 k p ≤ α) →
      (best = M ∨ (k ≤ best ∧ best ≤ M ∧ binomialCDFLessThan best k p ≤ α ∧
        right < best)) →
      (∀ O2, right < O2 → O2 ≤ M → binomialCDFLessThan O2 k p ≤ α →
        best ≤ O2) →
      IsLeastOr M k (fun O => binomialCDFLessThan O k p ≤ α)
        (bsLoop k p α fuel left right best) := by
  intro fuel
  induction fuel with
  | zero =>
    intro left right best hkl hrM hfuel hlow hbest hbmin
    exact absurd hfuel (by omega)
  | succ fuel ih =>
    intro left right best hkl hrM hfuel hlow hbest hbmin
    simp only [bsLoop]
    by_cases hlr : left ≤ right
    · rw [if_pos hlr]
      have hmid : left ≤ Int.tdiv (left + right) 2 ∧
          Int.tdiv (left + right) 2 ≤ right := by
        rw [Int.tdiv_eq_ediv] <;> omega
      by_cases hg : binomialCDFLessThan (Int.tdiv (left + right) 2) k p ≤ α
      · rw [if_pos hg]
        refine ih left (Int.tdiv (left + right) 2 - 1)
          (Int.tdiv (left + right) 2) hkl (by omega) (by omega) hlow
          (Or.inr ⟨by omega, by omega, hg, by omega⟩) ?_
        intro O2 h1 h2 h3
        omega
      · rw [if_neg hg]
        refine ih (Int.tdiv (left + right) 2 + 1) right best (by omega) hrM
          (by omega) ?_ hbest hbmin
        intro O2 hk2 hlt2
        by_cases hcase : O2 < left
        · exact hlow O2 hk2 hcase
        · intro hgood
          exact hg (hup O2 (Int.tdiv (left + right) 2) hk2 (by omega) hgood)
    · rw [if_neg hlr]
      constructor
      · rintro ⟨O', hk', hM', hP'⟩
        have hbO' : best ≤ O' := by
          refine hbmin O' ?_ hM' hP'
          by_contra hlt
          push_neg at hlt
          exact hlow O' hk' (by omega) hP'
        rcases hbest with hbM | ⟨hb1, hb2, hb3, _⟩
        · have hO'M : O' = M := by omega
          refine ⟨by omega, by omega, ?_, ?_⟩
          · rw [hbM, ← hO'M]
            exact hP'
          · intro O h1 h2 h3
            refine hbmin O ?_ h2 h3
            by_contra hlt
            push_neg at hlt
            exact hlow O h1 (by omega) h3
        · refine ⟨hb1, hb2, hb3, ?_⟩
          intro O h1 h2 h3
          refine hbmin O ?_ h2 h3
          by_contra hlt
          push_neg at hlt
          exact hlow O h1 (by omega) h3
      · intro hne
        rcases hbest with hbM | ⟨hb1, hb2, hb3, _⟩
        · exact hbM
        · exact absurd ⟨best, hb1, hb2, hb3⟩ hne

end ChooserMath

section VectorSpec

theorem sublist_flatMap {α β : Type} {l1 l2 : List α} (f : α → List β)
    (h : List.Sublist l1 l2) : List.Sublist (l1.flatMap f) (l2.flatMap f) := by
  induction h with
  | slnil => exact List.Sublist.refl _
  | cons a h ih =>
    rw [List.flatMap_cons]
    exact List.sublist_append_of_sublist_right ih
  | cons₂ a h ih =>
    rw [List.flatMap_cons, List.flatMap_cons]
    exact List.Sublist.append_left ih _

/-- The descending-id tie-breaking sort is a legal `std::sort` outcome. -/
theorem tieSort_ok : SortOK tieSort := by
  intro l
  refine ⟨List.perm_insertionSort tieRel l, ?_⟩
  refine (List.sorted_insertionSort tieRel l).imp ?_
  intro a b hab
  rcases hab with h | ⟨h, _⟩
  · exact le_of_lt h
  · exact le_of_eq h

/-- Whatever conforming sort is used, the ids a query returns come out in
non-decreasing order of their squared distance to the query vector. -/
theorem query_pairs_sorted (sortImpl : List (ℚ × Int) → List (ℚ × Int))
    (hs : SortOK sortImpl) (v : List ℚ) (dv : List (List ℚ))
    (ids : List Int) (m : Nat) :
    (((sortImpl (ids.map fun idx =>
        (euclideanDistSquared v (dv.getD idx.toNat []), idx))).take m).map
      Prod.snd).Pairwise fun i j =>
        euclideanDistSquared v (dv.getD i.toNat []) ≤
          euclideanDistSquared v (dv.getD j.toNat []) := by
  obtain ⟨hperm, hpw⟩ := hs (ids.map fun idx =>
    (euclideanDistSquared v (dv.getD idx.toNat []), idx))
  have hfact : ∀ p ∈ sortImpl (ids.map fun idx =>
      (euclideanDistSquared v (dv.getD idx.toNat []), idx)),
      p.1 = euclideanDistSquared v (dv.getD p.2.toNat []) := by
    intro p hp
    have hp2 := hperm.mem_iff.1 hp
    obtain ⟨idx, _, heq⟩ := List.mem_map.1 hp2
    rw [← heq]
  have hpw2 : ((sortImpl (ids.map fun idx =>
      (euclideanDistSquared v (dv.getD idx.toNat []), idx))).take m).Pairwise
      fun a b => euclideanDistSquared v (dv.getD a.2.toNat []) ≤
        euclideanDistSquared v (dv.getD b.2.toNat []) := by
    refine List.Pairwise.imp_of_mem ?_ (hpw.sublist (List.take_sublist m _))
    intro a b ha hb hab
    rw [← hfact a (List.mem_of_mem_take ha), ← hfact b (List.mem_of_mem_take hb)]
    exact hab
  rw [List.pairwise_map]
  exact hpw2

/-- Membership, distinctness and length of the id list a query returns, in
terms of the candidate ids fed to the sort. -/
theorem query_tail_props (sortImpl : List (ℚ × Int) → List (ℚ × Int))
    (hs : SortOK sortImpl) (v : List ℚ) (dv : List (List ℚ))
    (ids : List Int) (m : Nat) :
    (∀ id2 ∈ ((sortImpl (ids.map fun idx =>
        (euclideanDistSquared v (dv.getD idx.toNat []), idx))).take m).map
        Prod.snd, id2 ∈ ids) ∧
    (ids.Nodup → (((sortImpl (ids.map fun idx =>
        (euclideanDistSquared v (dv.getD idx.toNat []), idx))).take m).map
        Prod.snd).Nodup) ∧
    (((sortImpl (ids.map fun idx =>
        (euclideanDistSquared v (dv.getD idx.toNat []), idx))).take m).map
        Prod.snd).length ≤ m := by
  obtain ⟨hperm, _⟩ := hs (ids.map fun idx =>
    (euclideanDistSquared v (dv.getD idx.toNat []), idx))
  have hsnd : (sortImpl (ids.map fun idx =>
      (euclideanDistSquared v (dv.getD idx.toNat []), idx))).map Prod.snd
      |>.Perm ids := by
    have h1 := hperm.map Prod.snd
    rw [List.map_map] at h1
    have h2 : (ids.map (Prod.snd ∘ fun idx =>
        (euclideanDistSquared v (dv.getD idx.toNat []), idx))) = ids := by
      have h3 : (Prod.snd ∘ fun idx : Int =>
          (euclideanDistSquared v (dv.getD idx.toNat []), idx)) = id := rfl
      rw [h3, List.map_id]
    rw [h2] at h1
    exact h1
  refine ⟨?_, ?_, ?_⟩
  · intro id2 hid2
    obtain ⟨p, hp, hpe⟩ := List.mem_map.1 hid2
    have hp2 : p ∈ sortImpl (ids.map fun idx =>
        (euclideanDistSquared v (dv.getD idx.toNat []), idx)) :=
      List.mem_of_mem_take hp
    have : p.2 ∈ (sortImpl (ids.map fun idx =>
        (euclideanDistSquared v (dv.getD idx.toNat []), idx))).map Prod.snd :=
      List.mem_map.2 ⟨p, hp2, rfl⟩
    rw [← hpe]
    exact hsnd.mem_iff.1 this
  · intro hnd
    have hnd2 := hsnd.symm.nodup hnd
    rw [List.map_take]
    exact hnd2.sublist (List.take_sublist m _)
  · rw [List.length_map]
    exact List.length_take_le m _

/-- Running "insert vector `[0]` with `s = 1`, then vector `[0]` with
`s = 2`" from a fresh order-3 planner. -/
theorem ix8_run : runIxOps 3 [([0], 1), ([0], 2)] =
    some ⟨⟨some (.leaf [1, 2] [[0], [1]] 2), 3⟩, [[0], [0]], [1, 2], 1⟩ := by
  norm_num [runIxOps, ixStep, VIndex.new, VIndex.insert, BPT.new, BPT.insert,
    insertRec, leafInsert, lowerBound, List.takeWhile, sumLens, List.foldl,
    List.isEmpty]

/-- The fixed-`O` planner on that state: both records pass the filter, both
distances to `[0]` are `0`, and the descending-id tie sort returns
`[1, 0]`. -/
theorem ix8_qf : queryFixed (fun _ _ => [0, 1]) tieSort
    ⟨⟨some (.leaf [1, 2] [[0], [1]] 2), 3⟩, [[0], [0]], [1, 2], 1⟩
    [0] 2 0 3 1000 = .ok [1, 0] := by
  norm_num [queryFixed, BPT.countInRange, BPT.countLessOrEqual, countLERec,
    upperBound, List.takeWhile, sumLens, floatLowest, BPT.rangeQuery,
    findLeafIdx, leavesOf, scanPairs, euclideanDistSquared, List.range_succ,
    tieSort, List.insertionSort, List.orderedInsert, tieRel, List.isEmpty]

/-- The probabilistic planner on the same state gives the same tie-broken
answer (its chooser picks `O = 102`; the ANN oracle is fixed). -/
theorem ix8_qp : queryProb (fun _ _ => [0, 1]) tieSort
    ⟨⟨some (.leaf [1, 2] [[0], [1]] 2), 3⟩, [[0], [0]], [1, 2], 1⟩
    [0] 2 0 3 (1 / 100) = .ok [1, 0] := by
  norm_num [queryProb, BPT.countInRange, BPT.countLessOrEqual, countLERec,
    upperBound, List.takeWhile, sumLens, floatLowest,
    computeRequiredO_Enhanced, computeRequiredO_BinarySearch,
    euclideanDistSquared, List.range_succ, tieSort, List.insertionSort,
    List.orderedInsert, tieRel, List.isEmpty]

/-- The one-record order-3 planner state holding vector `[0]` with scalar
`1` is well-formed. -/
theorem ix10_IWF : IWF ⟨⟨some (.leaf [1] [[0]] 1), 3⟩, [[0]], [1], 1⟩ := by
  refine ⟨⟨by norm_num, fun r hr => ?_⟩, rfl, ?_, ?_⟩
  · cases hr
    exact ⟨0, wfn_leaf (by simp) rfl (by
      intro x hx
      exact ⟨loOk_none, hiOk_none⟩)⟩
  · intro pr hpr id2 hid2
    simp only [BPT.entries, entriesOf, List.zip_cons_cons, List.zip_nil_right,
      List.mem_singleton] at hpr
    rw [hpr] at hid2 ⊢
    simp only [List.mem_singleton] at hid2
    rw [hid2]
    exact ⟨le_refl 0, by norm_num, rfl⟩
  · simp [BPT.entries, entriesOf]

/-- The fixed-`O` planner on that state, scan path: the single stored id is
returned. -/
theorem ix10_qf : queryFixed (fun _ _ => []) tieSort
    ⟨⟨some (.leaf [1] [[0]] 1), 3⟩, [[0]], [1], 1⟩ [0] 1 0 3 1000 =
      .ok [0] := by
  norm_num [queryFixed, BPT.countInRange, BPT.countLessOrEqual, countLERec,
    upperBound, List.takeWhile, sumLens, floatLowest, BPT.rangeQuery,
    findLeafIdx, leavesOf, scanPairs, euclideanDistSquared, List.range_succ,
    tieSort, List.insertionSort, List.orderedInsert, tieRel, List.isEmpty]

end VectorSpec

section VectorClaims

/-- **C6.** Corrected: a query issued before any insert does NOT fail — both
planners return an empty success (`return {}` at the null-HNSW guard), and
the source has no "no data" error at all; `NoData` never reaches the
caller. -/
theorem C6_empty_index_query_returns_ok :
    (∀ order ix, VIndex.new order = some ix → ix.dataVectors = []) ∧
    (∀ (ix : VIndex), ix.dataVectors = [] →
      ∀ ann sortImpl v k Smin Smax α O,
        queryProb ann sortImpl ix v k Smin Smax α = .ok [] ∧
        queryFixed ann sortImpl ix v k Smin Smax O = .ok [] ∧
        ∀ e : VErr, queryProb ann sortImpl ix v k Smin Smax α ≠ .error e ∧
          queryFixed ann sortImpl ix v k Smin Smax O ≠ .error e) := by
  constructor
  · intro order ix hnew
    rw [VIndex.new] at hnew
    cases hBPT : BPT.new ℚ Int order with
    | none =>
      rw [hBPT] at hnew
      cases hnew
    | some t =>
      rw [hBPT] at hnew
      cases hnew
      rfl
  · intro ix hemp ann sortImpl v k Smin Smax α O
    have h1 : queryProb ann sortImpl ix v k Smin Smax α = .ok [] := by
      rw [queryProb, if_pos (by simp [hemp])]
    have h2 : queryFixed ann sortImpl ix v k Smin Smax O = .ok [] := by
      rw [queryFixed, if_pos (by simp [hemp])]
    refine ⟨h1, h2, fun e => ⟨?_, ?_⟩⟩
    · rw [h1]
      simp
    · rw [h2]
      simp

/-- **C8.** Corrected: both planners do sort candidates by squared distance
(proved below for every sort conforming to the `std::sort` contract), but
ties are NOT broken by ascending id: the comparator `a.first < b.first`
leaves the order of equal-distance candidates unspecified, and a conforming
sort that breaks ties by descending id makes a reachable two-record planner
(two identical vectors) return `[1, 0]` instead of the spec's `[0, 1]`, in
the scan path and in both ANN paths alike. -/
theorem C8_ties_not_broken_by_ascending_id :
    (∀ ann sortImpl ix v k Smin Smax O l, SortOK sortImpl →
      queryFixed ann sortImpl ix v k Smin Smax O = .ok l →
      l.Pairwise fun i j =>
        euclideanDistSquared v (ix.dataVectors.getD i.toNat []) ≤
          euclideanDistSquared v (ix.dataVectors.getD j.toNat [])) ∧
    (∀ ann sortImpl ix v k Smin Smax α l, SortOK sortImpl →
      queryProb ann sortImpl ix v k Smin Smax α = .ok l →
      l.Pairwise fun i j =>
        euclideanDistSquared v (ix.dataVectors.getD i.toNat []) ≤
          euclideanDistSquared v (ix.dataVectors.getD j.toNat [])) ∧
    SortOK tieSort ∧
    (∃ ix : VIndex, IxReachable ix ∧
      euclideanDistSquared [0] (ix.dataVectors.getD 0 []) =
        euclideanDistSquared [0] (ix.dataVectors.getD 1 []) ∧
      queryFixed (fun _ _ => [0, 1]) tieSort ix [0] 2 0 3 1000 = .ok [1, 0] ∧
      queryProb (fun _ _ => [0, 1]) tieSort ix [0] 2 0 3 (1 / 100) =
        .ok [1, 0]) := by
  refine ⟨?_, ?_, tieSort_ok, ?_⟩
  · intro ann sortImpl ix v k Smin Smax O l hs hres
    simp only [queryFixed] at hres
    by_cases h1 : ix.dataVectors.isEmpty
    · rw [if_pos h1] at hres
      cases hres
      exact List.Pairwise.nil
    · rw [if_neg h1] at hres
      by_cases h2 : (v.length : Int) ≠ ix.dimension
      · rw [if_pos h2] at hres
        cases hres
      · rw [if_neg h2] at hres
        by_cases h3 : BPT.countInRange floatLowest ix.tree Smin Smax ≤ 0
        · rw [if_pos h3] at hres
          cases hres
          exact List.Pairwise.nil
        · rw [if_neg h3] at hres
          by_cases h4 : BPT.countInRange floatLowest ix.tree Smin Smax < O
          · rw [if_pos h4] at hres
            cases hres
            exact query_pairs_sorted sortImpl hs v ix.dataVectors _ k.toNat
          · rw [if_neg h4] at hres
            cases hres
            exact query_pairs_sorted sortImpl hs v ix.dataVectors _ k.toNat
  · intro ann sortImpl ix v k Smin Smax α l hs hres
    simp only [queryProb] at hres
    by_cases h1 : ix.dataVectors.isEmpty
    · rw [if_pos h1] at hres
      cases hres
      exact List.Pairwise.nil
    · rw [if_neg h1] at hres
      by_cases h2 : (v.length : Int) ≠ ix.dimension
      · rw [if_pos h2] at hres
        cases hres
      · rw [if_neg h2] at hres
        by_cases h3 : BPT.countInRange floatLowest ix.tree Smin Smax ≤ 0
        · rw [if_pos h3] at hres
          cases hres
          exact List.Pairwise.nil
        · rw [if_neg h3] at hres
          cases hres
          exact query_pairs_sorted sortImpl hs v ix.dataVectors _ k.toNat
  · refine ⟨⟨⟨some (.leaf [1, 2] [[0], [1]] 2), 3⟩, [[0], [0]], [1, 2], 1⟩,
      ⟨3, [([0], 1), ([0], 2)], ix8_run⟩, rfl, ix8_qf, ix8_qp⟩

theorem C8_ties_not_broken_by_ascending_id_witness :
    SortOK tieSort ∧
    ([(1 : Int), 0].Pairwise fun i j =>
      euclideanDistSquared [0]
        ((⟨⟨some (.leaf [1, 2] [[0], [1]] 2), 3⟩,
          [[0], [0]], [1, 2], 1⟩ : VIndex).dataVectors.getD i.toNat []) ≤
        euclideanDistSquared [0]
          ((⟨⟨some (.leaf [1, 2] [[0], [1]] 2), 3⟩,
            [[0], [0]], [1, 2], 1⟩ : VIndex).dataVectors.getD j.toNat [])) :=
  ⟨C8_ties_not_broken_by_ascending_id.2.2.1,
   C8_ties_not_broken_by_ascending_id.1 (fun _ _ => [0, 1]) tieSort
     ⟨⟨some (.leaf [1, 2] [[0], [1]] 2), 3⟩, [[0], [0]], [1, 2], 1⟩
     [0] 2 0 3 1000 [1, 0] tieSort_ok ix8_qf⟩

/-- **C10.** Confirmed, under the planner well-formedness invariant and the
contracts of the external components (the ANN oracle returns distinct valid
record indices; the sort conforms to the `std::sort` contract): every id a
query of either planner returns is a valid record index, the returned ids
are pairwise distinct, at most `k` are returned, and each returned id's
stored scalar lies in `[Smin, Smax]` — via the scalar filter in the ANN
paths and via `rangeQuery`'s key range in the scan path. -/
theorem C10_query_results_valid (ann : List ℚ → Int → List Int)
    (sortImpl : List (ℚ × Int) → List (ℚ × Int)) (ix : VIndex) (v : List ℚ)
    (k : Int) (Smin Smax : ℚ)
    (hixf : IWF ix) (hs : SortOK sortImpl)
    (hannd : ∀ N, (ann v N).Nodup)
    (hannm : ∀ N, ∀ id2 ∈ ann v N,
      0 ≤ id2 ∧ id2.toNat < ix.dataVectors.length) :
    (∀ O l, queryFixed ann sortImpl ix v k Smin Smax O = .ok l →
      (∀ id2 ∈ l, 0 ≤ id2 ∧ id2.toNat < ix.dataVectors.length ∧
        Smin ≤ ix.sValues.getD id2.toNat 0 ∧
        ix.sValues.getD id2.toNat 0 ≤ Smax) ∧
      l.Nodup ∧ l.length ≤ k.toNat) ∧
    (∀ α l, queryProb ann sortImpl ix v k Smin Smax α = .ok l →
      (∀ id2 ∈ l, 0 ≤ id2 ∧ id2.toNat < ix.dataVectors.length ∧
        Smin ≤ ix.sValues.getD id2.toNat 0 ∧
        ix.sValues.getD id2.toNat 0 ≤ Smax) ∧
      l.Nodup ∧ l.length ≤ k.toNat) := by
  obtain ⟨htwf, hlen, hent, hnd⟩ := hixf
  have hscan : ∀ id2 ∈ ix.tree.rangeQuery Smin Smax,
      0 ≤ id2 ∧ id2.toNat < ix.dataVectors.length ∧
      Smin ≤ ix.sValues.getD id2.toNat 0 ∧
      ix.sValues.getD id2.toNat 0 ≤ Smax := by
    intro id2 hid2
    rw [rangeQuery_entries htwf] at hid2
    obtain ⟨pr, hpr, hin⟩ := List.mem_flatMap.1 hid2
    have hpr2 := List.mem_filter.1 hpr
    obtain ⟨hr1, hr2⟩ := of_decide_eq_true hpr2.2
    obtain ⟨ha, hb, hc⟩ := hent pr hpr2.1 id2 hin
    exact ⟨ha, hb, by rw [hc]; exact hr1, by rw [hc]; exact hr2⟩
  have hscannd : (ix.tree.rangeQuery Smin Smax).Nodup := by
    rw [rangeQuery_entries htwf]
    exact hnd.sublist (sublist_flatMap _ (List.filter_sublist _))
  have hfilt : ∀ N, ∀ id2 ∈ (ann v N).filter (fun idx =>
      decide (Smin ≤ ix.sValues.getD idx.toNat 0 ∧
        ix.sValues.getD idx.toNat 0 ≤ Smax)),
      0 ≤ id2 ∧ id2.toNat < ix.dataVectors.length ∧
      Smin ≤ ix.sValues.getD id2.toNat 0 ∧
      ix.sValues.getD id2.toNat 0 ≤ Smax := by
    intro N id2 hid2
    have h5 := List.mem_filter.1 hid2
    obtain ⟨ha, hb⟩ := hannm N id2 h5.1
    obtain ⟨hc, hd⟩ := of_decide_eq_true h5.2
    exact ⟨ha, hb, hc, hd⟩
  have hbranch : ∀ ids : List Int,
      (∀ id2 ∈ ids, 0 ≤ id2 ∧ id2.toNat < ix.dataVectors.length ∧
        Smin ≤ ix.sValues.getD id2.toNat 0 ∧
        ix.sValues.getD id2.toNat 0 ≤ Smax) →
      ids.Nodup →
      (∀ id2 ∈ ((sortImpl (ids.map fun idx =>
          (euclideanDistSquared v (ix.dataVectors.getD idx.toNat []),
            idx))).take k.toNat).map Prod.snd,
        0 ≤ id2 ∧ id2.toNat < ix.dataVectors.length ∧
        Smin ≤ ix.sValues.getD id2.toNat 0 ∧
        ix.sValues.getD id2.toNat 0 ≤ Smax) ∧
      (((sortImpl (ids.map fun idx =>
          (euclideanDistSquared v (ix.dataVectors.getD idx.toNat []),
            idx))).take k.toNat).map Prod.snd).Nodup ∧
      (((sortImpl (ids.map fun idx =>
          (euclideanDistSquared v (ix.dataVectors.getD idx.toNat []),
            idx))).take k.toNat).map Prod.snd).length ≤ k.toNat := by
    intro ids hprops hndids
    obtain ⟨hmem, hnodup, hlen2⟩ :=
      query_tail_props sortImpl hs v ix.dataVectors ids k.toNat
    exact ⟨fun id2 h => hprops id2 (hmem id2 h), hnodup hndids, hlen2⟩
  constructor
  · intro O l hres
    simp only [queryFixed] at hres
    by_cases h1 : ix.dataVectors.isEmpty
    · rw [if_pos h1] at hres
      cases hres
      exact ⟨fun id2 h => absurd h (List.not_mem_nil id2),
        List.nodup_nil, by simp⟩
    · rw [if_neg h1] at hres
      by_cases h2 : (v.length : Int) ≠ ix.dimension
      · rw [if_pos h2] at hres
        cases hres
      · rw [if_neg h2] at hres
        by_cases h3 : BPT.countInRange floatLowest ix.tree Smin Smax ≤ 0
        · rw [if_pos h3] at hres
          cases hres
          exact ⟨fun id2 h => absurd h (List.not_mem_nil id2),
            List.nodup_nil, by simp⟩
        · rw [if_neg h3] at hres
          by_cases h4 : BPT.countInRange floatLowest ix.tree Smin Smax < O
          · rw [if_pos h4] at hres
            cases hres
            exact hbranch _ hscan hscannd
          · rw [if_neg h4] at hres
            cases hres
            exact hbranch _ (hfilt O) ((hannd O).filter _)
  · intro α l hres
    simp only [queryProb] at hres
    by_cases h1 : ix.dataVectors.isEmpty
    · rw [if_pos h1] at hres
      cases hres
      exact ⟨fun id2 h => absurd h (List.not_mem_nil id2),
        List.nodup_nil, by simp⟩
    · rw [if_neg h1] at hres
      by_cases h2 : (v.length : Int) ≠ ix.dimension
      · rw [if_pos h2] at hres
        cases hres
      · rw [if_neg h2] at hres
        by_cases h3 : BPT.countInRange floatLowest ix.tree Smin Smax ≤ 0
        · rw [if_pos h3] at hres
          cases hres
          exact ⟨fun id2 h => absurd h (List.not_mem_nil id2),
            List.nodup_nil, by simp⟩
        · rw [if_neg h3] at hres
          cases hres
          exact hbranch _
            (hfilt (computeRequiredO_Enhanced (ix.dataVectors.length : Int)
              (BPT.countInRange floatLowest ix.tree Smin Smax) k α))
            ((hannd _).filter _)

theorem C10_query_results_valid_witness :
    ([(0 : Int)].Nodup ∧ [(0 : Int)].length ≤ (1 : Int).toNat) ∧
    (∀ id2 ∈ [(0 : Int)], 0 ≤ id2 ∧
      id2.toNat < (⟨⟨some (.leaf [1] [[0]] 1), 3⟩,
        [[0]], [1], 1⟩ : VIndex).dataVectors.length ∧
      (0 : ℚ) ≤ (⟨⟨some (.leaf [1] [[0]] 1), 3⟩,
        [[0]], [1], 1⟩ : VIndex).sValues.getD id2.toNat 0 ∧
      (⟨⟨some (.leaf [1] [[0]] 1), 3⟩,
        [[0]], [1], 1⟩ : VIndex).sValues.getD id2.toNat 0 ≤ 3) :=
  have happ := (C10_query_results_valid (fun _ _ => []) tieSort
    ⟨⟨some (.leaf [1] [[0]] 1), 3⟩, [[0]], [1], 1⟩ [0] 1 0 3 ix10_IWF
    tieSort_ok (fun N => List.nodup_nil)
    (fun N id2 h => absurd h (List.not_mem_nil id2))).1 1000 [0] ix10_qf
  ⟨⟨happ.2.1, happ.2.2⟩, happ.1⟩

/-- Counterexample to C6 as stated: on a fresh order-5 planner both queries
succeed with `[]`; no error of any kind is raised. -/
theorem C6_fresh_index_no_error_counterexample :
    (VIndex.new 5).map
      (fun ix => queryFixed (fun _ _ => []) id ix [0, 0] 3 0 1 10) =
      some (.ok []) ∧
    (VIndex.new 5).map
      (fun ix => queryProb (fun _ _ => []) id ix [0, 0] 3 0 1 (1 / 4)) =
      some (.ok []) :=
  ⟨rfl, rfl⟩

/-- Counterexample to C8 as stated: a reachable two-record planner with two
identical vectors, queried with a conforming sort that breaks distance ties
by descending id, returns `[1, 0]` — not the ascending-id order `[0, 1]`. -/
theorem C8_descending_tie_counterexample :
    IxReachable ⟨⟨some (.leaf [1, 2] [[0], [1]] 2), 3⟩,
      [[0], [0]], [1, 2], 1⟩ ∧
    SortOK tieSort ∧
    queryFixed (fun _ _ => [0, 1]) tieSort
      ⟨⟨some (.leaf [1, 2] [[0], [1]] 2), 3⟩, [[0], [0]], [1, 2], 1⟩
      [0] 2 0 3 1000 = .ok [1, 0] ∧
    [(1 : Int), 0] ≠ [0, 1] :=
  ⟨⟨3, [([0], 1), ([0], 2)], ix8_run⟩, tieSort_ok, ix8_qf, by decide⟩

theorem C6_empty_index_query_returns_ok_witness :
    queryProb (fun _ _ => []) id ⟨⟨some (.leaf [] [] 0), 3⟩, [], [], 0⟩
      [0] 1 0 1 (1 / 100) = .ok [] ∧
    queryFixed (fun _ _ => []) id ⟨⟨some (.leaf [] [] 0), 3⟩, [], [], 0⟩
      [0] 1 0 1 1000 = .ok [] :=
  ⟨(C6_empty_index_query_returns_ok.2 ⟨⟨some (.leaf [] [] 0), 3⟩, [], [], 0⟩
      rfl (fun _ _ => []) id [0] 1 0 1 (1 / 100) 1000).1,
   (C6_empty_index_query_returns_ok.2 ⟨⟨some (.leaf [] [] 0), 3⟩, [], [], 0⟩
      rfl (fun _ _ => []) id [0] 1 0 1 (1 / 100) 1000).2.1⟩

end VectorClaims

section ChooserClaims

/-- **C7.** Corrected: the chooser actually used by the probabilistic planner
is `computeRequiredO_Enhanced`, which always adds a `+100` margin to the
binary-search chooser.  The binary-search chooser itself satisfies the spec's
edge cases (`0` for `k ≤ 0`; `k` for `S ≤ 0`, `S ≥ M`, or `α ≤ 0`), but the
planner's chooser therefore returns `100`, not `0`, when `k ≤ 0`, and
`k + 100`, not `k`, in the other edge cases — e.g. `Enhanced 5 3 0 (1/100) =
100 ≠ 0`. -/
theorem C7_enhanced_chooser_edge_cases :
    (∀ (M S k : Int) (α : ℚ), computeRequiredO_Enhanced M S k α =
      computeRequiredO_BinarySearch M S k α + 100) ∧
    (∀ (M S k : Int) (α : ℚ),
      (k ≤ 0 → computeRequiredO_BinarySearch M S k α = 0) ∧
      (0 < k → S ≤ 0 → computeRequiredO_BinarySearch M S k α = k) ∧
      (0 < k → M ≤ S → computeRequiredO_BinarySearch M S k α = k) ∧
      (0 < k → α ≤ 0 → computeRequiredO_BinarySearch M S k α = k)) ∧
    computeRequiredO_Enhanced 5 3 0 (1 / 100) = 100 := by
  have hedge : ∀ (M S k : Int) (α : ℚ),
      (k ≤ 0 → computeRequiredO_BinarySearch M S k α = 0) ∧
      (0 < k → S ≤ 0 → computeRequiredO_BinarySearch M S k α = k) ∧
      (0 < k → M ≤ S → computeRequiredO_BinarySearch M S k α = k) ∧
      (0 < k → α ≤ 0 → computeRequiredO_BinarySearch M S k α = k) := by
    intro M S k α
    refine ⟨?_, ?_, ?_, ?_⟩
    · intro h
      rw [computeRequiredO_BinarySearch, if_pos h]
    · intro h1 h2
      rw [computeRequiredO_BinarySearch, if_neg (by omega), if_pos h2]
    · intro h1 h3
      by_cases h2 : S ≤ 0
      · rw [computeRequiredO_BinarySearch, if_neg (by omega), if_pos h2]
      · rw [computeRequiredO_BinarySearch, if_neg (by omega), if_neg h2,
          if_pos h3]
    · intro h1 h4
      by_cases h2 : S ≤ 0
      · rw [computeRequiredO_BinarySearch, if_neg (by omega), if_pos h2]
      · by_cases h3 : M ≤ S
        · rw [computeRequiredO_BinarySearch, if_neg (by omega), if_neg h2,
            if_pos h3]
        · rw [computeRequiredO_BinarySearch, if_neg (by omega), if_neg h2,
            if_neg h3, if_pos h4]
  refine ⟨fun M S k α => rfl, hedge, ?_⟩
  rw [computeRequiredO_Enhanced, (hedge 5 3 0 (1 / 100)).1 (by omega)]
  omega

/-- **C4.** Confirmed: for `k > 0`, `0 < S < M`, `α > 0`, the binary-search
chooser returns the smallest `O ∈ [k, M]` with
`P[Binomial(O, S/M) < k] ≤ α` (or `M` when no such `O` exists), and the
linear-scan chooser returns the same value.  The CDF predicate is upward
closed in `O` because `P(X < k)` is antitone in the number of trials
(Pascal's identity gives `F_{n+1}(k) = p·F_n(k-1) + (1-p)·F_n(k)`), so the
binary search is sound; both loops are run with fuel exceeding the interval
length, making the fuel irrelevant. -/
theorem C4_binary_search_least_and_linear_equal (M S k : Int) (α : ℚ)
    (hk : 0 < k) (hS : 0 < S) (hSM : S < M) (hα : 0 < α) :
    IsLeastOr M k
      (fun O => binomialCDFLessThan O k ((S : ℚ) / (M : ℚ)) ≤ α)
      (computeRequiredO_BinarySearch M S k α) ∧
    computeRequiredO_Linear M S k α = computeRequiredO_BinarySearch M S k α := by
  have hM0 : (0 : ℚ) < (M : ℚ) := by exact_mod_cast lt_trans hS hSM
  have hS0 : (0 : ℚ) ≤ (S : ℚ) := by exact_mod_cast le_of_lt hS
  have hp0 : 0 ≤ (S : ℚ) / (M : ℚ) := div_nonneg hS0 (le_of_lt hM0)
  have hp1 : (S : ℚ) / (M : ℚ) ≤ 1 := by
    rw [div_le_one hM0]
    exact_mod_cast le_of_lt hSM
  have hup : ∀ O O', k ≤ O → O ≤ O' →
      binomialCDFLessThan O k ((S : ℚ) / (M : ℚ)) ≤ α →
      binomialCDFLessThan O' k ((S : ℚ) / (M : ℚ)) ≤ α := by
    intro O O' h1 h2 h3
    exact le_trans (binomialCDFLessThan_anti hp0 hp1 (by omega) h2) h3
  have hBS : computeRequiredO_BinarySearch M S k α
      = bsLoop k ((S : ℚ) / (M : ℚ)) α ((M - k).toNat + 2) k M M := by
    rw [computeRequiredO_BinarySearch, if_neg (by omega), if_neg (by omega),
      if_neg (by omega), if_neg (not_le.2 hα)]
  have hLin : computeRequiredO_Linear M S k α
      = linLoop M k ((S : ℚ) / (M : ℚ)) α ((M - k).toNat + 2) k := by
    rw [computeRequiredO_Linear, if_neg (by omega), if_neg (by omega),
      if_neg (by omega), if_neg (not_le.2 hα)]
  have h1 : IsLeastOr M k
      (fun O => binomialCDFLessThan O k ((S : ℚ) / (M : ℚ)) ≤ α)
      (bsLoop k ((S : ℚ) / (M : ℚ)) α ((M - k).toNat + 2) k M M) := by
    refine bsLoop_isLeast M k ((S : ℚ) / (M : ℚ)) α hk hup
      ((M - k).toNat + 2) k M M le_rfl le_rfl (by omega) ?_ (Or.inl rfl) ?_
    · intro O2 h1 h2
      exact absurd (lt_of_le_of_lt h1 h2) (lt_irrefl _)
    · intro O2 h1 h2 h3
      omega
  have h2 : IsLeastOr M k
      (fun O => binomialCDFLessThan O k ((S : ℚ) / (M : ℚ)) ≤ α)
      (linLoop M k ((S : ℚ) / (M : ℚ)) α ((M - k).toNat + 2) k) := by
    refine linLoop_isLeast M k ((S : ℚ) / (M : ℚ)) α ((M - k).toNat + 2) k
      le_rfl (by omega) ?_
    intro O2 h1 h2
    exact absurd (lt_of_le_of_lt h1 h2) (lt_irrefl _)
  refine ⟨by rw [hBS]; exact h1, ?_⟩
  rw [hBS, hLin]
  exact IsLeastOr_unique h2 h1

theorem C4_binary_search_least_and_linear_equal_witness :
    ((0 : Int) < 1 ∧ (0 : Int) < 1 ∧ (1 : Int) < 3 ∧ (0 : ℚ) < 1 / 2) ∧
    (IsLeastOr 3 1
      (fun O => binomialCDFLessThan O 1 (((1 : Int) : ℚ) / ((3 : Int) : ℚ)) ≤
        1 / 2)
      (computeRequiredO_BinarySearch 3 1 1 (1 / 2)) ∧
     computeRequiredO_Linear 3 1 1 (1 / 2) =
       computeRequiredO_BinarySearch 3 1 1 (1 / 2)) :=
  ⟨⟨by norm_num, by norm_num, by norm_num, by norm_num⟩,
   C4_binary_search_least_and_linear_equal 3 1 1 (1 / 2) (by norm_num)
     (by norm_num) (by norm_num) (by norm_num)⟩

/-- Counterexample to C7 as stated: the planner's chooser returns `100`, not
`0`, for `k ≤ 0`, and `k + 100`, not `k`, in the `α ≤ 0` edge case. -/
theorem C7_enhanced_margin_counterexample :
    computeRequiredO_Enhanced 5 3 0 (1 / 100) = 100 ∧ (100 : Int) ≠ 0 ∧
    computeRequiredO_Enhanced 10 2 3 0 = 103 ∧ (103 : Int) ≠ 3 := by
  refine ⟨?_, by norm_num, ?_, by norm_num⟩
  · rw [computeRequiredO_Enhanced, computeRequiredO_BinarySearch,
      if_pos (by omega : (0 : Int) ≤ 0)]
    omega
  · rw [computeRequiredO_Enhanced, computeRequiredO_BinarySearch,
      if_neg (by omega), if_neg (by omega), if_neg (by omega),
      if_pos (le_refl (0 : ℚ))]
    omega

theorem C7_enhanced_chooser_edge_cases_witness :
    computeRequiredO_Enhanced 5 0 1 (1 / 2) =
      computeRequiredO_BinarySearch 5 0 1 (1 / 2) + 100 ∧
    computeRequiredO_BinarySearch 5 0 1 (1 / 2) = 1 :=
  ⟨C7_enhanced_chooser_edge_cases.1 5 0 1 (1 / 2),
    (C7_enhanced_chooser_edge_cases.2.1 5 0 1 (1 / 2)).2.1 (by omega) (by omega)⟩

end ChooserClaims

end BPlus
